import Mathlib

/-!
Verification of the LuminS directory-synchronization engine
(`src/lumins/core.rs`, `src/lumins/file_ops.rs`, `src/lumins/parse.rs`).

The Rust code is shallowly embedded as follows.

* Paths (`std::path::PathBuf`) become lists of components (`Path`); the
  number of `components()` of a `PathBuf` is the length of the list.
* The entry structs `File { path, size }`, `Dir { path }`,
  `Symlink { path, target }` and the collection struct `FileSets` become
  the corresponding Lean structures, with the derived structural equality
  mirroring the derived `Hash/Eq/PartialEq` keys of the Rust structs.
* `rayon_hash::HashSet` difference / intersection become list-level
  `diff` / `inter` computed with the same structural equality; hash-set
  iteration order is unspecified in Rust, so the lists fix one arbitrary,
  claim-irrelevant enumeration order.
* The flag set `HashSet<Flag>` becomes a structure of four booleans,
  one per variant of `parse::Flag`; `flags.contains(&Flag::X)` becomes
  the corresponding field.
* The orchestrator functions `core::synchronize`, `core::copy`,
  `core::remove` are embedded as plan builders: each executor invocation
  (`copy_files`, `copy_files_sequential`, `delete_files`,
  `delete_files_sequential`, `compare_and_copy_files(_sequential)`) in the
  Rust source becomes one `Call` carrying the executor mode
  (parallel/sequential), the operation kind, and the typed entries, in the
  exact textual order of the Rust function bodies.
* `file_ops::sort_files` (an unstable sort by descending
  `path().components().count()`) is embedded as an insertion sort by the
  same descending-depth key; the Rust sort is unstable, so any sort with
  this key is a faithful model.
-/

namespace Lumins

/-- A filesystem path relative to a scan root, as its list of components
(the model of `std::path::PathBuf`; `components().count()` = `length`). -/
abbrev Path := List String

/-- `file_ops::File { path, size }`; equality/hash key is the whole
structure, i.e. the pair `(path, size)`. -/
structure File where
  path : Path
  size : Nat
deriving DecidableEq

/-- `file_ops::Dir { path }`; equality/hash key is `path`. -/
structure Dir where
  path : Path
deriving DecidableEq

/-- `file_ops::Symlink { path, target }`; equality/hash key is
`(path, target)`. -/
structure Symlink where
  path : Path
  target : Path
deriving DecidableEq

/-- `file_ops::FileSets`: the three typed entry collections produced by a
scan.  The Rust sets are hash sets; the model enumerates them as lists. -/
structure FileSets where
  files : List File
  dirs : List Dir
  symlinks : List Symlink
deriving DecidableEq

/-- `HashSet::difference` (and `par_difference`): the elements of `a` that
are not members of `b`, by the entry type's structural equality. -/
def diff {α : Type} [DecidableEq α] (a b : List α) : List α :=
  a.filter (fun x => decide (x ∉ b))

/-- `HashSet::intersection` (and `par_intersection`): the elements of `a`
that are also members of `b`, by the entry type's structural equality. -/
def inter {α : Type} [DecidableEq α] (a b : List α) : List α :=
  a.filter (fun x => decide (x ∈ b))

/-- The model of `parse::Flag` flag sets: one boolean per enum variant;
`flags.contains(&Flag::X)` in the Rust source becomes the matching field. -/
structure Flags where
  noDelete : Bool
  secure : Bool
  verbose : Bool
  sequential : Bool
deriving DecidableEq

/-- The comparator of `file_ops::sort_files`:
`b.path().components().count().cmp(&a.path().components().count())`,
i.e. `a` sorts no later than `b` iff `b` has at most as many components. -/
def depthDescRel (a b : Dir) : Prop := b.path.length ≤ a.path.length

instance : DecidableRel depthDescRel := fun a b =>
  inferInstanceAs (Decidable (b.path.length ≤ a.path.length))

instance : IsTotal Dir depthDescRel :=
  ⟨fun a b => (Nat.le_total b.path.length a.path.length).imp id id⟩

instance : IsTrans Dir depthDescRel :=
  ⟨fun _ _ _ h1 h2 => Nat.le_trans h2 h1⟩

/-- `file_ops::sort_files`: sorts directory entries in descending order of
path-component count.  The Rust sort (`par_sort_unstable_by`) is unstable,
so equal-depth entries may land in any relative order; insertion sort by
the same key is one faithful realization. -/
def sort_files (l : List Dir) : List Dir :=
  l.insertionSort depthDescRel

/-- Whether an executor invocation is `copy_files` / `delete_files`
(parallel fan-out) or `copy_files_sequential` / `delete_files_sequential`
(strict in-order pass). -/
inductive Mode where
  | parallel
  | sequential
deriving DecidableEq

/-- Which executor family a `Call` invokes: plain copy (`copy_files*`),
plain delete (`delete_files*`), or compare-and-copy
(`compare_and_copy_files*`). -/
inductive CallKind where
  | copy
  | delete
  | compareCopy
deriving DecidableEq

/-- One typed entry handed to an executor invocation (the `FileOps` trait
objects of the Rust code). -/
inductive Item where
  | file (f : File)
  | dir (d : Dir)
  | symlink (s : Symlink)
deriving DecidableEq

/-- One executor invocation performed by an orchestrator function: the
executor family, the parallel/sequential mode, and the entries handed to
it, in iteration order. -/
structure Call where
  kind : CallKind
  mode : Mode
  items : List Item
deriving DecidableEq

/-- `Item.file`/`Item.symlink` discriminator (used to tell the phase-2
file/symlink deletions from the phase-5 directory deletion). -/
def Item.isFileOrSymlink : Item → Bool
  | .file _ => true
  | .symlink _ => true
  | .dir _ => false

/-- `Item.dir` discriminator. -/
def Item.isDir : Item → Bool
  | .dir _ => true
  | _ => false

/-- `core::synchronize`, embedded as the ordered list of executor
invocations it performs.  Mirrors `core.rs` lines 24-83: (phase 2) unless
`NoDelete`, parallel deletion of dest-only symlinks then dest-only files;
(phases 3-4) copies of src-only dirs, symlinks, files and the
compare-and-copy pass over the file intersection, all parallel or all
sequential according to the `Sequential` flag; (phase 5) unless `NoDelete`,
strictly sequential deletion of dest-only dirs sorted by `sort_files`. -/
def synchronize (src dest : FileSets) (flags : Flags) : List Call :=
  (if flags.noDelete then [] else
    [⟨.delete, .parallel, (diff dest.symlinks src.symlinks).map Item.symlink⟩,
     ⟨.delete, .parallel, (diff dest.files src.files).map Item.file⟩]) ++
  (if flags.sequential then
    [⟨.copy, .sequential, (diff src.dirs dest.dirs).map Item.dir⟩,
     ⟨.copy, .sequential, (diff src.symlinks dest.symlinks).map Item.symlink⟩,
     ⟨.copy, .sequential, (diff src.files dest.files).map Item.file⟩,
     ⟨.compareCopy, .sequential, (inter src.files dest.files).map Item.file⟩]
  else
    [⟨.copy, .parallel, (diff src.dirs dest.dirs).map Item.dir⟩,
     ⟨.copy, .parallel, (diff src.symlinks dest.symlinks).map Item.symlink⟩,
     ⟨.copy, .parallel, (diff src.files dest.files).map Item.file⟩,
     ⟨.compareCopy, .parallel, (inter src.files dest.files).map Item.file⟩]) ++
  (if flags.noDelete then [] else
    [⟨.delete, .sequential, (sort_files (diff dest.dirs src.dirs)).map Item.dir⟩])

/-- `core::copy`, embedded as its ordered list of executor invocations.
Mirrors `core.rs` lines 97-119: everything from the single src scan is
copied — dirs, then files, then symlinks — parallel or sequential
according to the `Sequential` flag; there is no delete and no
compare-and-copy invocation. -/
def copy (src : FileSets) (flags : Flags) : List Call :=
  if flags.sequential then
    [⟨.copy, .sequential, src.dirs.map Item.dir⟩,
     ⟨.copy, .sequential, src.files.map Item.file⟩,
     ⟨.copy, .sequential, src.symlinks.map Item.symlink⟩]
  else
    [⟨.copy, .parallel, src.dirs.map Item.dir⟩,
     ⟨.copy, .parallel, src.files.map Item.file⟩,
     ⟨.copy, .parallel, src.symlinks.map Item.symlink⟩]

/-- `core::remove`, embedded as its ordered list of executor invocations.
Mirrors `core.rs` lines 131-159: delete all files then all symlinks
(parallel or sequential per the `Sequential` flag), then one strictly
sequential deletion pass over `sort_files(dirs)` with the synthetic
root entry `Dir::from("")` (zero path components) pushed after sorting. -/
def remove (target : FileSets) (flags : Flags) : List Call :=
  (if flags.sequential then
    [⟨.delete, .sequential, target.files.map Item.file⟩,
     ⟨.delete, .sequential, target.symlinks.map Item.symlink⟩]
  else
    [⟨.delete, .parallel, target.files.map Item.file⟩,
     ⟨.delete, .parallel, target.symlinks.map Item.symlink⟩]) ++
  [⟨.delete, .sequential,
     (sort_files target.dirs).map Item.dir ++ [Item.dir ⟨[]⟩]⟩]

/-!
## The tree scanner (`file_ops::get_all_files` / `get_all_files_helper`)

The filesystem under a directory is modelled as a finite tree of nodes.
Each node is one thing `read_dir` can yield and covers one control-flow
branch of `get_all_files_helper` (`file_ops.rs` lines 487-560):

* `file name size` — a regular file (`metadata.is_file()`);
* `dir name readable children` — a subdirectory; when `readable` is
  false the recursive `get_all_files_helper` call on it fails
  (`read_dir` error), which the caller logs and skips, keeping the
  directory entry itself (it is inserted before the recursive call);
* `symlink name target?` — neither file nor dir; `none` models a failed
  `fs::read_link`, which is logged and skipped;
* `unreadableEntry` — a `read_dir` item that is itself an `Err`
  (`file.is_err()`), logged and skipped;
* `badMetadata name` — an entry whose `metadata()` read fails, logged
  and skipped.
-/

/-- One filesystem node as seen by `get_all_files_helper`. -/
inductive FsNode where
  | file (name : String) (size : Nat)
  | dir (name : String) (readable : Bool) (children : List FsNode)
  | symlink (name : String) (target : Option Path)
  | unreadableEntry
  | badMetadata (name : String)

/-- Union of two `FileSets` (the `extend` calls of the Rust helper). -/
def FileSets.append (a b : FileSets) : FileSets :=
  ⟨a.files ++ b.files, a.dirs ++ b.dirs, a.symlinks ++ b.symlinks⟩

/-- The empty `FileSets`. -/
def FileSets.empty : FileSets := ⟨[], [], []⟩

mutual

/-- The contribution of one directory entry to the scan, at path
position `pre` relative to the scan root (`get_all_files_helper` loop
body).  Every per-entry failure contributes nothing and the walk
continues; an unreadable subdirectory still contributes its own `Dir`
entry, because the Rust code inserts it before recursing. -/
def scanEntry (pre : Path) : FsNode → FileSets
  | .file n s => ⟨[⟨pre ++ [n], s⟩], [], []⟩
  | .dir n r cs =>
      FileSets.append ⟨[], [⟨pre ++ [n]⟩], []⟩
        (if r then scanChildren (pre ++ [n]) cs else FileSets.empty)
  | .symlink n (some t) => ⟨[], [], [⟨pre ++ [n], t⟩]⟩
  | .symlink _ none => FileSets.empty
  | .unreadableEntry => FileSets.empty
  | .badMetadata _ => FileSets.empty

/-- The scan of a readable directory's entry list (the `for file in dir`
loop of `get_all_files_helper`). -/
def scanChildren (pre : Path) : List FsNode → FileSets
  | [] => FileSets.empty
  | x :: xs => FileSets.append (scanEntry pre x) (scanChildren pre xs)

end

/-- Whether the scan root itself can be opened with `read_dir`. -/
def rootReadable : FsNode → Bool
  | .dir _ r _ => r
  | _ => false

/-- `file_ops::get_all_files`: errors exactly when `read_dir` on the root
fails (root missing, not a directory, or unreadable); otherwise returns
the full `FileSets` of the walk. -/
def get_all_files (root : FsNode) : Except Unit FileSets :=
  match root with
  | .dir _ true cs => .ok (scanChildren [] cs)
  | _ => .error ()

/-- `core::synchronize` at the result level: scan both roots (either scan
error is propagated), then emit the executor plan.  All later per-entry
copy/delete/hash failures are logged and skipped inside the executors and
never reach this `Except`. -/
def synchronizeRun (srcT destT : FsNode) (flags : Flags) :
    Except Unit (List Call) := do
  let s ← get_all_files srcT
  let d ← get_all_files destT
  pure (synchronize s d flags)

/-- `core::copy` at the result level: scan the src root only. -/
def copyRun (srcT : FsNode) (flags : Flags) : Except Unit (List Call) := do
  let s ← get_all_files srcT
  pure (copy s flags)

/-- `core::remove` at the result level: scan the target root only. -/
def removeRun (targetT : FsNode) (flags : Flags) : Except Unit (List Call) := do
  let t ← get_all_files targetT
  pure (remove t flags)

/-!
## Execution semantics over a concrete filesystem state

To settle the state-level claims (what the destination looks like after a
run), a root's contents are modelled as a finite map from relative paths
to nodes, and each `std::fs` primitive the executors invoke
(`fs::copy`, `fs::create_dir_all`, `unix::fs::symlink`, `fs::remove_file`,
`fs::remove_dir`) is given its operating-system success condition; on
failure the Rust code logs the error and continues, so a failed primitive
leaves the state unchanged.  File contents are byte lists; a `File`
entry's `size` is its content's length.  The hash functions
(`seahash::hash` for `hash_file`, BLAKE2b for `hash_file_secure`) are
arbitrary parameters `h` / `hs`: no verified statement depends on the
concrete digests.
-/

/-- File contents as a byte list. -/
abbrev Content := List Nat

/-- One filesystem object at a relative path. -/
inductive Node where
  | file (content : Content)
  | dir
  | symlink (target : Path)
deriving DecidableEq

/-- The kind tag of a `Node`. -/
inductive NodeKind where
  | file
  | dir
  | symlink
deriving DecidableEq

/-- The kind of a node. -/
def Node.kind : Node → NodeKind
  | .file _ => .file
  | .dir => .dir
  | .symlink _ => .symlink

/-- The contents of one root directory: a finite association of relative
paths to nodes (well-formed disks bind each path at most once). -/
structure Disk where
  entries : List (Path × Node)
deriving DecidableEq

/-- Look up the node at a relative path. -/
def Disk.find? (d : Disk) (p : Path) : Option Node :=
  (d.entries.find? (fun e => decide (e.1 = p))).map (fun e => e.2)

/-- Remove any binding at `p`. -/
def Disk.erase (d : Disk) (p : Path) : Disk :=
  ⟨d.entries.filter (fun e => decide (¬ e.1 = p))⟩

/-- Bind `p` to `n`, replacing any previous binding. -/
def Disk.set (d : Disk) (p : Path) (n : Node) : Disk :=
  ⟨(p, n) :: (d.erase p).entries⟩

/-- `q` lies strictly inside the directory at `p` (`p` is a proper
ancestor of `q`). -/
def strictlyUnder (q p : Path) : Prop :=
  q ≠ p ∧ q.take p.length = p

instance (q p : Path) : Decidable (strictlyUnder q p) :=
  inferInstanceAs (Decidable (_ ∧ _))

/-- Scanning a fully readable root: `get_all_files` specialized to a root
whose every entry is reachable and readable, enumerated in disk order.
Files are keyed by `(path, size)`, dirs by `path`, symlinks by
`(path, target)`, exactly as in `file_ops.rs`. -/
def scanDisk (d : Disk) : FileSets where
  files := d.entries.filterMap (fun e =>
    match e.2 with
    | .file c => some ⟨e.1, c.length⟩
    | _ => none)
  dirs := d.entries.filterMap (fun e =>
    match e.2 with
    | .dir => some ⟨e.1⟩
    | _ => none)
  symlinks := d.entries.filterMap (fun e =>
    match e.2 with
    | .symlink t => some ⟨e.1, t⟩
    | _ => none)

/-- Read a file's bytes (`fs::read`): succeeds iff a regular file is
bound at `p`. -/
def readFile (d : Disk) (p : Path) : Option Content :=
  match d.find? p with
  | some (.file c) => some c
  | _ => none

/-- `file_ops::hash_file` on root `d`: `fs::read` then `seahash::hash`
(`h`); `none` when the file cannot be read. -/
def hash_file (h : Content → Nat) (d : Disk) (p : Path) : Option Nat :=
  (readFile d p).map h

/-- `file_ops::hash_file_secure` on root `d`: stream the file through
BLAKE2b (`hs`); `none` when the file cannot be opened. -/
def hash_file_secure (hs : Content → List Nat) (d : Disk) (p : Path) :
    Option (List Nat) :=
  (readFile d p).map hs

/-- `File::remove` / `Symlink::remove` = `fs::remove_file`: unbinds `p`
when a file or symlink is bound there; fails (state unchanged) on a
directory or an absent path. -/
def remove_file (d : Disk) (p : Path) : Disk :=
  match d.find? p with
  | some (.file _) => d.erase p
  | some (.symlink _) => d.erase p
  | _ => d

/-- `Dir::remove` = `fs::remove_dir`: unbinds `p` when a directory is
bound there and nothing lies strictly inside it; otherwise fails
(non-empty or non-directory), state unchanged. -/
def remove_dir (d : Disk) (p : Path) : Disk :=
  match d.find? p with
  | some .dir =>
      if d.entries.all (fun e => decide (¬ strictlyUnder e.1 p)) then
        d.erase p
      else d
  | _ => d

/-- The parent of `p` exists as a directory (length-1 paths live directly
in the root, which the orchestrator's caller guarantees exists). -/
def parentIsDir (d : Disk) (p : Path) : Bool :=
  decide (p.length ≤ 1) ||
    decide (d.find? (p.take (p.length - 1)) = some Node.dir)

/-- `File::copy` = `fs::copy(src_abs, dest_abs)` of the file at relative
path `p`: succeeds iff the source file is readable, the destination
parent directory exists, and the destination path is vacant or a regular
file (which is truncated and overwritten); it fails on a destination
directory, and a destination symlink is likewise modelled as a failed
copy (the claims verified here never exercise a file copy onto a
symlink). -/
def copy_file (src dest : Disk) (p : Path) : Disk :=
  match readFile src p with
  | none => dest
  | some c =>
      if parentIsDir dest p then
        match dest.find? p with
        | none => dest.set p (.file c)
        | some (.file _) => dest.set p (.file c)
        | some _ => dest
      else dest

/-- Helper for `create_dir_all`: create the directories at
`p.take 1, …, p.take k` top-down, stopping (with failure) at the first
level already bound to a non-directory.  Returns the updated disk and
whether all `k` levels succeeded. -/
def create_dir_all_go (p : Path) : Nat → Disk → Disk × Bool
  | 0, d => (d, true)
  | k + 1, d =>
      match create_dir_all_go p k d with
      | (d1, false) => (d1, false)
      | (d1, true) =>
          match d1.find? (p.take (k + 1)) with
          | none => (d1.set (p.take (k + 1)) .dir, true)
          | some .dir => (d1, true)
          | some _ => (d1, false)

/-- `Dir::copy` = `fs::create_dir_all`: idempotent create-if-missing of
the directory at `p` and all its missing ancestors; never errors on
"already exists", fails at the first path level bound to a file or
symlink. -/
def create_dir_all (d : Disk) (p : Path) : Disk :=
  (create_dir_all_go p p.length d).1

/-- `Symlink::copy` = `unix::fs::symlink(target, dest_abs)`: creates a
new link with the recorded target verbatim; fails when anything is
already bound at `p` or the parent directory is missing. -/
def create_symlink (d : Disk) (p target : Path) : Disk :=
  if parentIsDir d p ∧ d.find? p = none then d.set p (.symlink target)
  else d

/-- The branch structure of `file_ops::compare_and_copy_file`
(`file_ops.rs` lines 242-278), as a pure decision on the four possible
hash results: `true` iff a copy is attempted.  Under `Secure` the BLAKE2b
hashes are consulted, otherwise the seahash values; a failed source hash
copies immediately, and otherwise the copy happens iff the two hashes
(`Option`-valued) differ — which includes a failed destination hash. -/
def compare_and_copy_decision (secure : Bool)
    (srcFast destFast : Option Nat) (srcSec destSec : Option (List Nat)) :
    Bool :=
  if secure then
    match srcSec with
    | none => true
    | some x => decide (some x ≠ destSec)
  else
    match srcFast with
    | none => true
    | some x => decide (some x ≠ destFast)

/-- `file_ops::compare_and_copy_file` on disks: hash the file at `p` on
both sides with the mode's hash function and copy the source file over
when the decision fires. -/
def compare_and_copy_file (h : Content → Nat) (hs : Content → List Nat)
    (secure : Bool) (src dest : Disk) (p : Path) : Disk :=
  if compare_and_copy_decision secure
      (hash_file h src p) (hash_file h dest p)
      (hash_file_secure hs src p) (hash_file_secure hs dest p) then
    copy_file src dest p
  else dest

/-- One per-entry operation of an executor invocation. -/
inductive Action where
  | copyItem (i : Item)
  | deleteItem (i : Item)
  | compareItem (i : Item)
deriving DecidableEq

/-- The per-entry operations of one `Call`, in iteration order. -/
def callActions (c : Call) : List Action :=
  c.items.map (fun i =>
    match c.kind with
    | .copy => .copyItem i
    | .delete => .deleteItem i
    | .compareCopy => .compareItem i)

/-- The relative path of an `Item`. -/
def Item.path : Item → Path
  | .file f => f.path
  | .dir d => d.path
  | .symlink s => s.path

/-- Dispatch one per-entry operation, as the `FileOps` trait does: copies
go to `fs::copy` / `fs::create_dir_all` / `unix::fs::symlink` by entry
type, deletes to `fs::remove_file` for files and symlinks and
`fs::remove_dir` for dirs, and compare-entries to
`compare_and_copy_file`. -/
def applyAction (h : Content → Nat) (hs : Content → List Nat)
    (secure : Bool) (src : Disk) (dest : Disk) : Action → Disk
  | .copyItem (.file f) => copy_file src dest f.path
  | .copyItem (.dir dd) => create_dir_all dest dd.path
  | .copyItem (.symlink s) => create_symlink dest s.path s.target
  | .deleteItem (.file f) => remove_file dest f.path
  | .deleteItem (.symlink s) => remove_file dest s.path
  | .deleteItem (.dir dd) => remove_dir dest dd.path
  | .compareItem i => compare_and_copy_file h hs secure src dest i.path

/-- Execute a plan's operations in plan order against the destination
root.  Parallel invocations have no ordering guarantee in Rust; this
model fixes one linearization, and every verified statement about the
outcome is independent of the relative order within a parallel
invocation. -/
def runPlan (h : Content → Nat) (hs : Content → List Nat) (secure : Bool)
    (src : Disk) (dest : Disk) (plan : List Call) : Disk :=
  (plan.flatMap callActions).foldl (applyAction h hs secure src) dest

/-- A full `core::synchronize` run against concrete roots: scan both,
build the plan, execute it on the destination. -/
def runSync (h : Content → Nat) (hs : Content → List Nat)
    (src dest : Disk) (flags : Flags) : Disk :=
  runPlan h hs flags.secure src dest
    (synchronize (scanDisk src) (scanDisk dest) flags)

/-- A full `core::copy` run against concrete roots. -/
def runCopy (h : Content → Nat) (hs : Content → List Nat)
    (src dest : Disk) (flags : Flags) : Disk :=
  runPlan h hs flags.secure src dest (copy (scanDisk src) flags)

/-!
## Well-formedness of scanned roots

A disk that really is the content listing of a directory tree binds each
path once, binds no empty path, and contains every proper ancestor of a
bound path as a directory.
-/

/-- Each relative path is bound at most once. -/
def Disk.keysNodup (d : Disk) : Prop :=
  (d.entries.map Prod.fst).Nodup

/-- Paths are nonempty and every proper ancestor of a bound path is bound
as a directory. -/
def Disk.closed (d : Disk) : Prop :=
  ∀ e ∈ d.entries, e.1 ≠ [] ∧
    ∀ i, 0 < i → i < e.1.length → d.find? (e.1.take i) = some Node.dir

/-- A well-formed root listing. -/
def Disk.wf (d : Disk) : Prop :=
  d.keysNodup ∧ d.closed

instance (d : Disk) : Decidable d.keysNodup :=
  inferInstanceAs (Decidable (List.Nodup _))

instance (d : Disk) : Decidable d.closed := by
  unfold Disk.closed
  have : ∀ e : Path × Node,
      Decidable (e.1 ≠ [] ∧
        ∀ i, 0 < i → i < e.1.length → d.find? (e.1.take i) = some Node.dir) := by
    intro e
    have : Decidable (∀ i, i < e.1.length →
        0 < i → d.find? (e.1.take i) = some Node.dir) :=
      Nat.decidableBallLT _ _
    refine match this with
      | isTrue hh => ?_
      | isFalse hh => ?_
    · exact if hn : e.1 = [] then isFalse (fun c => c.1 hn)
        else isTrue ⟨hn, fun i hi hlt => hh i hlt hi⟩
    · exact if hn : e.1 = [] then isFalse (fun c => c.1 hn)
        else isFalse (fun c => hh (fun i hlt hi => c.2 i hi hlt))
  exact List.decidableBAll _ _

instance (d : Disk) : Decidable d.wf :=
  inferInstanceAs (Decidable (_ ∧ _))

/-- No relative path carries entries of different kinds in the two roots
(stated over the finite entry lists so it is decidable on concrete
disks). -/
def kindCompat (src dest : Disk) : Prop :=
  ∀ e ∈ src.entries, ∀ e2 ∈ dest.entries,
    e.1 = e2.1 → Node.kind e.2 = Node.kind e2.2

instance (src dest : Disk) : Decidable (kindCompat src dest) := by
  unfold kindCompat
  exact List.decidableBAll _ _

/-- `Except` success discriminator. -/
def isOkE {α : Type} (e : Except Unit α) : Bool :=
  match e with
  | .ok _ => true
  | .error _ => false

/-- Whether an optional node is a file or symlink — the objects
`fs::remove_file` can unlink. -/
def filelike : Option Node → Bool
  | some (.file _) => true
  | some (.symlink _) => true
  | _ => false

/-- A path level `fs::create_dir_all` can pass through: vacant or already
a directory. -/
def dirComp (o : Option Node) : Prop :=
  o = none ∨ o = some Node.dir

/-- Equality of the two contents under the hash the `Secure` flag
selects (seahash `h` in fast mode, BLAKE2b `hs` in secure mode). -/
def modeEqB (h : Content → Nat) (hs : Content → List Nat) (sec : Bool)
    (c c0 : Content) : Bool :=
  if sec then decide (hs c = hs c0) else decide (h c = h c0)

/-- The destination node `synchronize` (with deletion enabled) leaves at
relative path `p` when both scans are well-formed and no path changes
kind between the roots: source dirs and symlinks are reproduced, a
source file keeps the old destination bytes only when the destination
held a file of the same size whose mode-hash matches, and everything
else is deleted. -/
def postNode (h : Content → Nat) (hs : Content → List Nat) (sec : Bool)
    (src dest : Disk) (p : Path) : Option Node :=
  match src.find? p with
  | some Node.dir => some Node.dir
  | some (Node.symlink t) => some (Node.symlink t)
  | some (Node.file c) =>
      match dest.find? p with
      | some (Node.file c0) =>
          if c0.length = c.length ∧ modeEqB h hs sec c c0 = true then
            some (Node.file c0)
          else some (Node.file c)
      | _ => some (Node.file c)
  | none => none

/-- `d2` differs from `d` only by directories created on vacant paths
(the only state change `fs::create_dir_all` can make). -/
def dirMono (d d2 : Disk) : Prop :=
  ∀ q, d2.find? q = d.find? q ∨
    (d.find? q = none ∧ d2.find? q = some Node.dir)

/-- Association-list lookup: the recursion `Disk.find?` computes. -/
def findEntries : List (Path × Node) → Path → Option Node
  | [], _ => none
  | e :: es, p => if e.1 = p then some e.2 else findEntries es p

/-!
The five passes of a `synchronize` run, as the entry-level folds the
action list of the plan performs (proved equal to `runSync` in
`runSync_eq_phases`).
-/

/-- Phase 2: parallel deletion of destination-only symlinks, then
destination-only files, via `fs::remove_file`. -/
def syncPhase2 (S D : FileSets) (dest : Disk) : Disk :=
  ((diff D.files S.files).map File.path).foldl remove_file
    (((diff D.symlinks S.symlinks).map Symlink.path).foldl remove_file dest)

/-- Phase 3a: copy source-only directories via `fs::create_dir_all`. -/
def syncPhase3d (S D : FileSets) (d : Disk) : Disk :=
  ((diff S.dirs D.dirs).map Dir.path).foldl create_dir_all d

/-- Phase 3b: copy source-only symlinks via `unix::fs::symlink`. -/
def syncPhase3s (S D : FileSets) (d : Disk) : Disk :=
  (diff S.symlinks D.symlinks).foldl
    (fun d2 s => create_symlink d2 s.path s.target) d

/-- Phase 3c: copy source-only files via `fs::copy`. -/
def syncPhase3f (S D : FileSets) (src : Disk) (d : Disk) : Disk :=
  (diff S.files D.files).foldl (fun d2 f => copy_file src d2 f.path) d

/-- Phase 4: compare-and-copy over the file intersection. -/
def syncPhase4 (h : Content → Nat) (hs : Content → List Nat) (sec : Bool)
    (S D : FileSets) (src : Disk) (d : Disk) : Disk :=
  (inter S.files D.files).foldl
    (fun d2 f => compare_and_copy_file h hs sec src d2 f.path) d

/-- Phase 5: sequential deletion of destination-only directories in
descending-depth order via `fs::remove_dir`. -/
def syncPhase5 (S D : FileSets) (d : Disk) : Disk :=
  ((sort_files (diff D.dirs S.dirs)).map Dir.path).foldl remove_dir d

/-- The executor mode `core::synchronize`/`core::copy`/`core::remove`
select for a fan-out invocation from the `Sequential` flag. -/
def flagMode (flags : Flags) : Mode :=
  if flags.sequential then .sequential else .parallel

/-!
Pointwise stage values of a `synchronize` run: the node each pass leaves
at a relative path, as a function of the two scanned roots.  These are
the targets of the per-pass characterization theorems below.
-/

/-- The node phase 2 (deletion of dest-only symlinks and files) leaves at
`q`, for well-formed scans. -/
def stage2Node (src dest : Disk) (q : Path) : Option Node :=
  match dest.find? q, src.find? q with
  | none, _ => none
  | some Node.dir, _ => some Node.dir
  | some (Node.symlink t), some (Node.symlink t2) =>
      if t2 = t then some (Node.symlink t) else none
  | some (Node.symlink _), _ => none
  | some (Node.file cc), some (Node.file c) =>
      if c.length = cc.length then some (Node.file cc) else none
  | some (Node.file _), _ => none

/-- The node phase 3a (directory creation) leaves at `q` in a
deletion-enabled run. -/
def stage3dNode (src dest : Disk) (q : Path) : Option Node :=
  if src.find? q = some Node.dir then some Node.dir
  else stage2Node src dest q

/-- The node phase 3b (symlink creation) leaves at `q` in a
deletion-enabled run. -/
def stage3sNode (src dest : Disk) (q : Path) : Option Node :=
  match src.find? q with
  | some (Node.symlink t) => some (Node.symlink t)
  | _ => stage3dNode src dest q

/-- The node phase 3c (copying of src-only files) leaves at `q` in a
deletion-enabled run. -/
def stage3fNode (src dest : Disk) (q : Path) : Option Node :=
  match src.find? q with
  | some (Node.file c) =>
      match dest.find? q with
      | some (Node.file cc) =>
          if cc.length = c.length then some (Node.file cc)
          else some (Node.file c)
      | _ => some (Node.file c)
  | _ => stage3sNode src dest q

/-- The node phase 4 (compare-and-copy) leaves at `q` in a
deletion-enabled run. -/
def stage4Node (h : Content → Nat) (hs : Content → List Nat) (sec : Bool)
    (src dest : Disk) (q : Path) : Option Node :=
  match src.find? q with
  | some (Node.file c) =>
      match dest.find? q with
      | some (Node.file cc) =>
          if cc.length = c.length then
            if modeEqB h hs sec c cc = true then some (Node.file cc)
            else some (Node.file c)
          else some (Node.file c)
      | _ => some (Node.file c)
  | _ => stage3sNode src dest q

/-- The node phase 3a leaves at `q` in a `NoDelete` run (the copy passes
act on the original destination). -/
def stage3dNodeND (src dest : Disk) (q : Path) : Option Node :=
  if src.find? q = some Node.dir then some Node.dir
  else dest.find? q

/-- The node phase 3b leaves at `q` in a `NoDelete` run: a src symlink is
created only on a vacant path (`unix::fs::symlink` fails on any existing
node). -/
def stage3sNodeND (src dest : Disk) (q : Path) : Option Node :=
  match src.find? q with
  | some (Node.symlink t) =>
      match dest.find? q with
      | none => some (Node.symlink t)
      | some n => some n
  | _ => stage3dNodeND src dest q

/-- The node phase 3c leaves at `q` in a `NoDelete` run: `fs::copy`
overwrites an existing destination file of a different size. -/
def stage3fNodeND (src dest : Disk) (q : Path) : Option Node :=
  match src.find? q with
  | some (Node.file c) =>
      match dest.find? q with
      | some (Node.file cc) =>
          if cc.length = c.length then some (Node.file cc)
          else some (Node.file c)
      | _ => some (Node.file c)
  | _ => stage3sNodeND src dest q

/-- The node phase 4 leaves at `q` in a `NoDelete` run — the final state
of such a run, there being no phase 5. -/
def stage4NodeND (h : Content → Nat) (hs : Content → List Nat) (sec : Bool)
    (src dest : Disk) (q : Path) : Option Node :=
  match src.find? q with
  | some (Node.file c) =>
      match dest.find? q with
      | some (Node.file cc) =>
          if cc.length = c.length then
            if modeEqB h hs sec c cc = true then some (Node.file cc)
            else some (Node.file c)
          else some (Node.file c)
      | _ => some (Node.file c)
  | _ => stage3sNodeND src dest q

/-!
The cumulative destination states after each pass, for the two plan
shapes (deletion enabled / `NoDelete`).
-/

/-- Destination after phase 2 of a deletion-enabled run. -/
def sync2 (src dest : Disk) : Disk :=
  syncPhase2 (scanDisk src) (scanDisk dest) dest

/-- Destination after phase 3a of a deletion-enabled run. -/
def sync3d (src dest : Disk) : Disk :=
  syncPhase3d (scanDisk src) (scanDisk dest) (sync2 src dest)

/-- Destination after phase 3b of a deletion-enabled run. -/
def sync3s (src dest : Disk) : Disk :=
  syncPhase3s (scanDisk src) (scanDisk dest) (sync3d src dest)

/-- Destination after phase 3c of a deletion-enabled run. -/
def sync3f (src dest : Disk) : Disk :=
  syncPhase3f (scanDisk src) (scanDisk dest) src (sync3s src dest)

/-- Destination after phase 4 of a deletion-enabled run. -/
def sync4 (h : Content → Nat) (hs : Content → List Nat) (sec : Bool)
    (src dest : Disk) : Disk :=
  syncPhase4 h hs sec (scanDisk src) (scanDisk dest) src (sync3f src dest)

/-- Destination after phase 3a of a `NoDelete` run. -/
def sync3dND (src dest : Disk) : Disk :=
  syncPhase3d (scanDisk src) (scanDisk dest) dest

/-- Destination after phase 3b of a `NoDelete` run. -/
def sync3sND (src dest : Disk) : Disk :=
  syncPhase3s (scanDisk src) (scanDisk dest) (sync3dND src dest)

/-- Destination after phase 3c of a `NoDelete` run. -/
def sync3fND (src dest : Disk) : Disk :=
  syncPhase3f (scanDisk src) (scanDisk dest) src (sync3sND src dest)

/-- Destination after phase 4 of a `NoDelete` run — its final state. -/
def sync4ND (h : Content → Nat) (hs : Content → List Nat) (sec : Bool)
    (src dest : Disk) : Disk :=
  syncPhase4 h hs sec (scanDisk src) (scanDisk dest) src
    (sync3fND src dest)

/-!
## Theorems
-/

/-- `Sorted` sorting places any strictly deeper directory before any
strictly shallower one. -/
theorem pairwise_depth_indexOf_lt {xs : List Dir}
    (hp : xs.Pairwise depthDescRel) {x y : Dir}
    (hx : x ∈ xs) (hy : y ∈ xs) (hlen : y.path.length < x.path.length) :
    xs.indexOf x < xs.indexOf y := by
  have hix : xs.indexOf x < xs.length := List.indexOf_lt_length.mpr hx
  have hiy : xs.indexOf y < xs.length := List.indexOf_lt_length.mpr hy
  rcases Nat.lt_trichotomy (xs.indexOf x) (xs.indexOf y) with h | h | h
  · exact h
  · exfalso
    have hxy : x = y := (List.indexOf_inj hx hy).mp h
    subst hxy
    exact Nat.lt_irrefl _ hlen
  · exfalso
    have hrel := (List.pairwise_iff_getElem.mp hp) _ _ hiy hix h
    rw [List.getElem_indexOf hiy, List.getElem_indexOf hix] at hrel
    exact Nat.not_le.mpr hlen hrel

theorem getLast?_append_singleton {α : Type} (l : List α) (a : α) :
    (l ++ [a]).getLast? = some a :=
  List.getLast?_concat l

/-- Normal form of the `core::synchronize` plan with the
`Sequential`-selected mode factored into `flagMode`. -/
theorem synchronize_plan_norm (S D : FileSets) (flags : Flags) :
    synchronize S D flags =
      (if flags.noDelete then [] else
        [⟨.delete, .parallel, (diff D.symlinks S.symlinks).map Item.symlink⟩,
         ⟨.delete, .parallel, (diff D.files S.files).map Item.file⟩]) ++
      [⟨.copy, flagMode flags, (diff S.dirs D.dirs).map Item.dir⟩,
       ⟨.copy, flagMode flags, (diff S.symlinks D.symlinks).map Item.symlink⟩,
       ⟨.copy, flagMode flags, (diff S.files D.files).map Item.file⟩,
       ⟨.compareCopy, flagMode flags, (inter S.files D.files).map Item.file⟩] ++
      (if flags.noDelete then [] else
        [⟨.delete, .sequential,
           (sort_files (diff D.dirs S.dirs)).map Item.dir⟩]) := by
  rcases flags with ⟨nd, sec, vb, sq⟩
  cases sq <;> rfl

/-- Every member of a `synchronize` plan is one of the seven phase
invocations. -/
theorem mem_synchronize_cases {S D : FileSets} {flags : Flags} {c : Call}
    (hc : c ∈ synchronize S D flags) :
    (flags.noDelete = false ∧
      (c = ⟨.delete, .parallel, (diff D.symlinks S.symlinks).map Item.symlink⟩ ∨
       c = ⟨.delete, .parallel, (diff D.files S.files).map Item.file⟩ ∨
       c = ⟨.delete, .sequential,
         (sort_files (diff D.dirs S.dirs)).map Item.dir⟩)) ∨
    c = ⟨.copy, flagMode flags, (diff S.dirs D.dirs).map Item.dir⟩ ∨
    c = ⟨.copy, flagMode flags, (diff S.symlinks D.symlinks).map Item.symlink⟩ ∨
    c = ⟨.copy, flagMode flags, (diff S.files D.files).map Item.file⟩ ∨
    c = ⟨.compareCopy, flagMode flags, (inter S.files D.files).map Item.file⟩ := by
  rw [synchronize_plan_norm] at hc
  by_cases hnd : flags.noDelete = true
  · simp only [hnd, if_true, List.nil_append, List.append_nil] at hc
    simp only [List.mem_cons, List.not_mem_nil, or_false] at hc
    rcases hc with rfl | rfl | rfl | rfl
    · exact Or.inr (Or.inl rfl)
    · exact Or.inr (Or.inr (Or.inl rfl))
    · exact Or.inr (Or.inr (Or.inr (Or.inl rfl)))
    · exact Or.inr (Or.inr (Or.inr (Or.inr rfl)))
  · have hnd2 : flags.noDelete = false := Bool.not_eq_true _ ▸ hnd
    simp only [hnd2, Bool.false_eq_true, if_false] at hc
    simp only [List.cons_append, List.nil_append, List.mem_cons,
      List.not_mem_nil, or_false] at hc
    rcases hc with rfl | rfl | rfl | rfl | rfl | rfl | rfl
    · exact Or.inl ⟨hnd2, Or.inl rfl⟩
    · exact Or.inl ⟨hnd2, Or.inr (Or.inl rfl)⟩
    · exact Or.inr (Or.inl rfl)
    · exact Or.inr (Or.inr (Or.inl rfl))
    · exact Or.inr (Or.inr (Or.inr (Or.inl rfl)))
    · exact Or.inr (Or.inr (Or.inr (Or.inr rfl)))
    · exact Or.inl ⟨hnd2, Or.inr (Or.inr rfl)⟩

theorem mem_diff_iff {α : Type} [DecidableEq α] {a b : List α} {x : α} :
    x ∈ diff a b ↔ x ∈ a ∧ x ∉ b := by
  simp [diff, List.mem_filter]

theorem mem_inter_iff {α : Type} [DecidableEq α] {a b : List α} {x : α} :
    x ∈ inter a b ↔ x ∈ a ∧ x ∈ b := by
  simp [inter, List.mem_filter]

theorem sort_files_pairwise (l : List Dir) :
    (sort_files l).Pairwise depthDescRel :=
  List.sorted_insertionSort depthDescRel l

theorem sort_files_perm (l : List Dir) : (sort_files l).Perm l :=
  List.perm_insertionSort depthDescRel l

/-- Normal form of the `core::copy` plan: dirs, then files, then
symlinks, all in the flag-selected mode. -/
theorem copy_plan_norm (S : FileSets) (flags : Flags) :
    copy S flags =
      [⟨.copy, flagMode flags, S.dirs.map Item.dir⟩,
       ⟨.copy, flagMode flags, S.files.map Item.file⟩,
       ⟨.copy, flagMode flags, S.symlinks.map Item.symlink⟩] := by
  rcases flags with ⟨nd, sec, vb, sq⟩
  cases sq <;> rfl

theorem isOkE_get_all_files (t : FsNode) :
    isOkE (get_all_files t) = rootReadable t := by
  rcases t with ⟨n, s⟩ | ⟨n, r, cs⟩ | ⟨n, tg⟩ | _ | n
  · rfl
  · cases r <;> rfl
  · rfl
  · rfl
  · rfl

/-- C1: the ordered deletion step first sorts by descending
path-component count and is the plan's final, strictly sequential
invocation; on the concrete set `{a, a/b, a/b/c, d}` the chain
`a/b/c`, `a/b`, `a` is deleted in that order wherever `d` lands. -/
theorem claim_C1_depth_ordered_deletion (l : List Dir) :
    ((sort_files l).Pairwise depthDescRel ∧ (sort_files l).Perm l) ∧
    (∀ S D : FileSets, ∀ flags : Flags, flags.noDelete = false →
      (synchronize S D flags).getLast? =
        some ⟨.delete, .sequential,
          (sort_files (diff D.dirs S.dirs)).map Item.dir⟩) ∧
    (l.Perm [⟨["a"]⟩, ⟨["a", "b"]⟩, ⟨["a", "b", "c"]⟩, ⟨["d"]⟩] →
      (sort_files l).indexOf ⟨["a", "b", "c"]⟩ <
        (sort_files l).indexOf ⟨["a", "b"]⟩ ∧
      (sort_files l).indexOf ⟨["a", "b"]⟩ <
        (sort_files l).indexOf ⟨["a"]⟩) := by
  refine ⟨⟨sort_files_pairwise l, sort_files_perm l⟩, ?_, ?_⟩
  · intro S D flags hnd
    rw [synchronize_plan_norm, hnd]
    simp only [Bool.false_eq_true, if_false]
    exact getLast?_append_singleton _ _
  · intro hperm
    have hmem : ∀ d : Dir,
        d ∈ [(⟨["a"]⟩ : Dir), ⟨["a", "b"]⟩, ⟨["a", "b", "c"]⟩, ⟨["d"]⟩] →
        d ∈ sort_files l := by
      intro d hd
      exact ((sort_files_perm l).trans hperm).mem_iff.mpr hd
    constructor
    · exact pairwise_depth_indexOf_lt (sort_files_pairwise l)
        (hmem _ (by decide)) (hmem _ (by decide)) (by decide)
    · exact pairwise_depth_indexOf_lt (sort_files_pairwise l)
        (hmem _ (by decide)) (hmem _ (by decide)) (by decide)

/-- C1 witness: the theorem applied to the concrete input list
`[a, a/b, a/b/c, d]` itself. -/
theorem claim_C1_depth_ordered_deletion_witness :
    ((sort_files [⟨["a"]⟩, ⟨["a", "b"]⟩, ⟨["a", "b", "c"]⟩, ⟨["d"]⟩]).indexOf
        (⟨["a", "b", "c"]⟩ : Dir) <
      (sort_files [⟨["a"]⟩, ⟨["a", "b"]⟩, ⟨["a", "b", "c"]⟩, ⟨["d"]⟩]).indexOf
        ⟨["a", "b"]⟩) ∧
    (synchronize ⟨[], [], []⟩ ⟨[], [⟨["a"]⟩], []⟩ ⟨false, false, false, false⟩).getLast? =
      some ⟨.delete, .sequential,
        (sort_files (diff [⟨["a"]⟩] ([] : List Dir))).map Item.dir⟩ :=
  ⟨((claim_C1_depth_ordered_deletion
      [⟨["a"]⟩, ⟨["a", "b"]⟩, ⟨["a", "b", "c"]⟩, ⟨["d"]⟩]).2.2
      (List.Perm.refl _)).1,
   (claim_C1_depth_ordered_deletion []).2.1 ⟨[], [], []⟩ ⟨[], [⟨["a"]⟩], []⟩
      ⟨false, false, false, false⟩ rfl⟩

/-- C2 counterexample: with the `Sequential` flag set, the phase-2
deletion of a destination-only file is still dispatched to the parallel
executor (`core.rs` lines 44-50 call `par_difference`/`delete_files`
unconditionally), so the claimed uniform flag selection for phases 2-4
fails on this input. -/
theorem claim_C2_counterexample :
    ¬ (∀ c ∈ synchronize ⟨[], [], []⟩ ⟨[⟨["x"], 1⟩], [], []⟩
          ⟨false, false, false, true⟩,
        c.kind = CallKind.delete → c.items ≠ [] →
        (∀ i ∈ c.items, i.isFileOrSymlink = true) →
        c.mode = Mode.sequential) := by
  decide

/-- C2 (amended): the `Sequential` flag selects the executor uniformly
for phases 3-4 (the copy and compare-and-copy invocations); the phase-2
deletions of files and symlinks always use the parallel executor, and the
phase-5 directory deletion is always sequential, both regardless of the
flag. -/
theorem claim_C2_amended_executor_modes (S D : FileSets) (flags : Flags) :
    ∀ c ∈ synchronize S D flags,
      ((c.kind = CallKind.copy ∨ c.kind = CallKind.compareCopy) →
        c.mode = flagMode flags) ∧
      (c.kind = CallKind.delete → (∃ i ∈ c.items, i.isFileOrSymlink = true) →
        c.mode = Mode.parallel) ∧
      (c.kind = CallKind.delete → (∃ i ∈ c.items, i.isDir = true) →
        c.mode = Mode.sequential) := by
  intro c hc
  rcases mem_synchronize_cases hc with ⟨hnd, rfl | rfl | rfl⟩ | rfl | rfl | rfl | rfl <;>
    simp [flagMode, Item.isFileOrSymlink, Item.isDir]

/-- C2 witness: the amended mode properties instantiated on a concrete
plan containing one call of each phase. -/
theorem claim_C2_amended_executor_modes_witness :
    (⟨.delete, .parallel, [Item.file ⟨["x"], 1⟩]⟩ : Call) ∈
      synchronize ⟨[⟨["y"], 2⟩], [], []⟩ ⟨[⟨["x"], 1⟩], [⟨["g"]⟩], []⟩
        ⟨false, false, false, true⟩ ∧
    (⟨.delete, .parallel, [Item.file ⟨["x"], 1⟩]⟩ : Call).mode = Mode.parallel :=
  ⟨by decide,
   (claim_C2_amended_executor_modes ⟨[⟨["y"], 2⟩], [], []⟩
      ⟨[⟨["x"], 1⟩], [⟨["g"]⟩], []⟩ ⟨false, false, false, true⟩
      ⟨.delete, .parallel, [Item.file ⟨["x"], 1⟩]⟩ (by decide)).2.1
     (by decide) (by decide)⟩

/-- C3 counterexample: `core::copy` (lines 108-116) copies dirs, then
files, then symlinks; on a source with one file and one symlink the plan
differs from the claimed dirs-symlinks-files order. -/
theorem claim_C3_counterexample :
    copy ⟨[⟨["f"], 1⟩], [], [⟨["s"], ["t"]⟩]⟩ ⟨false, false, false, false⟩ ≠
      [⟨.copy, .parallel, ([] : List Dir).map Item.dir⟩,
       ⟨.copy, .parallel, [Item.symlink ⟨["s"], ["t"]⟩]⟩,
       ⟨.copy, .parallel, [Item.file ⟨["f"], 1⟩]⟩] := by
  decide

/-- C3 (amended): the copy operation scans only the source root and
copies every scanned entry in the order all directories, then all files,
then all symlinks, with no deletion and no comparison invocation. -/
theorem claim_C3_amended_copy_order (S : FileSets) (flags : Flags) :
    copy S flags =
      [⟨.copy, flagMode flags, S.dirs.map Item.dir⟩,
       ⟨.copy, flagMode flags, S.files.map Item.file⟩,
       ⟨.copy, flagMode flags, S.symlinks.map Item.symlink⟩] :=
  copy_plan_norm S flags

/-- C5: with file equality keyed on `(relative_path, size)`, two files at
the same path with different sizes land in `to_create` and `to_remove`
respectively and neither is in the compared intersection. -/
theorem claim_C5_size_change_not_compared (S D : FileSets) (p : Path)
    (s1 s2 : Nat)
    (h1 : (⟨p, s1⟩ : File) ∈ S.files) (h2 : (⟨p, s2⟩ : File) ∈ D.files)
    (hne : s1 ≠ s2)
    (hu1 : ∀ s, (⟨p, s⟩ : File) ∈ S.files → s = s1)
    (hu2 : ∀ s, (⟨p, s⟩ : File) ∈ D.files → s = s2) :
    (⟨p, s1⟩ : File) ∈ diff S.files D.files ∧
    (⟨p, s2⟩ : File) ∈ diff D.files S.files ∧
    (⟨p, s1⟩ : File) ∉ inter S.files D.files ∧
    (⟨p, s2⟩ : File) ∉ inter S.files D.files := by
  have hnd : (⟨p, s1⟩ : File) ∉ D.files := fun hc => hne (hu2 s1 hc)
  have hns : (⟨p, s2⟩ : File) ∉ S.files := fun hc => hne ((hu1 s2 hc).symm)
  refine ⟨mem_diff_iff.mpr ⟨h1, hnd⟩, mem_diff_iff.mpr ⟨h2, hns⟩, ?_, ?_⟩
  · intro hc
    exact hnd (mem_inter_iff.mp hc).2
  · intro hc
    exact hns (mem_inter_iff.mp hc).1

/-- C5 witness: a source file of size 1 and a destination file of size 2
at the same path. -/
theorem claim_C5_size_change_not_compared_witness :
    (⟨["p"], 1⟩ : File) ∈ diff [(⟨["p"], 1⟩ : File)] [(⟨["p"], 2⟩ : File)] ∧
    (⟨["p"], 2⟩ : File) ∈ diff [(⟨["p"], 2⟩ : File)] [(⟨["p"], 1⟩ : File)] ∧
    (⟨["p"], 1⟩ : File) ∉ inter [(⟨["p"], 1⟩ : File)] [(⟨["p"], 2⟩ : File)] ∧
    (⟨["p"], 2⟩ : File) ∉ inter [(⟨["p"], 1⟩ : File)] [(⟨["p"], 2⟩ : File)] := by
  have h := claim_C5_size_change_not_compared
    ⟨[⟨["p"], 1⟩], [], []⟩ ⟨[⟨["p"], 2⟩], [], []⟩ ["p"] 1 2
    (by decide) (by decide) (by decide)
    (fun s hs => congrArg File.size (List.mem_singleton.mp hs))
    (fun s hs => congrArg File.size (List.mem_singleton.mp hs))
  exact h

/-- C6: when the mode-relevant hash of either side cannot be computed,
`compare_and_copy_file` treats the pair as not-same and attempts the
copy of the source file over the destination file. -/
theorem claim_C6_hash_failure_copies (h : Content → Nat)
    (hs : Content → List Nat) (secure : Bool) (src dest : Disk) (p : Path)
    (hfail : if secure = true then
        hash_file_secure hs src p = none ∨ hash_file_secure hs dest p = none
      else hash_file h src p = none ∨ hash_file h dest p = none) :
    compare_and_copy_file h hs secure src dest p = copy_file src dest p := by
  cases secure
  · simp only [Bool.false_eq_true, if_false] at hfail
    rcases hfail with hh | hh
    · simp [compare_and_copy_file, compare_and_copy_decision, hh]
    · rcases t : hash_file h src p with _ | x <;>
        simp [compare_and_copy_file, compare_and_copy_decision, t, hh]
  · simp only [if_pos] at hfail
    rcases hfail with hh | hh
    · simp [compare_and_copy_file, compare_and_copy_decision, hh]
    · rcases t : hash_file_secure hs src p with _ | x <;>
        simp [compare_and_copy_file, compare_and_copy_decision, t, hh]

/-- C6 witness: a destination missing the compared file, under the fast
mode; the comparator falls through to an attempted copy. -/
theorem claim_C6_hash_failure_copies_witness :
    (hash_file List.length (⟨[]⟩ : Disk) ["f"] = none) ∧
    compare_and_copy_file List.length id false
        ⟨[(["f"], Node.file [1])]⟩ ⟨[]⟩ ["f"] =
      copy_file ⟨[(["f"], Node.file [1])]⟩ ⟨[]⟩ ["f"] :=
  ⟨by decide,
   claim_C6_hash_failure_copies List.length id false
     ⟨[(["f"], Node.file [1])]⟩ ⟨[]⟩ ["f"] (by decide)⟩

/-- C8: the remove plan deletes all files, then all symlinks, then — in
one strictly sequential invocation — the directories sorted by
descending depth with the synthetic empty-path root entry appended after
sorting, occupying the final position of the deletion sequence. -/
theorem claim_C8_remove_order (T : FileSets) (flags : Flags) :
    remove T flags =
      [⟨.delete, flagMode flags, T.files.map Item.file⟩,
       ⟨.delete, flagMode flags, T.symlinks.map Item.symlink⟩,
       ⟨.delete, .sequential,
         (sort_files T.dirs).map Item.dir ++ [Item.dir ⟨[]⟩]⟩] ∧
    ((sort_files T.dirs).map Item.dir ++ [Item.dir ⟨[]⟩]).getLast? =
      some (Item.dir ⟨[]⟩) ∧
    (sort_files T.dirs).Pairwise depthDescRel ∧
    (sort_files T.dirs).Perm T.dirs := by
  refine ⟨?_, getLast?_append_singleton _ _, sort_files_pairwise _,
    sort_files_perm _⟩
  rcases flags with ⟨nd, sec, vb, sq⟩
  cases sq <;> rfl

/-- C4: a scan fails exactly when the root itself cannot be opened (and
then no partial collection exists, by the `Except` shape); every
per-entry failure — unreadable entry, metadata failure, failed
symlink-target read, unreadable subdirectory — is skipped with the scan
continuing (an unreadable subdirectory still contributes its own `Dir`
entry, inserted before the failed recursive call); consequently each
public operation succeeds iff its root scans succeed, independent of
later per-entry copy/delete/hash failures, which the executors log and
discard. -/
theorem claim_C4_error_propagation :
    (∀ t, isOkE (get_all_files t) = rootReadable t) ∧
    (∀ pre xs, scanChildren pre (FsNode.unreadableEntry :: xs) =
      scanChildren pre xs) ∧
    (∀ pre n xs, scanChildren pre (FsNode.badMetadata n :: xs) =
      scanChildren pre xs) ∧
    (∀ pre n xs, scanChildren pre (FsNode.symlink n none :: xs) =
      scanChildren pre xs) ∧
    (∀ pre n cs xs, scanChildren pre (FsNode.dir n false cs :: xs) =
      FileSets.append ⟨[], [⟨pre ++ [n]⟩], []⟩ (scanChildren pre xs)) ∧
    (∀ s d flags, isOkE (synchronizeRun s d flags) =
      (rootReadable s && rootReadable d)) ∧
    (∀ s flags, isOkE (copyRun s flags) = rootReadable s) ∧
    (∀ t flags, isOkE (removeRun t flags) = rootReadable t) := by
  refine ⟨isOkE_get_all_files, ?_, ?_, ?_, ?_, ?_, ?_, ?_⟩
  · intro pre xs
    simp [scanChildren, scanEntry, FileSets.append, FileSets.empty]
  · intro pre n xs
    simp [scanChildren, scanEntry, FileSets.append, FileSets.empty]
  · intro pre n xs
    simp [scanChildren, scanEntry, FileSets.append, FileSets.empty]
  · intro pre n cs xs
    simp [scanChildren, scanEntry, FileSets.append, FileSets.empty]
  · intro s d flags
    rw [← isOkE_get_all_files s, ← isOkE_get_all_files d]
    rcases h1 : get_all_files s with e | v <;>
      rcases h2 : get_all_files d with e2 | v2 <;>
      simp [synchronizeRun, h1, h2, isOkE, Except.bind, Bind.bind, pure,
        Except.pure]
  · intro s flags
    rw [← isOkE_get_all_files s]
    rcases h1 : get_all_files s with e | v <;>
      simp [copyRun, h1, isOkE, Except.bind, Bind.bind, pure, Except.pure]
  · intro t flags
    rw [← isOkE_get_all_files t]
    rcases h1 : get_all_files t with e | v <;>
      simp [removeRun, h1, isOkE, Except.bind, Bind.bind, pure, Except.pure]

theorem applyAction_copyItem_secure (h : Content → Nat)
    (hs : Content → List Nat) (s1 s2 : Bool) (src d : Disk) (i : Item) :
    applyAction h hs s1 src d (.copyItem i) =
      applyAction h hs s2 src d (.copyItem i) := by
  cases i <;> rfl

theorem foldl_applyAction_copyOnly (h : Content → Nat)
    (hs : Content → List Nat) (s1 s2 : Bool) (src : Disk)
    (acts : List Action) (hc : ∀ a ∈ acts, ∃ i, a = Action.copyItem i) :
    ∀ d, acts.foldl (applyAction h hs s1 src) d =
      acts.foldl (applyAction h hs s2 src) d := by
  induction acts with
  | nil => intro d; rfl
  | cons a rest ih =>
      intro d
      obtain ⟨i, rfl⟩ := hc a (List.mem_cons_self a rest)
      rw [List.foldl_cons, List.foldl_cons,
        applyAction_copyItem_secure h hs s1 s2 src d i]
      exact ih (fun x hx => hc x (List.mem_cons_of_mem _ hx)) _

theorem copy_actions_copyItem (S : FileSets) (flags : Flags) :
    ∀ a ∈ (copy S flags).flatMap callActions, ∃ i, a = Action.copyItem i := by
  intro a ha
  obtain ⟨c, hc, hac⟩ := List.mem_flatMap.mp ha
  rw [copy_plan_norm] at hc
  simp only [List.mem_cons, List.not_mem_nil, or_false] at hc
  rcases hc with rfl | rfl | rfl <;>
  · simp only [callActions, List.mem_map] at hac
    obtain ⟨i, _, rfl⟩ := hac
    exact ⟨i, rfl⟩

/-- C10: the behaviour of `core::copy` depends only on the `Sequential`
flag — for flag sets agreeing on `Sequential`, the plan, the resulting
destination state, and the returned result are identical, whatever
`NoDelete`, `Secure` and `Verbose` are. -/
theorem claim_C10_copy_ignores_other_flags (S : FileSets) (f1 f2 : Flags)
    (hseq : f1.sequential = f2.sequential) :
    copy S f1 = copy S f2 ∧
    (∀ (h : Content → Nat) (hs : Content → List Nat) (src dest : Disk),
      runCopy h hs src dest f1 = runCopy h hs src dest f2) ∧
    (∀ t : FsNode, copyRun t f1 = copyRun t f2) := by
  have hm : flagMode f1 = flagMode f2 := by simp [flagMode, hseq]
  have hplan : ∀ X : FileSets, copy X f1 = copy X f2 := by
    intro X
    rw [copy_plan_norm, copy_plan_norm, hm]
  refine ⟨hplan S, ?_, ?_⟩
  · intro h hs src dest
    unfold runCopy runPlan
    rw [hplan (scanDisk src)]
    exact foldl_applyAction_copyOnly h hs f1.secure f2.secure src _
      (copy_actions_copyItem _ f2) dest
  · intro t
    unfold copyRun
    rcases ht : get_all_files t with e | v <;>
      simp [ht, hplan, Except.bind, Bind.bind, pure, Except.pure]

/-- C10 witness: two flag sets agreeing on `Sequential` and differing on
all of `NoDelete`, `Secure`, `Verbose`. -/
theorem claim_C10_copy_ignores_other_flags_witness :
    ((⟨false, false, false, true⟩ : Flags).sequential =
      (⟨true, true, true, true⟩ : Flags).sequential) ∧
    copy ⟨[⟨["f"], 1⟩], [⟨["d"]⟩], []⟩ ⟨false, false, false, true⟩ =
      copy ⟨[⟨["f"], 1⟩], [⟨["d"]⟩], []⟩ ⟨true, true, true, true⟩ ∧
    runCopy List.length id ⟨[(["f"], Node.file [1])]⟩ ⟨[]⟩
        ⟨false, false, false, true⟩ =
      runCopy List.length id ⟨[(["f"], Node.file [1])]⟩ ⟨[]⟩
        ⟨true, true, true, true⟩ :=
  ⟨rfl,
   (claim_C10_copy_ignores_other_flags ⟨[⟨["f"], 1⟩], [⟨["d"]⟩], []⟩
      ⟨false, false, false, true⟩ ⟨true, true, true, true⟩ rfl).1,
   (claim_C10_copy_ignores_other_flags ⟨[⟨["f"], 1⟩], [⟨["d"]⟩], []⟩
      ⟨false, false, false, true⟩ ⟨true, true, true, true⟩ rfl).2.1
     List.length id ⟨[(["f"], Node.file [1])]⟩ ⟨[]⟩⟩

/-!
### Basic lemmas about `Disk.find?`, `Disk.set`, `Disk.erase`
-/

theorem find?_eq_findEntries (d : Disk) (p : Path) :
    d.find? p = findEntries d.entries p := by
  unfold Disk.find?
  induction d.entries with
  | nil => rfl
  | cons e es ih =>
      rw [List.find?_cons]
      by_cases hep : e.1 = p
      · have h1 : (decide (e.1 = p)) = true := by simpa using hep
        rw [h1]
        simp [findEntries, hep]
      · have h1 : (decide (e.1 = p)) = false := by simpa using hep
        rw [h1]
        simp only [findEntries, if_neg hep]
        exact ih

theorem Disk.find?_erase (d : Disk) (p q : Path) :
    (d.erase p).find? q = if q = p then none else d.find? q := by
  rw [find?_eq_findEntries, find?_eq_findEntries]
  show findEntries (d.entries.filter (fun e => decide (¬ e.1 = p))) q = _
  by_cases hq : q = p
  · subst hq
    rw [if_pos rfl]
    induction d.entries with
    | nil => rfl
    | cons e es ih =>
        rw [List.filter_cons]
        by_cases hep : e.1 = q
        · rw [if_neg (by simp [hep])]
          exact ih
        · rw [if_pos (by simp [hep])]
          simp only [findEntries, if_neg hep]
          exact ih
  · rw [if_neg hq]
    induction d.entries with
    | nil => rfl
    | cons e es ih =>
        rw [List.filter_cons]
        by_cases hep : e.1 = p
        · rw [if_neg (by simp [hep])]
          rw [ih]
          simp only [findEntries]
          rw [if_neg (fun hc : e.1 = q => hq (by rw [← hc, hep]))]
        · rw [if_pos (by simp [hep])]
          simp only [findEntries]
          by_cases heq : e.1 = q
          · rw [if_pos heq, if_pos heq]
          · rw [if_neg heq, if_neg heq]
            exact ih

theorem Disk.find?_set (d : Disk) (p : Path) (n : Node) (q : Path) :
    (d.set p n).find? q = if q = p then some n else d.find? q := by
  rw [find?_eq_findEntries]
  show findEntries ((p, n) :: (d.erase p).entries) q = _
  simp only [findEntries]
  by_cases hq : q = p
  · rw [if_pos hq.symm, if_pos hq]
  · rw [if_neg (fun hc : p = q => hq hc.symm), if_neg hq,
      ← find?_eq_findEntries, Disk.find?_erase, if_neg hq]

theorem findEntries_mem_of_eq_some {es : List (Path × Node)} {p : Path}
    {n : Node} (hf : findEntries es p = some n) : (p, n) ∈ es := by
  induction es with
  | nil => exact absurd hf (by simp [findEntries])
  | cons e es ih =>
      simp only [findEntries] at hf
      by_cases hep : e.1 = p
      · rw [if_pos hep] at hf
        have hn : e.2 = n := by simpa using hf
        have he : e = (p, n) := Prod.ext hep hn
        exact he ▸ List.mem_cons_self e es
      · rw [if_neg hep] at hf
        exact List.mem_cons_of_mem _ (ih hf)

theorem findEntries_isSome_of_mem {es : List (Path × Node)} {p : Path}
    {n : Node} (hm : (p, n) ∈ es) : ∃ m, findEntries es p = some m := by
  induction es with
  | nil => exact absurd hm (List.not_mem_nil _)
  | cons e es ih =>
      simp only [findEntries]
      by_cases hep : e.1 = p
      · rw [if_pos hep]
        exact ⟨e.2, rfl⟩
      · rw [if_neg hep]
        rcases List.mem_cons.mp hm with rfl | hm2
        · exact absurd rfl hep
        · exact ih hm2

theorem findEntries_eq_some_of_mem {es : List (Path × Node)}
    (hnd : (es.map Prod.fst).Nodup) {p : Path} {n : Node}
    (hm : (p, n) ∈ es) : findEntries es p = some n := by
  induction es with
  | nil => exact absurd hm (List.not_mem_nil _)
  | cons e es ih =>
      rw [List.map_cons] at hnd
      have hnd2 := List.nodup_cons.mp hnd
      simp only [findEntries]
      rcases List.mem_cons.mp hm with rfl | hm2
      · rw [if_pos rfl]
      · by_cases hep : e.1 = p
        · exfalso
          have hps : p ∈ es.map Prod.fst := List.mem_map.mpr ⟨(p, n), hm2, rfl⟩
          exact hnd2.1 (hep ▸ hps)
        · rw [if_neg hep]
          exact ih hnd2.2 hm2

theorem findEntries_eq_none_iff {es : List (Path × Node)} {p : Path} :
    findEntries es p = none ↔ ∀ e ∈ es, e.1 ≠ p := by
  induction es with
  | nil => simp [findEntries]
  | cons e es ih =>
      simp only [findEntries]
      by_cases hep : e.1 = p
      · rw [if_pos hep]
        simp only [List.mem_cons]
        constructor
        · intro hc
          exact absurd hc (by simp)
        · intro hall
          exact absurd hep (hall e (Or.inl rfl))
      · rw [if_neg hep]
        rw [ih]
        constructor
        · intro hall e2 he2
          rcases List.mem_cons.mp he2 with rfl | he3
          · exact hep
          · exact hall e2 he3
        · intro hall e2 he2
          exact hall e2 (List.mem_cons_of_mem _ he2)

theorem Disk.mem_of_find?_eq_some {d : Disk} {p : Path} {n : Node}
    (hf : d.find? p = some n) : (p, n) ∈ d.entries := by
  rw [find?_eq_findEntries] at hf
  exact findEntries_mem_of_eq_some hf

theorem Disk.find?_isSome_of_mem {d : Disk} {p : Path} {n : Node}
    (hm : (p, n) ∈ d.entries) : ∃ m, d.find? p = some m := by
  rw [find?_eq_findEntries]
  exact findEntries_isSome_of_mem hm

theorem Disk.find?_eq_some_of_mem {d : Disk} (hnd : d.keysNodup)
    {p : Path} {n : Node} (hm : (p, n) ∈ d.entries) :
    d.find? p = some n := by
  rw [find?_eq_findEntries]
  exact findEntries_eq_some_of_mem hnd hm

theorem Disk.find?_eq_none_iff {d : Disk} {p : Path} :
    d.find? p = none ↔ ∀ e ∈ d.entries, e.1 ≠ p := by
  rw [find?_eq_findEntries]
  exact findEntries_eq_none_iff

theorem Disk.keysNodup_erase {d : Disk} (hnd : d.keysNodup) (p : Path) :
    (d.erase p).keysNodup := by
  unfold Disk.keysNodup Disk.erase at *
  exact ((List.filter_sublist d.entries).map Prod.fst).nodup hnd

theorem Disk.keysNodup_set {d : Disk} (hnd : d.keysNodup) (p : Path)
    (n : Node) : (d.set p n).keysNodup := by
  have hbase : ((d.erase p).entries.map Prod.fst).Nodup :=
    Disk.keysNodup_erase hnd p
  unfold Disk.keysNodup Disk.set
  rw [List.map_cons, List.nodup_cons]
  refine ⟨?_, hbase⟩
  intro hc
  obtain ⟨e, he, hep⟩ := List.mem_map.mp hc
  have hmem := (List.mem_filter.mp he).2
  rw [hep] at hmem
  simp at hmem

/-!
### Operation-level characterizations
-/

theorem length_take_of_le {α : Type} {l : List α} {n : Nat}
    (h : n ≤ l.length) : (l.take n).length = n := by
  rw [List.length_take]
  omega

theorem strictlyUnder_length {q p : Path} (h : strictlyUnder q p) :
    p.length < q.length := by
  obtain ⟨hne, htake⟩ := h
  have h1 : (q.take p.length).length = p.length := by rw [htake]
  rw [List.length_take] at h1
  rcases Nat.lt_or_ge p.length q.length with hlt | hge
  · exact hlt
  · exfalso
    have : q.length = p.length := by omega
    have hq : q.take p.length = q := by
      rw [← this, List.take_length]
    exact hne (by rw [← htake, hq])

theorem remove_file_find?_ne (d : Disk) (p q : Path) (h : q ≠ p) :
    (remove_file d p).find? q = d.find? q := by
  rcases hfp : d.find? p with _ | n
  · simp [remove_file, hfp]
  · cases n <;> simp [remove_file, hfp, Disk.find?_erase, h]

theorem remove_file_find?_self (d : Disk) (p : Path) :
    (remove_file d p).find? p =
      if filelike (d.find? p) then none else d.find? p := by
  rcases hfp : d.find? p with _ | n
  · simp [remove_file, hfp, filelike]
  · cases n <;> simp [remove_file, hfp, filelike, Disk.find?_erase]

theorem remove_file_keysNodup {d : Disk} (hnd : d.keysNodup) (p : Path) :
    (remove_file d p).keysNodup := by
  rcases hfp : d.find? p with _ | n
  · simpa [remove_file, hfp] using hnd
  · cases n
    · simpa [remove_file, hfp] using Disk.keysNodup_erase hnd p
    · simpa [remove_file, hfp] using hnd
    · simpa [remove_file, hfp] using Disk.keysNodup_erase hnd p

theorem remove_dir_find?_ne (d : Disk) (p q : Path) (h : q ≠ p) :
    (remove_dir d p).find? q = d.find? q := by
  rcases hfp : d.find? p with _ | n
  · simp only [remove_dir, hfp]
  · cases n
    · simp only [remove_dir, hfp]
    · simp only [remove_dir, hfp]
      by_cases hall :
        d.entries.all (fun e => decide (¬ strictlyUnder e.1 p)) = true
      · rw [if_pos hall, Disk.find?_erase, if_neg h]
      · rw [if_neg hall]
    · simp only [remove_dir, hfp]

theorem remove_dir_success (d : Disk) (p : Path)
    (hdir : d.find? p = some Node.dir)
    (hempty : ∀ e ∈ d.entries, ¬ strictlyUnder e.1 p) :
    remove_dir d p = d.erase p := by
  have hall : d.entries.all (fun e => decide (¬ strictlyUnder e.1 p)) = true := by
    rw [List.all_eq_true]
    intro e he
    simpa using hempty e he
  simp only [remove_dir, hdir]
  rw [if_pos hall]

theorem remove_dir_keysNodup {d : Disk} (hnd : d.keysNodup) (p : Path) :
    (remove_dir d p).keysNodup := by
  rcases hfp : d.find? p with _ | n
  · simp only [remove_dir, hfp]
    exact hnd
  · cases n
    · simp only [remove_dir, hfp]
      exact hnd
    · simp only [remove_dir, hfp]
      by_cases hall :
        d.entries.all (fun e => decide (¬ strictlyUnder e.1 p)) = true
      · rw [if_pos hall]
        exact Disk.keysNodup_erase hnd p
      · rw [if_neg hall]
        exact hnd
    · simp only [remove_dir, hfp]
      exact hnd

theorem create_symlink_find?_ne (d : Disk) (p t q : Path) (h : q ≠ p) :
    (create_symlink d p t).find? q = d.find? q := by
  unfold create_symlink
  by_cases hc : parentIsDir d p = true ∧ d.find? p = none
  · rw [if_pos hc, Disk.find?_set, if_neg h]
  · rw [if_neg hc]

theorem create_symlink_success (d : Disk) (p t : Path)
    (hpar : parentIsDir d p = true) (hvac : d.find? p = none) :
    create_symlink d p t = d.set p (.symlink t) := by
  rw [create_symlink, if_pos ⟨hpar, hvac⟩]

theorem create_symlink_occupied (d : Disk) (p t : Path)
    (hocc : d.find? p ≠ none) : create_symlink d p t = d := by
  rw [create_symlink, if_neg]
  intro hc
  exact hocc hc.2

theorem create_symlink_keysNodup {d : Disk} (hnd : d.keysNodup)
    (p t : Path) : (create_symlink d p t).keysNodup := by
  unfold create_symlink
  by_cases hc : parentIsDir d p = true ∧ d.find? p = none
  · rw [if_pos hc]
    exact Disk.keysNodup_set hnd p _
  · rw [if_neg hc]
    exact hnd

theorem copy_file_find?_ne (src d : Disk) (p q : Path) (h : q ≠ p) :
    (copy_file src d p).find? q = d.find? q := by
  rcases hr : readFile src p with _ | c
  · simp [copy_file, hr]
  · by_cases hpar : parentIsDir d p = true
    · rcases hfp : d.find? p with _ | n
      · simp [copy_file, hr, hpar, hfp, Disk.find?_set, h]
      · cases n <;> simp [copy_file, hr, hpar, hfp, Disk.find?_set, h]
    · simp [copy_file, hr, hpar]

theorem copy_file_success (src d : Disk) (p : Path) (c : Content)
    (hr : readFile src p = some c) (hpar : parentIsDir d p = true)
    (hok : d.find? p = none ∨ ∃ c0, d.find? p = some (Node.file c0)) :
    copy_file src d p = d.set p (.file c) := by
  rcases hok with hv | ⟨c0, hf⟩
  · simp [copy_file, hr, hpar, hv]
  · simp [copy_file, hr, hpar, hf]

theorem copy_file_keysNodup {src d : Disk} (hnd : d.keysNodup) (p : Path) :
    (copy_file src d p).keysNodup := by
  rcases hr : readFile src p with _ | c
  · simpa [copy_file, hr] using hnd
  · by_cases hpar : parentIsDir d p = true
    · rcases hfp : d.find? p with _ | n
      · simpa [copy_file, hr, hpar, hfp] using Disk.keysNodup_set hnd p _
      · cases n
        · simpa [copy_file, hr, hpar, hfp] using Disk.keysNodup_set hnd p _
        · simpa [copy_file, hr, hpar, hfp] using hnd
        · simpa [copy_file, hr, hpar, hfp] using hnd
    · simpa [copy_file, hr, hpar] using hnd

theorem create_dir_all_go_find?_frame (p : Path) (k : Nat) (d : Disk)
    (q : Path) (hq : ∀ i, 0 < i → i ≤ k → q ≠ p.take i) :
    (create_dir_all_go p k d).1.find? q = d.find? q := by
  induction k with
  | zero => rfl
  | succ k ih =>
      have ih2 := ih (fun i hi hik => hq i hi (Nat.le_succ_of_le hik))
      rcases hgo : create_dir_all_go p k d with ⟨d1, flag⟩
      simp only [hgo] at ih2
      cases flag
      · simp only [create_dir_all_go, hgo]
        exact ih2
      · simp only [create_dir_all_go, hgo]
        rcases hf1 : d1.find? (p.take (k + 1)) with _ | n
        · simp only [hf1]
          rw [Disk.find?_set, if_neg (hq (k + 1) (Nat.succ_pos k) (Nat.le_refl _))]
          exact ih2
        · cases n <;> simp only [hf1] <;> exact ih2

theorem create_dir_all_go_keysNodup (p : Path) (k : Nat) {d : Disk}
    (hnd : d.keysNodup) : (create_dir_all_go p k d).1.keysNodup := by
  induction k with
  | zero => exact hnd
  | succ k ih =>
      rcases hgo : create_dir_all_go p k d with ⟨d1, flag⟩
      simp only [hgo] at ih
      cases flag
      · simp only [create_dir_all_go, hgo]
        exact ih
      · simp only [create_dir_all_go, hgo]
        rcases hf1 : d1.find? (p.take (k + 1)) with _ | n
        · simp only [hf1]
          exact Disk.keysNodup_set ih _ _
        · cases n <;> simp only [hf1] <;> exact ih

theorem dirMono_refl (d : Disk) : dirMono d d := fun _ => Or.inl rfl

theorem dirMono_trans {a b c : Disk} (h1 : dirMono a b) (h2 : dirMono b c) :
    dirMono a c := by
  intro q
  rcases h2 q with h | ⟨hb, hc⟩
  · rw [h]
    exact h1 q
  · rcases h1 q with h | ⟨ha, hb2⟩
    · right
      rw [← h]
      exact ⟨hb, hc⟩
    · rw [hb2] at hb
      exact absurd hb (by simp)

theorem create_dir_all_go_mono (p : Path) (k : Nat) (d : Disk) :
    dirMono d (create_dir_all_go p k d).1 := by
  induction k with
  | zero => exact dirMono_refl d
  | succ k ih =>
      rcases hgo : create_dir_all_go p k d with ⟨d1, flag⟩
      simp only [hgo] at ih
      cases flag
      · simp only [create_dir_all_go, hgo]
        exact ih
      · simp only [create_dir_all_go, hgo]
        rcases hf1 : d1.find? (p.take (k + 1)) with _ | n
        · simp only [hf1]
          refine dirMono_trans ih ?_
          intro q
          by_cases hq : q = p.take (k + 1)
          · subst hq
            right
            rw [Disk.find?_set, if_pos rfl]
            exact ⟨hf1, rfl⟩
          · left
            rw [Disk.find?_set, if_neg hq]
        · cases n <;> simp only [hf1] <;> exact ih

theorem create_dir_all_go_spec (p : Path) (k : Nat) (d : Disk)
    (hk : k ≤ p.length)
    (hcomp : ∀ i, 0 < i → i ≤ k → dirComp (d.find? (p.take i))) :
    (create_dir_all_go p k d).2 = true ∧
    (∀ i, 0 < i → i ≤ k →
      (create_dir_all_go p k d).1.find? (p.take i) = some Node.dir) := by
  induction k with
  | zero =>
      exact ⟨rfl, fun i hi hik => absurd (Nat.le_trans hi hik) (by omega)⟩
  | succ k ih =>
      obtain ⟨hflag, hdirs⟩ := ih (Nat.le_of_succ_le hk)
        (fun i hi hik => hcomp i hi (Nat.le_succ_of_le hik))
      have hne : ∀ i, 0 < i → i ≤ k → p.take (k + 1) ≠ p.take i := by
        intro i hi hik hcon
        have l1 : (p.take (k + 1)).length = k + 1 := length_take_of_le hk
        have l2 : (p.take i).length = i :=
          length_take_of_le (Nat.le_trans hik (Nat.le_of_succ_le hk))
        rw [hcon, l2] at l1
        omega
      have hframe : (create_dir_all_go p k d).1.find? (p.take (k + 1)) =
          d.find? (p.take (k + 1)) :=
        create_dir_all_go_find?_frame p k d _ hne
      have hcomp1 : dirComp (d.find? (p.take (k + 1))) :=
        hcomp (k + 1) (Nat.succ_pos k) (Nat.le_refl _)
      rcases hgo : create_dir_all_go p k d with ⟨d1, flag⟩
      simp only [hgo] at hflag hdirs hframe
      subst hflag
      simp only [create_dir_all_go, hgo]
      rcases hf1 : d1.find? (p.take (k + 1)) with _ | n
      · simp only [hf1]
        refine ⟨by trivial, ?_⟩
        intro i hi hik
        rcases Nat.lt_or_ge i (k + 1) with hlt | hge
        · have hne2 : p.take i ≠ p.take (k + 1) :=
            fun hc => (hne i hi (Nat.lt_succ_iff.mp hlt)) hc.symm
          rw [Disk.find?_set, if_neg hne2]
          exact hdirs i hi (Nat.lt_succ_iff.mp hlt)
        · have hik2 : i = k + 1 := by omega
          subst hik2
          rw [Disk.find?_set, if_pos rfl]
      · rw [hf1] at hframe
        rcases hcomp1 with hnone | hdir
        · exact absurd (hframe.trans hnone) (by simp)
        · have hn : n = Node.dir := by simpa using hframe.trans hdir
          subst hn
          simp only [hf1]
          refine ⟨by trivial, ?_⟩
          intro i hi hik
          rcases Nat.lt_or_ge i (k + 1) with hlt | hge
          · exact hdirs i hi (Nat.lt_succ_iff.mp hlt)
          · have hik2 : i = k + 1 := by omega
            subst hik2
            exact hf1

theorem create_dir_all_spec (d : Disk) (p : Path)
    (hcomp : ∀ i, 0 < i → i ≤ p.length → dirComp (d.find? (p.take i))) :
    (∀ i, 0 < i → i ≤ p.length →
      (create_dir_all d p).find? (p.take i) = some Node.dir) ∧
    (∀ q, (∀ i, 0 < i → i ≤ p.length → q ≠ p.take i) →
      (create_dir_all d p).find? q = d.find? q) := by
  refine ⟨(create_dir_all_go_spec p p.length d (Nat.le_refl _) hcomp).2, ?_⟩
  intro q hq
  exact create_dir_all_go_find?_frame p p.length d q hq

theorem create_dir_all_mono (d : Disk) (p : Path) :
    dirMono d (create_dir_all d p) :=
  create_dir_all_go_mono p p.length d

theorem create_dir_all_keysNodup {d : Disk} (hnd : d.keysNodup)
    (p : Path) : (create_dir_all d p).keysNodup :=
  create_dir_all_go_keysNodup p p.length hnd

/-!
### Scan membership and path-distinctness lemmas
-/

theorem scan_files_mem {d : Disk} {p : Path} {s : Nat} :
    (⟨p, s⟩ : File) ∈ (scanDisk d).files ↔
      ∃ c, (p, Node.file c) ∈ d.entries ∧ c.length = s := by
  simp only [scanDisk, List.mem_filterMap]
  constructor
  · rintro ⟨⟨q, n⟩, he, hfe⟩
    cases n with
    | file c =>
        simp only [Option.some.injEq, File.mk.injEq] at hfe
        obtain ⟨hq, hsz⟩ := hfe
        subst hq
        exact ⟨c, he, hsz⟩
    | dir => simp at hfe
    | symlink t => simp at hfe
  · rintro ⟨c, hm, hl⟩
    exact ⟨(p, Node.file c), hm, by simp [hl]⟩

theorem scan_dirs_mem {d : Disk} {p : Path} :
    (⟨p⟩ : Dir) ∈ (scanDisk d).dirs ↔ (p, Node.dir) ∈ d.entries := by
  simp only [scanDisk, List.mem_filterMap]
  constructor
  · rintro ⟨⟨q, n⟩, he, hfe⟩
    cases n with
    | file c => simp at hfe
    | dir =>
        simp only [Option.some.injEq, Dir.mk.injEq] at hfe
        subst hfe
        exact he
    | symlink t => simp at hfe
  · intro hm
    exact ⟨(p, Node.dir), hm, by simp⟩

theorem scan_symlinks_mem {d : Disk} {p t : Path} :
    (⟨p, t⟩ : Symlink) ∈ (scanDisk d).symlinks ↔
      (p, Node.symlink t) ∈ d.entries := by
  simp only [scanDisk, List.mem_filterMap]
  constructor
  · rintro ⟨⟨q, n⟩, he, hfe⟩
    cases n with
    | file c => simp at hfe
    | dir => simp at hfe
    | symlink t2 =>
        simp only [Option.some.injEq, Symlink.mk.injEq] at hfe
        obtain ⟨hq, ht⟩ := hfe
        subst hq
        subst ht
        exact he
  · intro hm
    exact ⟨(p, Node.symlink t), hm, by simp⟩

theorem scan_files_find? {d : Disk} (hnd : d.keysNodup) {p : Path}
    {s : Nat} :
    (⟨p, s⟩ : File) ∈ (scanDisk d).files ↔
      ∃ c, d.find? p = some (Node.file c) ∧ c.length = s := by
  rw [scan_files_mem]
  constructor
  · rintro ⟨c, hm, hl⟩
    exact ⟨c, Disk.find?_eq_some_of_mem hnd hm, hl⟩
  · rintro ⟨c, hf, hl⟩
    exact ⟨c, Disk.mem_of_find?_eq_some hf, hl⟩

theorem scan_dirs_find? {d : Disk} (hnd : d.keysNodup) {p : Path} :
    (⟨p⟩ : Dir) ∈ (scanDisk d).dirs ↔ d.find? p = some Node.dir := by
  rw [scan_dirs_mem]
  exact ⟨Disk.find?_eq_some_of_mem hnd, Disk.mem_of_find?_eq_some⟩

theorem scan_symlinks_find? {d : Disk} (hnd : d.keysNodup) {p t : Path} :
    (⟨p, t⟩ : Symlink) ∈ (scanDisk d).symlinks ↔
      d.find? p = some (Node.symlink t) := by
  rw [scan_symlinks_mem]
  exact ⟨Disk.find?_eq_some_of_mem hnd, Disk.mem_of_find?_eq_some⟩

theorem filterMap_path_sublist {α : Type} (f : Path × Node → Option α)
    (g : α → Path) (hf : ∀ e a, f e = some a → g a = e.1)
    (es : List (Path × Node)) :
    ((es.filterMap f).map g).Sublist (es.map Prod.fst) := by
  induction es with
  | nil => simp
  | cons e es ih =>
      rw [List.filterMap_cons]
      rcases hfe : f e with _ | a
      · rw [List.map_cons]
        exact ih.cons e.1
      · rw [List.map_cons, List.map_cons, hf e a hfe]
        exact ih.cons₂ e.1

theorem scan_files_paths_nodup {d : Disk} (hnd : d.keysNodup) :
    ((scanDisk d).files.map File.path).Nodup := by
  refine List.Nodup.sublist ?_ hnd
  refine filterMap_path_sublist _ _ ?_ d.entries
  rintro ⟨q, n⟩ a hfa
  cases n with
  | file c =>
      simp only [Option.some.injEq] at hfa
      rw [← hfa]
  | dir => simp at hfa
  | symlink t => simp at hfa

theorem scan_dirs_paths_nodup {d : Disk} (hnd : d.keysNodup) :
    ((scanDisk d).dirs.map Dir.path).Nodup := by
  refine List.Nodup.sublist ?_ hnd
  refine filterMap_path_sublist _ _ ?_ d.entries
  rintro ⟨q, n⟩ a hfa
  cases n with
  | file c => simp at hfa
  | dir =>
      simp only [Option.some.injEq] at hfa
      rw [← hfa]
  | symlink t => simp at hfa

theorem scan_symlinks_paths_nodup {d : Disk} (hnd : d.keysNodup) :
    ((scanDisk d).symlinks.map Symlink.path).Nodup := by
  refine List.Nodup.sublist ?_ hnd
  refine filterMap_path_sublist _ _ ?_ d.entries
  rintro ⟨q, n⟩ a hfa
  cases n with
  | file c => simp at hfa
  | dir => simp at hfa
  | symlink t =>
      simp only [Option.some.injEq] at hfa
      rw [← hfa]

theorem diff_paths_nodup {α : Type} [DecidableEq α] (g : α → Path)
    {a : List α} (b : List α) (hnd : (a.map g).Nodup) :
    ((diff a b).map g).Nodup :=
  List.Nodup.sublist ((List.filter_sublist a).map g) hnd

theorem inter_paths_nodup {α : Type} [DecidableEq α] (g : α → Path)
    {a : List α} (b : List α) (hnd : (a.map g).Nodup) :
    ((inter a b).map g).Nodup :=
  List.Nodup.sublist ((List.filter_sublist a).map g) hnd

theorem readFile_eq_some_iff {d : Disk} {p : Path} {c : Content} :
    readFile d p = some c ↔ d.find? p = some (Node.file c) := by
  unfold readFile
  rcases hf : d.find? p with _ | n
  · simp
  · cases n <;> simp

theorem compare_and_copy_file_spec (h : Content → Nat)
    (hs : Content → List Nat) (sec : Bool) (src dest : Disk) (p : Path)
    (c c0 : Content) (hsrc : readFile src p = some c)
    (hdest : dest.find? p = some (Node.file c0))
    (hpar : parentIsDir dest p = true) :
    (compare_and_copy_file h hs sec src dest p).find? p =
      some (Node.file (if modeEqB h hs sec c c0 = true then c0 else c)) ∧
    (∀ q, q ≠ p →
      (compare_and_copy_file h hs sec src dest p).find? q =
        dest.find? q) := by
  have hrd : readFile dest p = some c0 := readFile_eq_some_iff.mpr hdest
  have hcopy : copy_file src dest p = dest.set p (.file c) :=
    copy_file_success src dest p c hsrc hpar (Or.inr ⟨c0, hdest⟩)
  have hdec : compare_and_copy_decision sec
      (hash_file h src p) (hash_file h dest p)
      (hash_file_secure hs src p) (hash_file_secure hs dest p) =
      !(modeEqB h hs sec c c0) := by
    unfold compare_and_copy_decision modeEqB hash_file hash_file_secure
    rw [hsrc, hrd]
    cases sec
    · simp only [Bool.false_eq_true, if_false, Option.map_some]
      by_cases he : h c = h c0
      · simp [he]
      · simp [he]
    · simp only [if_true, Option.map_some]
      by_cases he : hs c = hs c0
      · simp [he]
      · simp [he]
  unfold compare_and_copy_file
  rw [hdec]
  by_cases he : modeEqB h hs sec c c0 = true
  · have hdecf : (!modeEqB h hs sec c c0) = false := by rw [he]; rfl
    rw [hdecf, if_neg (by simp)]
    refine ⟨?_, fun q hq => rfl⟩
    rw [hdest, if_pos he]
  · have he2 : modeEqB h hs sec c c0 = false := by
      cases hmm : modeEqB h hs sec c c0
      · rfl
      · exact absurd hmm he
    have hdect : (!modeEqB h hs sec c c0) = true := by rw [he2]; rfl
    rw [hdect, if_pos rfl, hcopy]
    constructor
    · rw [Disk.find?_set, if_pos rfl, if_neg he]
    · intro q hq
      rw [Disk.find?_set, if_neg hq]

theorem compare_and_copy_file_noop (h : Content → Nat)
    (hs : Content → List Nat) (sec : Bool) (src dest : Disk) (p : Path)
    (c c0 : Content) (hsrc : readFile src p = some c)
    (hdest : readFile dest p = some c0)
    (heq : modeEqB h hs sec c c0 = true) :
    compare_and_copy_file h hs sec src dest p = dest := by
  unfold compare_and_copy_file compare_and_copy_decision
  unfold hash_file hash_file_secure
  rw [hsrc, hdest]
  unfold modeEqB at heq
  cases sec
  · simp only [Bool.false_eq_true, if_false, Option.map_some] at heq ⊢
    have : h c = h c0 := by simpa using heq
    simp [this]
  · simp only [if_true, Option.map_some] at heq ⊢
    have : hs c = hs c0 := by simpa using heq
    simp [this]

theorem compare_and_copy_file_keysNodup (h : Content → Nat)
    (hs : Content → List Nat) (sec : Bool) (src : Disk) {dest : Disk}
    (hnd : dest.keysNodup) (p : Path) :
    (compare_and_copy_file h hs sec src dest p).keysNodup := by
  unfold compare_and_copy_file
  by_cases hc : compare_and_copy_decision sec
      (hash_file h src p) (hash_file h dest p)
      (hash_file_secure hs src p) (hash_file_secure hs dest p) = true
  · rw [if_pos hc]
    exact copy_file_keysNodup hnd p
  · rw [if_neg hc]
    exact hnd

/-!
### Fold characterizations of the executor passes
-/

theorem compare_and_copy_file_find?_ne (h : Content → Nat)
    (hs : Content → List Nat) (sec : Bool) (src d : Disk) (p q : Path)
    (hq : q ≠ p) :
    (compare_and_copy_file h hs sec src d p).find? q = d.find? q := by
  unfold compare_and_copy_file
  by_cases hc : compare_and_copy_decision sec
      (hash_file h src p) (hash_file h d p)
      (hash_file_secure hs src p) (hash_file_secure hs d p) = true
  · rw [if_pos hc]
    exact copy_file_find?_ne src d p q hq
  · rw [if_neg hc]

theorem applyAction_keysNodup (h : Content → Nat) (hs : Content → List Nat)
    (sec : Bool) (src : Disk) {d : Disk} (hnd : d.keysNodup) (a : Action) :
    (applyAction h hs sec src d a).keysNodup := by
  cases a with
  | copyItem i =>
      cases i with
      | file f => exact copy_file_keysNodup hnd f.path
      | dir dd => exact create_dir_all_keysNodup hnd dd.path
      | symlink s => exact create_symlink_keysNodup hnd s.path s.target
  | deleteItem i =>
      cases i with
      | file f => exact remove_file_keysNodup hnd f.path
      | dir dd => exact remove_dir_keysNodup hnd dd.path
      | symlink s => exact remove_file_keysNodup hnd s.path
  | compareItem i => exact compare_and_copy_file_keysNodup h hs sec src hnd _

theorem foldl_applyAction_keysNodup (h : Content → Nat)
    (hs : Content → List Nat) (sec : Bool) (src : Disk)
    (acts : List Action) :
    ∀ {d : Disk}, d.keysNodup →
      (acts.foldl (applyAction h hs sec src) d).keysNodup := by
  induction acts with
  | nil => exact fun hnd => hnd
  | cons a acts ih =>
      intro d hnd
      rw [List.foldl_cons]
      exact ih (applyAction_keysNodup h hs sec src hnd a)

theorem foldl_remove_file_frame {X : List Path} {d : Disk} {q : Path}
    (hq : ∀ p ∈ X, p ≠ q) :
    (X.foldl remove_file d).find? q = d.find? q := by
  induction X generalizing d with
  | nil => rfl
  | cons p0 X ih =>
      rw [List.foldl_cons]
      rw [ih (fun p hp => hq p (List.mem_cons_of_mem _ hp))]
      exact remove_file_find?_ne d p0 q
        (fun hc => (hq p0 (List.mem_cons_self _ _)) hc.symm)

theorem foldl_remove_file_deleted {X : List Path} {d : Disk}
    (hnodup : X.Nodup) (hfl : ∀ p ∈ X, filelike (d.find? p) = true) :
    ∀ p ∈ X, (X.foldl remove_file d).find? p = none := by
  induction X generalizing d with
  | nil => intro p hp; exact absurd hp (List.not_mem_nil _)
  | cons p0 X ih =>
      have hnd2 := List.nodup_cons.mp hnodup
      intro p hp
      rw [List.foldl_cons]
      rcases List.mem_cons.mp hp with rfl | hp2
      · have hframe : ∀ r ∈ X, r ≠ p := fun r hr hc => hnd2.1 (hc ▸ hr)
        rw [foldl_remove_file_frame hframe]
        rw [remove_file_find?_self, if_pos (hfl p (List.mem_cons_self _ _))]
      · refine ih hnd2.2 (fun r hr => ?_) p hp2
        have hrne : r ≠ p0 := fun hc => hnd2.1 (hc ▸ hr)
        rw [remove_file_find?_ne d p0 r hrne]
        exact hfl r (List.mem_cons_of_mem _ hr)

theorem parentIsDir_set_not_dir {d : Disk} {p : Path} {n : Node}
    {r : Path} (hnotdir : d.find? p ≠ some Node.dir)
    (hp : parentIsDir d r = true) : parentIsDir (d.set p n) r = true := by
  unfold parentIsDir at *
  rcases Bool.or_eq_true_iff.mp hp with h1 | h2
  · exact Bool.or_eq_true_iff.mpr (Or.inl h1)
  · refine Bool.or_eq_true_iff.mpr (Or.inr ?_)
    rw [decide_eq_true_iff] at h2 ⊢
    rw [Disk.find?_set, if_neg]
    · exact h2
    · intro hc
      rw [hc] at h2
      exact hnotdir h2

theorem parentIsDir_erase {d : Disk} {p : Path} {r : Path}
    (hnotdir : d.find? p ≠ some Node.dir)
    (hp : parentIsDir d r = true) : parentIsDir (d.erase p) r = true := by
  unfold parentIsDir at *
  rcases Bool.or_eq_true_iff.mp hp with h1 | h2
  · exact Bool.or_eq_true_iff.mpr (Or.inl h1)
  · refine Bool.or_eq_true_iff.mpr (Or.inr ?_)
    rw [decide_eq_true_iff] at h2 ⊢
    rw [Disk.find?_erase, if_neg]
    · exact h2
    · intro hc
      rw [hc] at h2
      exact hnotdir h2

theorem foldl_create_symlink_frame {X : List Symlink} {d : Disk} {q : Path}
    (hq : ∀ s ∈ X, s.path ≠ q) :
    (X.foldl (fun d2 s => create_symlink d2 s.path s.target) d).find? q =
      d.find? q := by
  induction X generalizing d with
  | nil => rfl
  | cons s0 X ih =>
      rw [List.foldl_cons]
      rw [ih (fun s hs => hq s (List.mem_cons_of_mem _ hs))]
      exact create_symlink_find?_ne d s0.path s0.target q
        (fun hc => (hq s0 (List.mem_cons_self _ _)) hc.symm)

theorem foldl_create_symlink_created {X : List Symlink} {d : Disk}
    (hnodup : (X.map Symlink.path).Nodup)
    (hvac : ∀ s ∈ X, d.find? s.path = none)
    (hpar : ∀ s ∈ X, parentIsDir d s.path = true) :
    ∀ s ∈ X,
      (X.foldl (fun d2 s2 => create_symlink d2 s2.path s2.target) d).find?
        s.path = some (Node.symlink s.target) := by
  induction X generalizing d with
  | nil => intro s hs; exact absurd hs (List.not_mem_nil _)
  | cons s0 X ih =>
      rw [List.map_cons] at hnodup
      have hnd2 := List.nodup_cons.mp hnodup
      have hvac0 : d.find? s0.path = none := hvac s0 (List.mem_cons_self _ _)
      have hs0 : create_symlink d s0.path s0.target =
          d.set s0.path (.symlink s0.target) :=
        create_symlink_success d s0.path s0.target
          (hpar s0 (List.mem_cons_self _ _)) hvac0
      have hnotdir : d.find? s0.path ≠ some Node.dir := by
        rw [hvac0]
        simp
      intro s hs
      rw [List.foldl_cons]
      have hpathne : ∀ r ∈ X, r.path ≠ s0.path := by
        intro r hr hc
        exact hnd2.1 (hc ▸ List.mem_map.mpr ⟨r, hr, rfl⟩)
      rcases List.mem_cons.mp hs with rfl | hs2
      · rw [foldl_create_symlink_frame hpathne, hs0, Disk.find?_set,
          if_pos rfl]
      · refine ih hnd2.2 (fun r hr => ?_) (fun r hr => ?_) s hs2
        · rw [hs0, Disk.find?_set, if_neg (hpathne r hr)]
          exact hvac r (List.mem_cons_of_mem _ hr)
        · rw [hs0]
          exact parentIsDir_set_not_dir hnotdir
            (hpar r (List.mem_cons_of_mem _ hr))

theorem foldl_copy_file_frame {src : Disk} {X : List File} {d : Disk}
    {q : Path} (hq : ∀ f ∈ X, f.path ≠ q) :
    (X.foldl (fun d2 f => copy_file src d2 f.path) d).find? q =
      d.find? q := by
  induction X generalizing d with
  | nil => rfl
  | cons f0 X ih =>
      rw [List.foldl_cons]
      rw [ih (fun f hf => hq f (List.mem_cons_of_mem _ hf))]
      exact copy_file_find?_ne src d f0.path q
        (fun hc => (hq f0 (List.mem_cons_self _ _)) hc.symm)

theorem foldl_copy_file_copied {src : Disk} {X : List File} {d : Disk}
    (hnodup : (X.map File.path).Nodup)
    (hsrc : ∀ f ∈ X, ∃ c, readFile src f.path = some c)
    (hok : ∀ f ∈ X, d.find? f.path = none ∨
      ∃ c0, d.find? f.path = some (Node.file c0))
    (hpar : ∀ f ∈ X, parentIsDir d f.path = true) :
    ∀ f ∈ X, ∀ c, readFile src f.path = some c →
      (X.foldl (fun d2 f2 => copy_file src d2 f2.path) d).find? f.path =
        some (Node.file c) := by
  induction X generalizing d with
  | nil => intro f hf; exact absurd hf (List.not_mem_nil _)
  | cons f0 X ih =>
      rw [List.map_cons] at hnodup
      have hnd2 := List.nodup_cons.mp hnodup
      obtain ⟨c0, hc0⟩ := hsrc f0 (List.mem_cons_self _ _)
      have hcp : copy_file src d f0.path = d.set f0.path (.file c0) :=
        copy_file_success src d f0.path c0 hc0
          (hpar f0 (List.mem_cons_self _ _)) (hok f0 (List.mem_cons_self _ _))
      have hnotdir : d.find? f0.path ≠ some Node.dir := by
        rcases hok f0 (List.mem_cons_self _ _) with hv | ⟨cc, hcc⟩
        · rw [hv]; simp
        · rw [hcc]; simp
      have hpathne : ∀ r ∈ X, r.path ≠ f0.path := by
        intro r hr hc
        exact hnd2.1 (hc ▸ List.mem_map.mpr ⟨r, hr, rfl⟩)
      intro f hf c hc
      rw [List.foldl_cons]
      rcases List.mem_cons.mp hf with rfl | hf2
      · rw [foldl_copy_file_frame hpathne, hcp, Disk.find?_set, if_pos rfl]
        rw [hc0] at hc
        have : c0 = c := by simpa using hc
        rw [this]
      · refine ih hnd2.2 (fun r hr => hsrc r (List.mem_cons_of_mem _ hr))
          (fun r hr => ?_) (fun r hr => ?_) f hf2 c hc
        · rw [hcp, Disk.find?_set, if_neg (hpathne r hr)]
          exact hok r (List.mem_cons_of_mem _ hr)
        · rw [hcp]
          exact parentIsDir_set_not_dir hnotdir
            (hpar r (List.mem_cons_of_mem _ hr))

theorem foldl_compare_frame (h : Content → Nat) (hs : Content → List Nat)
    (sec : Bool) {src : Disk} {X : List File} {d : Disk} {q : Path}
    (hq : ∀ f ∈ X, f.path ≠ q) :
    (X.foldl (fun d2 f => compare_and_copy_file h hs sec src d2 f.path)
      d).find? q = d.find? q := by
  induction X generalizing d with
  | nil => rfl
  | cons f0 X ih =>
      rw [List.foldl_cons]
      rw [ih (fun f hf => hq f (List.mem_cons_of_mem _ hf))]
      exact compare_and_copy_file_find?_ne h hs sec src d f0.path q
        (fun hc => (hq f0 (List.mem_cons_self _ _)) hc.symm)

theorem foldl_compare_compared (h : Content → Nat)
    (hs : Content → List Nat) (sec : Bool) {src : Disk} {X : List File}
    {d : Disk} (hnodup : (X.map File.path).Nodup)
    (hsrc : ∀ f ∈ X, ∃ c, readFile src f.path = some c)
    (hdest : ∀ f ∈ X, ∃ c0, d.find? f.path = some (Node.file c0))
    (hpar : ∀ f ∈ X, parentIsDir d f.path = true) :
    ∀ f ∈ X, ∀ c c0, readFile src f.path = some c →
      d.find? f.path = some (Node.file c0) →
      (X.foldl (fun d2 f2 => compare_and_copy_file h hs sec src d2 f2.path)
        d).find? f.path =
        some (Node.file (if modeEqB h hs sec c c0 = true then c0 else c)) := by
  induction X generalizing d with
  | nil => intro f hf; exact absurd hf (List.not_mem_nil _)
  | cons f0 X ih =>
      rw [List.map_cons] at hnodup
      have hnd2 := List.nodup_cons.mp hnodup
      obtain ⟨cs0, hcs0⟩ := hsrc f0 (List.mem_cons_self _ _)
      obtain ⟨cd0, hcd0⟩ := hdest f0 (List.mem_cons_self _ _)
      have hspec := compare_and_copy_file_spec h hs sec src d f0.path cs0 cd0
        hcs0 hcd0 (hpar f0 (List.mem_cons_self _ _))
      have hpathne : ∀ r ∈ X, r.path ≠ f0.path := by
        intro r hr hc
        exact hnd2.1 (hc ▸ List.mem_map.mpr ⟨r, hr, rfl⟩)
      intro f hf c c0 hc hc0
      rw [List.foldl_cons]
      rcases List.mem_cons.mp hf with rfl | hf2
      · rw [foldl_compare_frame h hs sec hpathne]
        rw [hcs0] at hc
        rw [hcd0] at hc0
        have h1 : cs0 = c := by simpa using hc
        have h2 : cd0 = c0 := by simpa using hc0
        subst h1
        subst h2
        exact hspec.1
      · have hfr : ∀ r ∈ X,
            (compare_and_copy_file h hs sec src d f0.path).find? r.path =
              d.find? r.path :=
          fun r hr => hspec.2 r.path (hpathne r hr)
        refine ih hnd2.2 (fun r hr => hsrc r (List.mem_cons_of_mem _ hr))
          (fun r hr => ?_) (fun r hr => ?_) f hf2 c c0 hc ?_
        · rw [hfr r hr]
          exact hdest r (List.mem_cons_of_mem _ hr)
        · -- parent preservation: the compare either leaves d or sets a
          -- file over a file path, never touching a directory binding
          unfold compare_and_copy_file
          by_cases hdec : compare_and_copy_decision sec
              (hash_file h src f0.path) (hash_file h d f0.path)
              (hash_file_secure hs src f0.path)
              (hash_file_secure hs d f0.path) = true
          · rw [if_pos hdec]
            rw [copy_file_success src d f0.path cs0 hcs0
              (hpar f0 (List.mem_cons_self _ _)) (Or.inr ⟨cd0, hcd0⟩)]
            refine parentIsDir_set_not_dir ?_
              (hpar r (List.mem_cons_of_mem _ hr))
            rw [hcd0]
            simp
          · rw [if_neg hdec]
            exact hpar r (List.mem_cons_of_mem _ hr)
        · rw [hfr f hf2]
          exact hc0

theorem foldl_remove_dir_spec {ps : List Path} {d : Disk}
    (hnodup : ps.Nodup)
    (hsorted : ps.Pairwise (fun a b => b.length ≤ a.length))
    (hdirs : ∀ p ∈ ps, d.find? p = some Node.dir)
    (hdesc : ∀ p ∈ ps, ∀ q, strictlyUnder q p → d.find? q ≠ none → q ∈ ps) :
    ∀ q, (ps.foldl remove_dir d).find? q =
      if q ∈ ps then none else d.find? q := by
  induction ps generalizing d with
  | nil => intro q; simp
  | cons p0 ps ih =>
      have hnd2 := List.nodup_cons.mp hnodup
      have hsort2 := List.pairwise_cons.mp hsorted
      have hempty : ∀ e ∈ d.entries, ¬ strictlyUnder e.1 p0 := by
        intro e he hunder
        obtain ⟨m, hm⟩ := Disk.find?_isSome_of_mem he
        have hne : d.find? e.1 ≠ none := by rw [hm]; simp
        have hin := hdesc p0 (List.mem_cons_self _ _) e.1 hunder hne
        rcases List.mem_cons.mp hin with rfl | hin2
        · exact hunder.1 rfl
        · have hlen := hsort2.1 e.1 hin2
          have hlt := strictlyUnder_length hunder
          omega
      rw [List.foldl_cons, remove_dir_success d p0
        (hdirs p0 (List.mem_cons_self _ _)) hempty]
      have hdirs2 : ∀ p ∈ ps, (d.erase p0).find? p = some Node.dir := by
        intro p hp
        have hne : ¬ p = p0 := fun hc => hnd2.1 (hc ▸ hp)
        rw [Disk.find?_erase, if_neg hne]
        exact hdirs p (List.mem_cons_of_mem _ hp)
      have hdesc2 : ∀ p ∈ ps, ∀ q, strictlyUnder q p →
          (d.erase p0).find? q ≠ none → q ∈ ps := by
        intro p hp q hunder hne
        rw [Disk.find?_erase] at hne
        by_cases hq0 : q = p0
        · rw [if_pos hq0] at hne
          exact absurd rfl hne
        · rw [if_neg hq0] at hne
          have hin := hdesc p (List.mem_cons_of_mem _ hp) q hunder hne
          rcases List.mem_cons.mp hin with h1 | hin2
          · exact absurd h1 hq0
          · exact hin2
      have ih2 := ih hnd2.2 hsort2.2 hdirs2 hdesc2
      intro q
      rw [ih2 q]
      by_cases hqs : q ∈ ps
      · rw [if_pos hqs, if_pos (List.mem_cons_of_mem _ hqs)]
      · rw [if_neg hqs, Disk.find?_erase]
        by_cases hq0 : q = p0
        · rw [if_pos hq0, if_pos (by rw [hq0]; exact List.mem_cons_self _ _)]
        · rw [if_neg hq0, if_neg (by
            intro hc
            rcases List.mem_cons.mp hc with h1 | h2
            · exact hq0 h1
            · exact hqs h2)]

theorem foldl_remove_dir_frame {X : List Path} {d : Disk} {q : Path}
    (hq : ∀ p ∈ X, p ≠ q) :
    (X.foldl remove_dir d).find? q = d.find? q := by
  induction X generalizing d with
  | nil => rfl
  | cons p0 X ih =>
      rw [List.foldl_cons]
      rw [ih (fun p hp => hq p (List.mem_cons_of_mem _ hp))]
      exact remove_dir_find?_ne d p0 q
        (fun hc => (hq p0 (List.mem_cons_self _ _)) hc.symm)

theorem foldl_remove_dir_keysNodup {X : List Path} {d : Disk}
    (hnd : d.keysNodup) : (X.foldl remove_dir d).keysNodup := by
  induction X generalizing d with
  | nil => exact hnd
  | cons p0 X ih =>
      rw [List.foldl_cons]
      exact ih (remove_dir_keysNodup hnd p0)

theorem dirComp_mono {d d2 : Disk} (hm : dirMono d d2) {q : Path}
    (hc : dirComp (d.find? q)) : dirComp (d2.find? q) := by
  rcases hm q with h | ⟨h1, h2⟩
  · rw [h]
    exact hc
  · right
    exact h2

theorem foldl_create_dir_all_mono (X : List Path) (d : Disk) :
    dirMono d (X.foldl create_dir_all d) := by
  induction X generalizing d with
  | nil => exact dirMono_refl d
  | cons p0 X ih =>
      rw [List.foldl_cons]
      exact dirMono_trans (create_dir_all_mono d p0) (ih _)

theorem foldl_create_dir_all_frame {X : List Path} {d : Disk} {q : Path}
    (hq : ∀ p ∈ X, ∀ i, 0 < i → i ≤ p.length → q ≠ p.take i) :
    (X.foldl create_dir_all d).find? q = d.find? q := by
  induction X generalizing d with
  | nil => rfl
  | cons p0 X ih =>
      rw [List.foldl_cons]
      rw [ih (fun p hp => hq p (List.mem_cons_of_mem _ hp))]
      exact create_dir_all_go_find?_frame p0 p0.length d q
        (hq p0 (List.mem_cons_self _ _))

theorem foldl_create_dir_all_created {X : List Path} {d : Disk}
    (hcomp : ∀ p ∈ X, ∀ i, 0 < i → i ≤ p.length →
      dirComp (d.find? (p.take i))) :
    ∀ p ∈ X, ∀ i, 0 < i → i ≤ p.length →
      (X.foldl create_dir_all d).find? (p.take i) = some Node.dir := by
  induction X generalizing d with
  | nil => intro p hp; exact absurd hp (List.not_mem_nil _)
  | cons p0 X ih =>
      have hop := create_dir_all_spec d p0
        (hcomp p0 (List.mem_cons_self _ _))
      have hmono : dirMono (create_dir_all d p0)
          (X.foldl create_dir_all (create_dir_all d p0)) :=
        foldl_create_dir_all_mono X _
      intro p hp i hi hik
      rw [List.foldl_cons]
      rcases List.mem_cons.mp hp with rfl | hp2
      · have hdir := hop.1 i hi hik
        rcases hmono (p.take i) with h | ⟨h1, h2⟩
        · rw [h]
          exact hdir
        · rw [h1] at hdir
          exact absurd hdir (by simp)
      · refine ih (fun r hr j hj hjk => ?_) p hp2 i hi hik
        exact dirComp_mono (create_dir_all_mono d p0)
          (hcomp r (List.mem_cons_of_mem _ hr) j hj hjk)

/-- Kind compatibility at the lookup level. -/
theorem kindCompat_find? {src dest : Disk} (hk : kindCompat src dest)
    {q : Path} {n m : Node} (hsq : src.find? q = some n)
    (hdq : dest.find? q = some m) : n.kind = m.kind :=
  hk (q, n) (Disk.mem_of_find?_eq_some hsq) (q, m)
    (Disk.mem_of_find?_eq_some hdq) rfl

/-- Every proper prefix of a bound path of a closed disk is a
directory. -/
theorem closed_find?_prefix {d : Disk} (hc : d.closed) {q : Path}
    {n : Node} (hf : d.find? q = some n) :
    ∀ i, 0 < i → i < q.length → d.find? (q.take i) = some Node.dir :=
  fun i hi hlt => (hc (q, n) (Disk.mem_of_find?_eq_some hf)).2 i hi hlt

/-- Bound paths of a closed disk are nonempty. -/
theorem closed_find?_ne_nil {d : Disk} (hc : d.closed) {q : Path}
    {n : Node} (hf : d.find? q = some n) : q ≠ [] :=
  (hc (q, n) (Disk.mem_of_find?_eq_some hf)).1

/-- `parentIsDir` from its two sufficient conditions. -/
theorem parentIsDir_intro {d : Disk} {p : Path}
    (hdir : 1 < p.length →
      d.find? (p.take (p.length - 1)) = some Node.dir) :
    parentIsDir d p = true := by
  unfold parentIsDir
  by_cases hl : p.length ≤ 1
  · simp [hl]
  · have := hdir (by omega)
    simp [this]

/-- Binding a non-directory over a non-directory does not change any
path's parent-directory status. -/
theorem parentIsDir_set_eq {d : Disk} {p : Path} {n : Node} {r : Path}
    (hn : n ≠ Node.dir) (hnotdir : d.find? p ≠ some Node.dir) :
    parentIsDir (d.set p n) r = parentIsDir d r := by
  unfold parentIsDir
  congr 1
  rw [decide_eq_decide, Disk.find?_set]
  by_cases ht : r.take (r.length - 1) = p
  · rw [if_pos ht, ht]
    constructor
    · intro hc
      exact absurd (by simpa using hc) hn
    · intro hc
      exact absurd hc hnotdir
  · rw [if_neg ht]

/-- A list fold whose step fixes the accumulator on every element leaves
it unchanged. -/
theorem foldl_fix {α β : Type} {g : α → β → α} {d : α} {l : List β}
    (hfix : ∀ x ∈ l, g d x = d) : l.foldl g d = d := by
  induction l with
  | nil => rfl
  | cons x xs ih =>
      rw [List.foldl_cons, hfix x (List.mem_cons_self _ _)]
      exact ih (fun y hy => hfix y (List.mem_cons_of_mem _ hy))

/-- A set difference with a superset is empty. -/
theorem diff_eq_nil {α : Type} [DecidableEq α] {a b : List α}
    (hsub : ∀ x ∈ a, x ∈ b) : diff a b = [] := by
  induction a with
  | nil => rfl
  | cons x xs ih =>
      have hx : x ∈ b := hsub x (List.mem_cons_self _ _)
      unfold diff at *
      rw [List.filter_cons, if_neg (by simp [hx])]
      exact ih (fun y hy => hsub y (List.mem_cons_of_mem _ hy))

/-- Per-element outcome of the symlink-creation pass when no listed path
holds a directory: each listed symlink is created where its path was
vacant with an existing parent directory, and every other listed path is
left exactly as it was. -/
theorem foldl_create_symlink_mixed {X : List Symlink} {d : Disk}
    (hnodup : (X.map Symlink.path).Nodup)
    (hnotdir : ∀ s ∈ X, d.find? s.path ≠ some Node.dir) :
    ∀ s ∈ X,
      (X.foldl (fun d2 s2 => create_symlink d2 s2.path s2.target) d).find?
        s.path =
      if parentIsDir d s.path = true ∧ d.find? s.path = none then
        some (Node.symlink s.target)
      else d.find? s.path := by
  induction X generalizing d with
  | nil => intro s hs; exact absurd hs (List.not_mem_nil _)
  | cons s0 X ih =>
      rw [List.map_cons] at hnodup
      have hnd2 := List.nodup_cons.mp hnodup
      have hpathne : ∀ r ∈ X, r.path ≠ s0.path := fun r hr hc =>
        hnd2.1 (hc ▸ List.mem_map.mpr ⟨r, hr, rfl⟩)
      intro s hsX
      rw [List.foldl_cons]
      by_cases hc0 : parentIsDir d s0.path = true ∧ d.find? s0.path = none
      · have hset : create_symlink d s0.path s0.target =
            d.set s0.path (.symlink s0.target) := by
          unfold create_symlink
          rw [if_pos ⟨hc0.1, hc0.2⟩]
        have hfind : ∀ r ∈ X,
            (d.set s0.path (.symlink s0.target)).find? r.path =
              d.find? r.path := by
          intro r hr
          rw [Disk.find?_set, if_neg (hpathne r hr)]
        have hparEq : ∀ r : Path,
            parentIsDir (d.set s0.path (.symlink s0.target)) r =
              parentIsDir d r := by
          intro r
          refine parentIsDir_set_eq (by simp) ?_
          rw [hc0.2]
          simp
        rcases List.mem_cons.mp hsX with rfl | hs2
        · rw [hset, foldl_create_symlink_frame hpathne, Disk.find?_set,
            if_pos rfl, if_pos hc0]
        · rw [hset, ih hnd2.2 (fun r hr => by
              rw [hfind r hr]
              exact hnotdir r (List.mem_cons_of_mem _ hr)) s hs2]
          rw [hparEq s.path, hfind s hs2]
      · have hset : create_symlink d s0.path s0.target = d := by
          unfold create_symlink
          rw [if_neg (fun hcc => hc0 ⟨hcc.1, hcc.2⟩)]
        rcases List.mem_cons.mp hsX with rfl | hs2
        · rw [hset, foldl_create_symlink_frame hpathne, if_neg hc0]
        · rw [hset,
            ih hnd2.2 (fun r hr => hnotdir r (List.mem_cons_of_mem _ hr))
              s hs2]

/-!
### The `synchronize` run as its five entry-level passes
-/

theorem sync_actions (S D : FileSets) (flags : Flags)
    (hnd : flags.noDelete = false) :
    (synchronize S D flags).flatMap callActions =
      ((diff D.symlinks S.symlinks).map Item.symlink).map Action.deleteItem ++
      (((diff D.files S.files).map Item.file).map Action.deleteItem ++
      (((diff S.dirs D.dirs).map Item.dir).map Action.copyItem ++
      (((diff S.symlinks D.symlinks).map Item.symlink).map Action.copyItem ++
      (((diff S.files D.files).map Item.file).map Action.copyItem ++
      (((inter S.files D.files).map Item.file).map Action.compareItem ++
      ((sort_files (diff D.dirs S.dirs)).map Item.dir).map
        Action.deleteItem))))) := by
  rw [synchronize_plan_norm, hnd]
  simp only [Bool.false_eq_true, if_false]
  simp [callActions, List.flatMap_cons, List.flatMap_nil]

theorem actions_deleteSym_fold (h : Content → Nat) (hs : Content → List Nat)
    (sec : Bool) (src : Disk) (X : List Symlink) (d : Disk) :
    List.foldl (applyAction h hs sec src) d
        ((X.map Item.symlink).map Action.deleteItem) =
      List.foldl remove_file d (X.map Symlink.path) := by
  rw [List.foldl_map, List.foldl_map, List.foldl_map]
  rfl

theorem actions_deleteFile_fold (h : Content → Nat)
    (hs : Content → List Nat) (sec : Bool) (src : Disk) (X : List File)
    (d : Disk) :
    List.foldl (applyAction h hs sec src) d
        ((X.map Item.file).map Action.deleteItem) =
      List.foldl remove_file d (X.map File.path) := by
  rw [List.foldl_map, List.foldl_map, List.foldl_map]
  rfl

theorem actions_copyDir_fold (h : Content → Nat) (hs : Content → List Nat)
    (sec : Bool) (src : Disk) (X : List Dir) (d : Disk) :
    List.foldl (applyAction h hs sec src) d
        ((X.map Item.dir).map Action.copyItem) =
      List.foldl create_dir_all d (X.map Dir.path) := by
  rw [List.foldl_map, List.foldl_map, List.foldl_map]
  rfl

theorem actions_copySym_fold (h : Content → Nat) (hs : Content → List Nat)
    (sec : Bool) (src : Disk) (X : List Symlink) (d : Disk) :
    List.foldl (applyAction h hs sec src) d
        ((X.map Item.symlink).map Action.copyItem) =
      X.foldl (fun d2 s => create_symlink d2 s.path s.target) d := by
  rw [List.foldl_map, List.foldl_map]
  rfl

theorem actions_copyFile_fold (h : Content → Nat) (hs : Content → List Nat)
    (sec : Bool) (src : Disk) (X : List File) (d : Disk) :
    List.foldl (applyAction h hs sec src) d
        ((X.map Item.file).map Action.copyItem) =
      X.foldl (fun d2 f => copy_file src d2 f.path) d := by
  rw [List.foldl_map, List.foldl_map]
  rfl

theorem actions_compare_fold (h : Content → Nat) (hs : Content → List Nat)
    (sec : Bool) (src : Disk) (X : List File) (d : Disk) :
    List.foldl (applyAction h hs sec src) d
        ((X.map Item.file).map Action.compareItem) =
      X.foldl (fun d2 f => compare_and_copy_file h hs sec src d2 f.path)
        d := by
  rw [List.foldl_map, List.foldl_map]
  rfl

theorem actions_deleteDir_fold (h : Content → Nat) (hs : Content → List Nat)
    (sec : Bool) (src : Disk) (X : List Dir) (d : Disk) :
    List.foldl (applyAction h hs sec src) d
        ((X.map Item.dir).map Action.deleteItem) =
      List.foldl remove_dir d (X.map Dir.path) := by
  rw [List.foldl_map, List.foldl_map, List.foldl_map]
  rfl

theorem runSync_eq_phases (h : Content → Nat) (hs : Content → List Nat)
    (src dest : Disk) (flags : Flags) (hnd : flags.noDelete = false) :
    runSync h hs src dest flags =
      syncPhase5 (scanDisk src) (scanDisk dest)
        (syncPhase4 h hs flags.secure (scanDisk src) (scanDisk dest) src
          (syncPhase3f (scanDisk src) (scanDisk dest) src
            (syncPhase3s (scanDisk src) (scanDisk dest)
              (syncPhase3d (scanDisk src) (scanDisk dest)
                (syncPhase2 (scanDisk src) (scanDisk dest) dest))))) := by
  unfold runSync runPlan
  rw [sync_actions _ _ _ hnd]
  rw [List.foldl_append, List.foldl_append, List.foldl_append,
    List.foldl_append, List.foldl_append, List.foldl_append]
  rw [actions_deleteSym_fold, actions_deleteFile_fold, actions_copyDir_fold,
    actions_copySym_fold, actions_copyFile_fold, actions_compare_fold,
    actions_deleteDir_fold]
  rfl

theorem runSync_eq_sync5 (h : Content → Nat) (hs : Content → List Nat)
    (src dest : Disk) (flags : Flags) (hnd : flags.noDelete = false) :
    runSync h hs src dest flags =
      syncPhase5 (scanDisk src) (scanDisk dest)
        (sync4 h hs flags.secure src dest) := by
  rw [runSync_eq_phases h hs src dest flags hnd]
  rfl

theorem sync_actionsND (S D : FileSets) (flags : Flags)
    (hnd : flags.noDelete = true) :
    (synchronize S D flags).flatMap callActions =
      ((diff S.dirs D.dirs).map Item.dir).map Action.copyItem ++
      (((diff S.symlinks D.symlinks).map Item.symlink).map Action.copyItem ++
      (((diff S.files D.files).map Item.file).map Action.copyItem ++
      ((inter S.files D.files).map Item.file).map Action.compareItem)) := by
  rw [synchronize_plan_norm, hnd]
  simp only [if_true]
  simp [callActions, List.flatMap_cons, List.flatMap_nil]

theorem runSyncND_eq_phases (h : Content → Nat) (hs : Content → List Nat)
    (src dest : Disk) (flags : Flags) (hnd : flags.noDelete = true) :
    runSync h hs src dest flags =
      sync4ND h hs flags.secure src dest := by
  unfold runSync runPlan
  rw [sync_actionsND _ _ _ hnd]
  rw [List.foldl_append, List.foldl_append, List.foldl_append]
  rw [actions_copyDir_fold, actions_copySym_fold, actions_copyFile_fold,
    actions_compare_fold]
  rfl

/-- Any `synchronize` run leaves the destination's keys duplicate-free if
they started that way. -/
theorem runSync_keysNodup (h : Content → Nat) (hs : Content → List Nat)
    (src dest : Disk) (flags : Flags) (hnd : dest.keysNodup) :
    (runSync h hs src dest flags).keysNodup := by
  unfold runSync runPlan
  exact foldl_applyAction_keysNodup h hs flags.secure src _ hnd

/-!
### Stage characterizations of a deletion-enabled `synchronize` run
-/

theorem phase2_char (src dest : Disk) (hsn : src.keysNodup)
    (hdn : dest.keysNodup) :
    ∀ q, (sync2 src dest).find? q = stage2Node src dest q := by
  unfold sync2 stage2Node
  have hAnodup :
      ((diff (scanDisk dest).symlinks (scanDisk src).symlinks).map
        Symlink.path).Nodup :=
    diff_paths_nodup Symlink.path _ (scan_symlinks_paths_nodup hdn)
  have hBnodup :
      ((diff (scanDisk dest).files (scanDisk src).files).map
        File.path).Nodup :=
    diff_paths_nodup File.path _ (scan_files_paths_nodup hdn)
  have hAmem : ∀ s ∈ diff (scanDisk dest).symlinks (scanDisk src).symlinks,
      dest.find? s.path = some (Node.symlink s.target) := by
    intro s hsd
    rcases s with ⟨sp, st⟩
    exact (scan_symlinks_find? hdn).mp (mem_diff_iff.mp hsd).1
  have hBmem : ∀ f ∈ diff (scanDisk dest).files (scanDisk src).files,
      ∃ cc, dest.find? f.path = some (Node.file cc) ∧
        cc.length = f.size := by
    intro f hfd
    rcases f with ⟨fp, fs⟩
    exact (scan_files_find? hdn).mp (mem_diff_iff.mp hfd).1
  have hAfl :
      ∀ pth ∈ (diff (scanDisk dest).symlinks (scanDisk src).symlinks).map
        Symlink.path, filelike (dest.find? pth) = true := by
    intro pth hpth
    obtain ⟨s, hsd, rfl⟩ := List.mem_map.mp hpth
    rw [hAmem s hsd]
    rfl
  -- frame through the symlink-deletion pass for paths whose destination
  -- node is not a symlink
  have hd1at : ∀ r, (∀ t, dest.find? r ≠ some (Node.symlink t)) →
      (((diff (scanDisk dest).symlinks (scanDisk src).symlinks).map
        Symlink.path).foldl remove_file dest).find? r = dest.find? r := by
    intro r hr
    apply foldl_remove_file_frame
    intro pth hpth
    obtain ⟨s, hsd, rfl⟩ := List.mem_map.mp hpth
    intro hc
    exact hr s.target (hc ▸ hAmem s hsd)
  -- frame through both passes for paths whose destination node is not
  -- file-like
  have hd2at : ∀ r, filelike (dest.find? r) = false →
      (syncPhase2 (scanDisk src) (scanDisk dest) dest).find? r =
        dest.find? r := by
    intro r hr
    unfold syncPhase2
    have h1 := hd1at r (fun t hc => by rw [hc] at hr; simp [filelike] at hr)
    rw [foldl_remove_file_frame ?hframe, h1]
    case hframe =>
      intro pth hpth
      obtain ⟨f, hfd, rfl⟩ := List.mem_map.mp hpth
      obtain ⟨cc, hcc, hlen⟩ := hBmem f hfd
      intro hc
      rw [hc] at hcc
      rw [hcc] at hr
      simp [filelike] at hr
  -- destination-only symlinks are deleted
  have hdelSym : ∀ r t, dest.find? r = some (Node.symlink t) →
      src.find? r ≠ some (Node.symlink t) →
      (syncPhase2 (scanDisk src) (scanDisk dest) dest).find? r = none := by
    intro r t hdst hsrc
    have hmem : (⟨r, t⟩ : Symlink) ∈
        diff (scanDisk dest).symlinks (scanDisk src).symlinks := by
      refine mem_diff_iff.mpr ⟨(scan_symlinks_find? hdn).mpr hdst, ?_⟩
      intro hc
      exact hsrc ((scan_symlinks_find? hsn).mp hc)
    have h1 := foldl_remove_file_deleted hAnodup
      (fun pth hpth => hAfl pth hpth) r
      (List.mem_map.mpr ⟨⟨r, t⟩, hmem, rfl⟩)
    unfold syncPhase2
    rw [foldl_remove_file_frame ?hframe2]
    · exact h1
    case hframe2 =>
      intro pth hpth
      obtain ⟨f, hfd, rfl⟩ := List.mem_map.mp hpth
      obtain ⟨cc, hcc, hlen⟩ := hBmem f hfd
      intro hc
      rw [hc, hdst] at hcc
      exact absurd hcc (by simp)
  -- destination-only files are deleted
  have hdelFile : ∀ r cc, dest.find? r = some (Node.file cc) →
      (⟨r, cc.length⟩ : File) ∉ (scanDisk src).files →
      (syncPhase2 (scanDisk src) (scanDisk dest) dest).find? r = none := by
    intro r cc hdst hnotin
    have hmem : (⟨r, cc.length⟩ : File) ∈
        diff (scanDisk dest).files (scanDisk src).files := by
      refine mem_diff_iff.mpr ⟨?_, hnotin⟩
      exact (scan_files_find? hdn).mpr ⟨cc, hdst, rfl⟩
    have hd1keep : ∀ f ∈ diff (scanDisk dest).files (scanDisk src).files,
        (((diff (scanDisk dest).symlinks (scanDisk src).symlinks).map
          Symlink.path).foldl remove_file dest).find? f.path =
          dest.find? f.path := by
      intro f hfd
      obtain ⟨cc2, hcc2, _⟩ := hBmem f hfd
      exact hd1at f.path (fun t hc => by rw [hc] at hcc2; exact absurd hcc2 (by simp))
    unfold syncPhase2
    refine foldl_remove_file_deleted hBnodup ?_ r
      (List.mem_map.mpr ⟨⟨r, cc.length⟩, hmem, rfl⟩)
    intro pth hpth
    obtain ⟨f, hfd, rfl⟩ := List.mem_map.mp hpth
    rw [hd1keep f hfd]
    obtain ⟨cc2, hcc2, _⟩ := hBmem f hfd
    rw [hcc2]
    rfl
  -- retained symlinks survive
  have hkeepSym : ∀ r t, dest.find? r = some (Node.symlink t) →
      src.find? r = some (Node.symlink t) →
      (syncPhase2 (scanDisk src) (scanDisk dest) dest).find? r =
        some (Node.symlink t) := by
    intro r t hdst hsrc
    unfold syncPhase2
    rw [foldl_remove_file_frame ?hfB, foldl_remove_file_frame ?hfA]
    · exact hdst
    case hfA =>
      intro pth hpth
      obtain ⟨s, hsd, rfl⟩ := List.mem_map.mp hpth
      intro hc
      have hsmem := mem_diff_iff.mp hsd
      have hf := hAmem s hsd
      rw [hc, hdst] at hf
      have ht : s.target = t := by simpa using hf.symm
      have : (⟨s.path, s.target⟩ : Symlink) ∈ (scanDisk src).symlinks := by
        rw [hc, ht]
        exact (scan_symlinks_find? hsn).mpr hsrc
      exact hsmem.2 (by rcases s with ⟨sp, st⟩; exact this)
    case hfB =>
      intro pth hpth
      obtain ⟨f, hfd, rfl⟩ := List.mem_map.mp hpth
      obtain ⟨cc, hcc, _⟩ := hBmem f hfd
      intro hc
      rw [hc, hdst] at hcc
      exact absurd hcc (by simp)
  -- retained files survive
  have hkeepFile : ∀ r c cc, dest.find? r = some (Node.file cc) →
      src.find? r = some (Node.file c) → c.length = cc.length →
      (syncPhase2 (scanDisk src) (scanDisk dest) dest).find? r =
        some (Node.file cc) := by
    intro r c cc hdst hsrc hlen
    unfold syncPhase2
    rw [foldl_remove_file_frame ?hfB2, foldl_remove_file_frame ?hfA2]
    · exact hdst
    case hfA2 =>
      intro pth hpth
      obtain ⟨s, hsd, rfl⟩ := List.mem_map.mp hpth
      intro hc
      have hf := hAmem s hsd
      rw [hc, hdst] at hf
      exact absurd hf (by simp)
    case hfB2 =>
      intro pth hpth
      obtain ⟨f, hfd, rfl⟩ := List.mem_map.mp hpth
      have hfmem := mem_diff_iff.mp hfd
      obtain ⟨cc2, hcc2, hlen2⟩ := hBmem f hfd
      intro hc
      rw [hc, hdst] at hcc2
      have hcc3 : cc2 = cc := by simpa using hcc2.symm
      have : (⟨f.path, f.size⟩ : File) ∈ (scanDisk src).files := by
        rw [hc]
        refine (scan_files_find? hsn).mpr ⟨c, hsrc, ?_⟩
        rw [hlen, ← hlen2, hcc3]
      exact hfmem.2 (by rcases f with ⟨fp, fs⟩; exact this)
  intro q
  rcases hd : dest.find? q with _ | n
  · exact hd2at q (by rw [hd]; rfl) |>.trans hd
  · cases n with
    | dir => exact hd2at q (by rw [hd]; rfl) |>.trans hd
    | symlink t =>
        rcases hs2 : src.find? q with _ | m
        · exact hdelSym q t hd (by rw [hs2]; simp)
        · cases m with
          | file c => exact hdelSym q t hd (by rw [hs2]; simp)
          | dir => exact hdelSym q t hd (by rw [hs2]; simp)
          | symlink t2 =>
              show _ = if t2 = t then some (Node.symlink t) else none
              by_cases ht : t2 = t
              · rw [if_pos ht]
                exact hkeepSym q t hd (ht ▸ hs2)
              · rw [if_neg ht]
                refine hdelSym q t hd ?_
                rw [hs2]
                intro hc
                exact ht (by simpa using hc)
    | file cc =>
        rcases hs2 : src.find? q with _ | m
        · refine hdelFile q cc hd ?_
          rw [scan_files_find? hsn]
          rintro ⟨c, hc, _⟩
          rw [hs2] at hc
          exact absurd hc (by simp)
        · cases m with
          | dir =>
              refine hdelFile q cc hd ?_
              rw [scan_files_find? hsn]
              rintro ⟨c, hc, _⟩
              rw [hs2] at hc
              exact absurd hc (by simp)
          | symlink t2 =>
              refine hdelFile q cc hd ?_
              rw [scan_files_find? hsn]
              rintro ⟨c, hc, _⟩
              rw [hs2] at hc
              exact absurd hc (by simp)
          | file c =>
              show _ = if c.length = cc.length then some (Node.file cc) else none
              by_cases hlen : c.length = cc.length
              · rw [if_pos hlen]
                exact hkeepFile q c cc hd hs2 hlen
              · rw [if_neg hlen]
                refine hdelFile q cc hd ?_
                rw [scan_files_find? hsn]
                rintro ⟨c2, hc2, hlen2⟩
                rw [hs2] at hc2
                have : c2 = c := by simpa using hc2.symm
                subst this
                exact hlen hlen2

/-- After phase 3a of a deletion-enabled run, every source directory path
holds a directory and every other path still holds its phase-2 value. -/
theorem sync3d_find? (src dest : Disk) (hsw : src.wf)
    (hdn : dest.keysNodup) (hkc : kindCompat src dest) :
    ∀ q, (sync3d src dest).find? q = stage3dNode src dest q := by
  obtain ⟨hsn, hsc⟩ := hsw
  have hchar := phase2_char src dest hsn hdn
  have hXsrc : ∀ dd ∈ diff (scanDisk src).dirs (scanDisk dest).dirs,
      src.find? dd.path = some Node.dir := by
    intro dd hdd
    rcases dd with ⟨pp⟩
    exact (scan_dirs_find? hsn).mp (mem_diff_iff.mp hdd).1
  have hXpre : ∀ p ∈ (diff (scanDisk src).dirs (scanDisk dest).dirs).map
      Dir.path, ∀ i, 0 < i → i ≤ p.length →
      src.find? (p.take i) = some Node.dir := by
    intro p hp i hi hik
    obtain ⟨dd, hdd, rfl⟩ := List.mem_map.mp hp
    have hsd := hXsrc dd hdd
    rcases Nat.lt_or_ge i dd.path.length with hlt | hge
    · exact closed_find?_prefix hsc hsd i hi hlt
    · have hieq : i = dd.path.length := Nat.le_antisymm hik hge
      rw [hieq, List.take_length]
      exact hsd
  have hcomp : ∀ p ∈ (diff (scanDisk src).dirs (scanDisk dest).dirs).map
      Dir.path, ∀ i, 0 < i → i ≤ p.length →
      dirComp ((sync2 src dest).find? (p.take i)) := by
    intro p hp i hi hik
    have hsd := hXpre p hp i hi hik
    rw [hchar (p.take i)]
    unfold stage2Node
    rcases hdq : dest.find? (p.take i) with _ | n
    · exact Or.inl rfl
    · cases n with
      | dir => exact Or.inr rfl
      | symlink t =>
          exact absurd (kindCompat_find? hkc hsd hdq) (by simp [Node.kind])
      | file cc =>
          exact absurd (kindCompat_find? hkc hsd hdq) (by simp [Node.kind])
  intro q
  unfold sync3d syncPhase3d stage3dNode
  by_cases hq : src.find? q = some Node.dir
  · rw [if_pos hq]
    by_cases hmem : (⟨q⟩ : Dir) ∈
        diff (scanDisk src).dirs (scanDisk dest).dirs
    · have hq0 : q ≠ [] := closed_find?_ne_nil hsc hq
      have := foldl_create_dir_all_created hcomp q
        (List.mem_map.mpr ⟨⟨q⟩, hmem, rfl⟩) q.length
        (List.length_pos.mpr hq0) (Nat.le_refl _)
      rw [List.take_length] at this
      exact this
    · have hdd : (⟨q⟩ : Dir) ∈ (scanDisk dest).dirs := by
        by_contra hc
        exact hmem (mem_diff_iff.mpr ⟨(scan_dirs_find? hsn).mpr hq, hc⟩)
      have hdq : dest.find? q = some Node.dir := (scan_dirs_find? hdn).mp hdd
      rcases foldl_create_dir_all_mono
          ((diff (scanDisk src).dirs (scanDisk dest).dirs).map Dir.path)
          (sync2 src dest) q with heq | ⟨h1, h2⟩
      · rw [heq, hchar q]
        unfold stage2Node
        rw [hdq]
      · exact h2
  · rw [if_neg hq]
    have hfr : ∀ p ∈ (diff (scanDisk src).dirs (scanDisk dest).dirs).map
        Dir.path, ∀ i, 0 < i → i ≤ p.length → q ≠ p.take i := by
      intro p hp i hi hik hqc
      exact hq (hqc ▸ hXpre p hp i hi hik)
    rw [foldl_create_dir_all_frame hfr, hchar q]

/-- After phase 3b of a deletion-enabled run, every source symlink is in
place and every other path holds its phase-3a value. -/
theorem sync3s_find? (src dest : Disk) (hsw : src.wf)
    (hdn : dest.keysNodup) (hkc : kindCompat src dest) :
    ∀ q, (sync3s src dest).find? q = stage3sNode src dest q := by
  obtain ⟨hsn, hsc⟩ := hsw
  have hchar := sync3d_find? src dest ⟨hsn, hsc⟩ hdn hkc
  have hnodup : ((diff (scanDisk src).symlinks
      (scanDisk dest).symlinks).map Symlink.path).Nodup :=
    diff_paths_nodup Symlink.path _ (scan_symlinks_paths_nodup hsn)
  have hsrcX : ∀ s ∈ diff (scanDisk src).symlinks (scanDisk dest).symlinks,
      src.find? s.path = some (Node.symlink s.target) := by
    intro s hsX
    rcases s with ⟨sp, st⟩
    exact (scan_symlinks_find? hsn).mp (mem_diff_iff.mp hsX).1
  have hvac : ∀ s ∈ diff (scanDisk src).symlinks (scanDisk dest).symlinks,
      (sync3d src dest).find? s.path = none := by
    intro s hsX
    have hss := hsrcX s hsX
    rw [hchar s.path]
    unfold stage3dNode
    rw [if_neg (by rw [hss]; simp)]
    unfold stage2Node
    rcases hdq : dest.find? s.path with _ | n
    · rfl
    · cases n with
      | dir =>
          exact absurd (kindCompat_find? hkc hss hdq) (by simp [Node.kind])
      | file cc =>
          exact absurd (kindCompat_find? hkc hss hdq) (by simp [Node.kind])
      | symlink t =>
          rw [hss]
          have hne : s.target ≠ t := by
            intro hc
            have hmm : (⟨s.path, s.target⟩ : Symlink) ∈
                (scanDisk dest).symlinks :=
              (scan_symlinks_find? hdn).mpr (by rw [hdq, hc])
            refine (mem_diff_iff.mp hsX).2 ?_
            rcases s with ⟨sp, st⟩
            exact hmm
          show (if s.target = t then some (Node.symlink t) else none) = none
          rw [if_neg hne]
  have hpar : ∀ s ∈ diff (scanDisk src).symlinks (scanDisk dest).symlinks,
      parentIsDir (sync3d src dest) s.path = true := by
    intro s hsX
    refine parentIsDir_intro (fun hlen => ?_)
    have hss := hsrcX s hsX
    have hsd : src.find? (s.path.take (s.path.length - 1)) =
        some Node.dir :=
      closed_find?_prefix hsc hss _ (by omega) (by omega)
    rw [hchar]
    unfold stage3dNode
    rw [if_pos hsd]
  intro q
  unfold sync3s syncPhase3s stage3sNode
  rcases hsq : src.find? q with _ | n
  · have hfr : ∀ s ∈ diff (scanDisk src).symlinks (scanDisk dest).symlinks,
        s.path ≠ q := by
      intro s hsX hc
      have hss := hsrcX s hsX
      rw [hc, hsq] at hss
      exact absurd hss (by simp)
    rw [foldl_create_symlink_frame hfr, hchar q]
  · cases n with
    | dir =>
        have hfr : ∀ s ∈ diff (scanDisk src).symlinks
            (scanDisk dest).symlinks, s.path ≠ q := by
          intro s hsX hc
          have hss := hsrcX s hsX
          rw [hc, hsq] at hss
          exact absurd hss (by simp)
        rw [foldl_create_symlink_frame hfr, hchar q]
    | file c =>
        have hfr : ∀ s ∈ diff (scanDisk src).symlinks
            (scanDisk dest).symlinks, s.path ≠ q := by
          intro s hsX hc
          have hss := hsrcX s hsX
          rw [hc, hsq] at hss
          exact absurd hss (by simp)
        rw [foldl_create_symlink_frame hfr, hchar q]
    | symlink tt =>
        by_cases hmem : (⟨q, tt⟩ : Symlink) ∈
            diff (scanDisk src).symlinks (scanDisk dest).symlinks
        · exact foldl_create_symlink_created hnodup hvac hpar ⟨q, tt⟩ hmem
        · have hdd : (⟨q, tt⟩ : Symlink) ∈ (scanDisk dest).symlinks := by
            by_contra hc
            exact hmem (mem_diff_iff.mpr
              ⟨(scan_symlinks_find? hsn).mpr hsq, hc⟩)
          have hdq : dest.find? q = some (Node.symlink tt) :=
            (scan_symlinks_find? hdn).mp hdd
          have hfr : ∀ s ∈ diff (scanDisk src).symlinks
              (scanDisk dest).symlinks, s.path ≠ q := by
            intro s hsX hc
            have hss := hsrcX s hsX
            rw [hc, hsq] at hss
            have h1 : tt = s.target := by simpa using hss
            refine (mem_diff_iff.mp hsX).2 ?_
            rcases s with ⟨sp, st⟩
            simp only at hc h1
            rw [← hc, h1] at hdd
            exact hdd
          rw [foldl_create_symlink_frame hfr, hchar q]
          unfold stage3dNode
          rw [if_neg (by rw [hsq]; simp)]
          unfold stage2Node
          rw [hdq, hsq]
          simp

/-!
### Equation lemmas for the stage-value functions
-/

theorem stage2Node_dest_none {src dest : Disk} {q : Path}
    (hd : dest.find? q = none) : stage2Node src dest q = none := by
  unfold stage2Node
  rw [hd]

theorem stage2Node_dest_dir {src dest : Disk} {q : Path}
    (hd : dest.find? q = some Node.dir) :
    stage2Node src dest q = some Node.dir := by
  unfold stage2Node
  rw [hd]

theorem stage2Node_sym_sym {src dest : Disk} {q t t2 : Path}
    (hd : dest.find? q = some (Node.symlink t))
    (hsq : src.find? q = some (Node.symlink t2)) :
    stage2Node src dest q =
      if t2 = t then some (Node.symlink t) else none := by
  unfold stage2Node
  rw [hd, hsq]

theorem stage2Node_sym_not_sym {src dest : Disk} {q t : Path}
    (hd : dest.find? q = some (Node.symlink t))
    (hsq : ∀ t2, src.find? q ≠ some (Node.symlink t2)) :
    stage2Node src dest q = none := by
  unfold stage2Node
  rw [hd]
  rcases hs2 : src.find? q with _ | n
  · rfl
  · cases n with
    | dir => rfl
    | file c => rfl
    | symlink t2 => exact absurd hs2 (hsq t2)

theorem stage2Node_file_file {src dest : Disk} {q : Path} {c cc : Content}
    (hd : dest.find? q = some (Node.file cc))
    (hsq : src.find? q = some (Node.file c)) :
    stage2Node src dest q =
      if c.length = cc.length then some (Node.file cc) else none := by
  unfold stage2Node
  rw [hd, hsq]

theorem stage2Node_file_not_file {src dest : Disk} {q : Path}
    {cc : Content} (hd : dest.find? q = some (Node.file cc))
    (hsq : ∀ c, src.find? q ≠ some (Node.file c)) :
    stage2Node src dest q = none := by
  unfold stage2Node
  rw [hd]
  rcases hs2 : src.find? q with _ | n
  · rfl
  · cases n with
    | dir => rfl
    | symlink t => rfl
    | file c => exact absurd hs2 (hsq c)

theorem stage3dNode_of_dir {src dest : Disk} {q : Path}
    (hsq : src.find? q = some Node.dir) :
    stage3dNode src dest q = some Node.dir := by
  unfold stage3dNode
  rw [if_pos hsq]

theorem stage3dNode_of_not_dir {src dest : Disk} {q : Path}
    (hsq : src.find? q ≠ some Node.dir) :
    stage3dNode src dest q = stage2Node src dest q := by
  unfold stage3dNode
  rw [if_neg hsq]

theorem stage3sNode_of_symlink {src dest : Disk} {q t : Path}
    (hsq : src.find? q = some (Node.symlink t)) :
    stage3sNode src dest q = some (Node.symlink t) := by
  unfold stage3sNode
  rw [hsq]

theorem stage3sNode_of_not_symlink {src dest : Disk} {q : Path}
    (hsq : ∀ t, src.find? q ≠ some (Node.symlink t)) :
    stage3sNode src dest q = stage3dNode src dest q := by
  unfold stage3sNode
  rcases hs2 : src.find? q with _ | n
  · rfl
  · cases n with
    | dir => rfl
    | file c => rfl
    | symlink t => exact absurd hs2 (hsq t)

theorem stage3fNode_of_not_file {src dest : Disk} {q : Path}
    (hsq : ∀ c, src.find? q ≠ some (Node.file c)) :
    stage3fNode src dest q = stage3sNode src dest q := by
  unfold stage3fNode
  rcases hs2 : src.find? q with _ | n
  · rfl
  · cases n with
    | dir => rfl
    | symlink t => rfl
    | file c => exact absurd hs2 (hsq c)

theorem stage3fNode_file_file {src dest : Disk} {q : Path} {c cc : Content}
    (hsq : src.find? q = some (Node.file c))
    (hd : dest.find? q = some (Node.file cc)) :
    stage3fNode src dest q =
      if cc.length = c.length then some (Node.file cc)
      else some (Node.file c) := by
  unfold stage3fNode
  rw [hsq, hd]

theorem stage3fNode_file_not_file {src dest : Disk} {q : Path}
    {c : Content} (hsq : src.find? q = some (Node.file c))
    (hd : ∀ cc, dest.find? q ≠ some (Node.file cc)) :
    stage3fNode src dest q = some (Node.file c) := by
  unfold stage3fNode
  rw [hsq]
  rcases hd2 : dest.find? q with _ | m
  · rfl
  · cases m with
    | dir => rfl
    | symlink t => rfl
    | file cc => exact absurd hd2 (hd cc)

theorem stage4Node_of_not_file (h : Content → Nat)
    (hs : Content → List Nat) (sec : Bool) {src dest : Disk} {q : Path}
    (hsq : ∀ c, src.find? q ≠ some (Node.file c)) :
    stage4Node h hs sec src dest q = stage3sNode src dest q := by
  unfold stage4Node
  rcases hs2 : src.find? q with _ | n
  · rfl
  · cases n with
    | dir => rfl
    | symlink t => rfl
    | file c => exact absurd hs2 (hsq c)

theorem stage4Node_file_file (h : Content → Nat) (hs : Content → List Nat)
    (sec : Bool) {src dest : Disk} {q : Path} {c cc : Content}
    (hsq : src.find? q = some (Node.file c))
    (hd : dest.find? q = some (Node.file cc)) :
    stage4Node h hs sec src dest q =
      if cc.length = c.length then
        if modeEqB h hs sec c cc = true then some (Node.file cc)
        else some (Node.file c)
      else some (Node.file c) := by
  unfold stage4Node
  rw [hsq, hd]

theorem stage4Node_file_not_file (h : Content → Nat)
    (hs : Content → List Nat) (sec : Bool) {src dest : Disk} {q : Path}
    {c : Content} (hsq : src.find? q = some (Node.file c))
    (hd : ∀ cc, dest.find? q ≠ some (Node.file cc)) :
    stage4Node h hs sec src dest q = some (Node.file c) := by
  unfold stage4Node
  rw [hsq]
  rcases hd2 : dest.find? q with _ | m
  · rfl
  · cases m with
    | dir => rfl
    | symlink t => rfl
    | file cc => exact absurd hd2 (hd cc)

theorem stage3dNodeND_of_dir {src dest : Disk} {q : Path}
    (hsq : src.find? q = some Node.dir) :
    stage3dNodeND src dest q = some Node.dir := by
  unfold stage3dNodeND
  rw [if_pos hsq]

theorem stage3dNodeND_of_not_dir {src dest : Disk} {q : Path}
    (hsq : src.find? q ≠ some Node.dir) :
    stage3dNodeND src dest q = dest.find? q := by
  unfold stage3dNodeND
  rw [if_neg hsq]

theorem stage3sNodeND_sym_none {src dest : Disk} {q t : Path}
    (hsq : src.find? q = some (Node.symlink t))
    (hd : dest.find? q = none) :
    stage3sNodeND src dest q = some (Node.symlink t) := by
  unfold stage3sNodeND
  rw [hsq, hd]

theorem stage3sNodeND_sym_some {src dest : Disk} {q t : Path} {n : Node}
    (hsq : src.find? q = some (Node.symlink t))
    (hd : dest.find? q = some n) :
    stage3sNodeND src dest q = some n := by
  unfold stage3sNodeND
  rw [hsq, hd]

theorem stage3sNodeND_of_not_symlink {src dest : Disk} {q : Path}
    (hsq : ∀ t, src.find? q ≠ some (Node.symlink t)) :
    stage3sNodeND src dest q = stage3dNodeND src dest q := by
  unfold stage3sNodeND
  rcases hs2 : src.find? q with _ | n
  · rfl
  · cases n with
    | dir => rfl
    | file c => rfl
    | symlink t => exact absurd hs2 (hsq t)

theorem stage3fNodeND_of_not_file {src dest : Disk} {q : Path}
    (hsq : ∀ c, src.find? q ≠ some (Node.file c)) :
    stage3fNodeND src dest q = stage3sNodeND src dest q := by
  unfold stage3fNodeND
  rcases hs2 : src.find? q with _ | n
  · rfl
  · cases n with
    | dir => rfl
    | symlink t => rfl
    | file c => exact absurd hs2 (hsq c)

theorem stage3fNodeND_file_file {src dest : Disk} {q : Path}
    {c cc : Content} (hsq : src.find? q = some (Node.file c))
    (hd : dest.find? q = some (Node.file cc)) :
    stage3fNodeND src dest q =
      if cc.length = c.length then some (Node.file cc)
      else some (Node.file c) := by
  unfold stage3fNodeND
  rw [hsq, hd]

theorem stage3fNodeND_file_not_file {src dest : Disk} {q : Path}
    {c : Content} (hsq : src.find? q = some (Node.file c))
    (hd : ∀ cc, dest.find? q ≠ some (Node.file cc)) :
    stage3fNodeND src dest q = some (Node.file c) := by
  unfold stage3fNodeND
  rw [hsq]
  rcases hd2 : dest.find? q with _ | m
  · rfl
  · cases m with
    | dir => rfl
    | symlink t => rfl
    | file cc => exact absurd hd2 (hd cc)

theorem stage4NodeND_of_not_file (h : Content → Nat)
    (hs : Content → List Nat) (sec : Bool) {src dest : Disk} {q : Path}
    (hsq : ∀ c, src.find? q ≠ some (Node.file c)) :
    stage4NodeND h hs sec src dest q = stage3sNodeND src dest q := by
  unfold stage4NodeND
  rcases hs2 : src.find? q with _ | n
  · rfl
  · cases n with
    | dir => rfl
    | symlink t => rfl
    | file c => exact absurd hs2 (hsq c)

theorem stage4NodeND_file_file (h : Content → Nat)
    (hs : Content → List Nat) (sec : Bool) {src dest : Disk} {q : Path}
    {c cc : Content} (hsq : src.find? q = some (Node.file c))
    (hd : dest.find? q = some (Node.file cc)) :
    stage4NodeND h hs sec src dest q =
      if cc.length = c.length then
        if modeEqB h hs sec c cc = true then some (Node.file cc)
        else some (Node.file c)
      else some (Node.file c) := by
  unfold stage4NodeND
  rw [hsq, hd]

theorem stage4NodeND_file_not_file (h : Content → Nat)
    (hs : Content → List Nat) (sec : Bool) {src dest : Disk} {q : Path}
    {c : Content} (hsq : src.find? q = some (Node.file c))
    (hd : ∀ cc, dest.find? q ≠ some (Node.file cc)) :
    stage4NodeND h hs sec src dest q = some (Node.file c) := by
  unfold stage4NodeND
  rw [hsq]
  rcases hd2 : dest.find? q with _ | m
  · rfl
  · cases m with
    | dir => rfl
    | symlink t => rfl
    | file cc => exact absurd hd2 (hd cc)

theorem postNode_of_none (h : Content → Nat) (hs : Content → List Nat)
    (sec : Bool) {src : Disk} (dest : Disk) {q : Path}
    (hsq : src.find? q = none) : postNode h hs sec src dest q = none := by
  unfold postNode
  rw [hsq]

theorem postNode_of_dir (h : Content → Nat) (hs : Content → List Nat)
    (sec : Bool) {src : Disk} (dest : Disk) {q : Path}
    (hsq : src.find? q = some Node.dir) :
    postNode h hs sec src dest q = some Node.dir := by
  unfold postNode
  rw [hsq]

theorem postNode_of_symlink (h : Content → Nat) (hs : Content → List Nat)
    (sec : Bool) {src : Disk} (dest : Disk) {q t : Path}
    (hsq : src.find? q = some (Node.symlink t)) :
    postNode h hs sec src dest q = some (Node.symlink t) := by
  unfold postNode
  rw [hsq]

theorem postNode_file_file (h : Content → Nat) (hs : Content → List Nat)
    (sec : Bool) {src dest : Disk} {q : Path} {c cc : Content}
    (hsq : src.find? q = some (Node.file c))
    (hd : dest.find? q = some (Node.file cc)) :
    postNode h hs sec src dest q =
      if cc.length = c.length ∧ modeEqB h hs sec c cc = true then
        some (Node.file cc)
      else some (Node.file c) := by
  unfold postNode
  rw [hsq, hd]

theorem postNode_file_not_file (h : Content → Nat)
    (hs : Content → List Nat) (sec : Bool) {src dest : Disk} {q : Path}
    {c : Content} (hsq : src.find? q = some (Node.file c))
    (hd : ∀ cc, dest.find? q ≠ some (Node.file cc)) :
    postNode h hs sec src dest q = some (Node.file c) := by
  unfold postNode
  rw [hsq]
  rcases hd2 : dest.find? q with _ | m
  · rfl
  · cases m with
    | dir => rfl
    | symlink t => rfl
    | file cc => exact absurd hd2 (hd cc)

/-- After phase 3c of a deletion-enabled run, every source-only file
carries the source bytes and every other path holds its phase-3b
value. -/
theorem sync3f_find? (src dest : Disk) (hsw : src.wf)
    (hdn : dest.keysNodup) (hkc : kindCompat src dest) :
    ∀ q, (sync3f src dest).find? q = stage3fNode src dest q := by
  obtain ⟨hsn, hsc⟩ := hsw
  have hchar := sync3s_find? src dest ⟨hsn, hsc⟩ hdn hkc
  have hnodup : ((diff (scanDisk src).files (scanDisk dest).files).map
      File.path).Nodup :=
    diff_paths_nodup File.path _ (scan_files_paths_nodup hsn)
  have hsrcX : ∀ f ∈ diff (scanDisk src).files (scanDisk dest).files,
      ∃ c, src.find? f.path = some (Node.file c) ∧ c.length = f.size := by
    intro f hf
    rcases f with ⟨fp, fs⟩
    exact (scan_files_find? hsn).mp (mem_diff_iff.mp hf).1
  have hread : ∀ f ∈ diff (scanDisk src).files (scanDisk dest).files,
      ∃ c, readFile src f.path = some c := by
    intro f hf
    obtain ⟨c, hc, _⟩ := hsrcX f hf
    exact ⟨c, readFile_eq_some_iff.mpr hc⟩
  have hok : ∀ f ∈ diff (scanDisk src).files (scanDisk dest).files,
      (sync3s src dest).find? f.path = none ∨
        ∃ c0, (sync3s src dest).find? f.path = some (Node.file c0) := by
    intro f hf
    obtain ⟨c, hc, hlen⟩ := hsrcX f hf
    rw [hchar f.path,
      stage3sNode_of_not_symlink (by intro t; rw [hc]; simp),
      stage3dNode_of_not_dir (by rw [hc]; simp)]
    rcases hdq : dest.find? f.path with _ | m
    · exact Or.inl (stage2Node_dest_none hdq)
    · cases m with
      | dir =>
          exact absurd (kindCompat_find? hkc hc hdq) (by simp [Node.kind])
      | symlink t =>
          exact absurd (kindCompat_find? hkc hc hdq) (by simp [Node.kind])
      | file cc =>
          rw [stage2Node_file_file hdq hc]
          by_cases hl : c.length = cc.length
          · exact Or.inr ⟨cc, by rw [if_pos hl]⟩
          · exact Or.inl (by rw [if_neg hl])
  have hpar : ∀ f ∈ diff (scanDisk src).files (scanDisk dest).files,
      parentIsDir (sync3s src dest) f.path = true := by
    intro f hf
    obtain ⟨c, hc, _⟩ := hsrcX f hf
    refine parentIsDir_intro (fun hlen => ?_)
    have hsd : src.find? (f.path.take (f.path.length - 1)) =
        some Node.dir :=
      closed_find?_prefix hsc hc _ (by omega) (by omega)
    rw [hchar,
      stage3sNode_of_not_symlink (by intro t; rw [hsd]; simp),
      stage3dNode_of_dir hsd]
  intro q
  unfold sync3f syncPhase3f
  rcases hsq : src.find? q with _ | n
  · have hfr : ∀ f ∈ diff (scanDisk src).files (scanDisk dest).files,
        f.path ≠ q := by
      intro f hf hc
      obtain ⟨c, hcf, _⟩ := hsrcX f hf
      rw [hc, hsq] at hcf
      exact absurd hcf (by simp)
    rw [foldl_copy_file_frame hfr, hchar q,
      stage3fNode_of_not_file (by intro c; rw [hsq]; simp)]
  · cases n with
    | dir =>
        have hfr : ∀ f ∈ diff (scanDisk src).files (scanDisk dest).files,
            f.path ≠ q := by
          intro f hf hc
          obtain ⟨c, hcf, _⟩ := hsrcX f hf
          rw [hc, hsq] at hcf
          exact absurd hcf (by simp)
        rw [foldl_copy_file_frame hfr, hchar q,
          stage3fNode_of_not_file (by intro c; rw [hsq]; simp)]
    | symlink t =>
        have hfr : ∀ f ∈ diff (scanDisk src).files (scanDisk dest).files,
            f.path ≠ q := by
          intro f hf hc
          obtain ⟨c, hcf, _⟩ := hsrcX f hf
          rw [hc, hsq] at hcf
          exact absurd hcf (by simp)
        rw [foldl_copy_file_frame hfr, hchar q,
          stage3fNode_of_not_file (by intro c; rw [hsq]; simp)]
    | file c =>
        rcases hdq : dest.find? q with _ | m
        · rw [stage3fNode_file_not_file hsq (by intro cc; rw [hdq]; simp)]
          have hmem : (⟨q, c.length⟩ : File) ∈
              diff (scanDisk src).files (scanDisk dest).files := by
            refine mem_diff_iff.mpr
              ⟨(scan_files_find? hsn).mpr ⟨c, hsq, rfl⟩, ?_⟩
            intro hcon
            obtain ⟨cc, hcc, _⟩ := (scan_files_find? hdn).mp hcon
            rw [hdq] at hcc
            exact absurd hcc (by simp)
          exact foldl_copy_file_copied hnodup hread hok hpar
            ⟨q, c.length⟩ hmem c (readFile_eq_some_iff.mpr hsq)
        · cases m with
          | dir =>
              exact absurd (kindCompat_find? hkc hsq hdq)
                (by simp [Node.kind])
          | symlink t =>
              exact absurd (kindCompat_find? hkc hsq hdq)
                (by simp [Node.kind])
          | file cc =>
              rw [stage3fNode_file_file hsq hdq]
              by_cases hlen : cc.length = c.length
              · rw [if_pos hlen]
                have hfr : ∀ f ∈ diff (scanDisk src).files
                    (scanDisk dest).files, f.path ≠ q := by
                  intro f hf hc
                  obtain ⟨c2, hcf, hlen2⟩ := hsrcX f hf
                  rw [hc] at hcf
                  rw [hsq] at hcf
                  have hc2 : c2 = c := by simpa using hcf.symm
                  refine (mem_diff_iff.mp hf).2 ?_
                  rcases f with ⟨fp, fs⟩
                  simp only at hc hlen2
                  rw [hc]
                  refine (scan_files_find? hdn).mpr ⟨cc, hdq, ?_⟩
                  rw [hlen, ← hlen2, hc2]
                rw [foldl_copy_file_frame hfr, hchar q,
                  stage3sNode_of_not_symlink (by intro t; rw [hsq]; simp),
                  stage3dNode_of_not_dir (by rw [hsq]; simp),
                  stage2Node_file_file hdq hsq, if_pos hlen.symm]
              · rw [if_neg hlen]
                have hmem : (⟨q, c.length⟩ : File) ∈
                    diff (scanDisk src).files (scanDisk dest).files := by
                  refine mem_diff_iff.mpr
                    ⟨(scan_files_find? hsn).mpr ⟨c, hsq, rfl⟩, ?_⟩
                  intro hcon
                  obtain ⟨cc2, hcc2, hlen2⟩ :=
                    (scan_files_find? hdn).mp hcon
                  rw [hdq] at hcc2
                  have : cc2 = cc := by simpa using hcc2.symm
                  subst this
                  exact hlen hlen2
                exact foldl_copy_file_copied hnodup hread hok hpar
                  ⟨q, c.length⟩ hmem c (readFile_eq_some_iff.mpr hsq)

/-- After phase 4 of a deletion-enabled run, every intersection file
holds the mode-hash-selected bytes and every other path holds its
phase-3c value. -/
theorem sync4_find? (h : Content → Nat) (hs : Content → List Nat)
    (sec : Bool) (src dest : Disk) (hsw : src.wf) (hdn : dest.keysNodup)
    (hkc : kindCompat src dest) :
    ∀ q, (sync4 h hs sec src dest).find? q =
      stage4Node h hs sec src dest q := by
  obtain ⟨hsn, hsc⟩ := hsw
  have hchar := sync3f_find? src dest ⟨hsn, hsc⟩ hdn hkc
  have hnodup : ((inter (scanDisk src).files (scanDisk dest).files).map
      File.path).Nodup :=
    inter_paths_nodup File.path _ (scan_files_paths_nodup hsn)
  have hmemX : ∀ f ∈ inter (scanDisk src).files (scanDisk dest).files,
      ∃ c cc, src.find? f.path = some (Node.file c) ∧ c.length = f.size ∧
        dest.find? f.path = some (Node.file cc) ∧ cc.length = f.size := by
    intro f hf
    obtain ⟨h1, h2⟩ := mem_inter_iff.mp hf
    rcases f with ⟨fp, fs⟩
    obtain ⟨c, hc, hlc⟩ := (scan_files_find? hsn).mp h1
    obtain ⟨cc, hcc, hlcc⟩ := (scan_files_find? hdn).mp h2
    exact ⟨c, cc, hc, hlc, hcc, hlcc⟩
  have hread : ∀ f ∈ inter (scanDisk src).files (scanDisk dest).files,
      ∃ c, readFile src f.path = some c := by
    intro f hf
    obtain ⟨c, _, hc, _, _, _⟩ := hmemX f hf
    exact ⟨c, readFile_eq_some_iff.mpr hc⟩
  have hdest : ∀ f ∈ inter (scanDisk src).files (scanDisk dest).files,
      ∃ c0, (sync3f src dest).find? f.path = some (Node.file c0) := by
    intro f hf
    obtain ⟨c, cc, hc, hlc, hcc, hlcc⟩ := hmemX f hf
    have hlen : cc.length = c.length := by rw [hlcc, hlc]
    exact ⟨cc, by rw [hchar, stage3fNode_file_file hc hcc, if_pos hlen]⟩
  have hpar : ∀ f ∈ inter (scanDisk src).files (scanDisk dest).files,
      parentIsDir (sync3f src dest) f.path = true := by
    intro f hf
    obtain ⟨c, _, hc, _, _, _⟩ := hmemX f hf
    refine parentIsDir_intro (fun hlen => ?_)
    have hsd : src.find? (f.path.take (f.path.length - 1)) =
        some Node.dir :=
      closed_find?_prefix hsc hc _ (by omega) (by omega)
    rw [hchar, stage3fNode_of_not_file (by intro c2; rw [hsd]; simp),
      stage3sNode_of_not_symlink (by intro t; rw [hsd]; simp),
      stage3dNode_of_dir hsd]
  intro q
  unfold sync4 syncPhase4
  rcases hsq : src.find? q with _ | n
  · have hfr : ∀ f ∈ inter (scanDisk src).files (scanDisk dest).files,
        f.path ≠ q := by
      intro f hf hc
      obtain ⟨c, _, hcf, _, _, _⟩ := hmemX f hf
      rw [hc, hsq] at hcf
      exact absurd hcf (by simp)
    rw [foldl_compare_frame h hs sec hfr, hchar q,
      stage3fNode_of_not_file (by intro c; rw [hsq]; simp),
      stage4Node_of_not_file h hs sec (by intro c; rw [hsq]; simp)]
  · cases n with
    | dir =>
        have hfr : ∀ f ∈ inter (scanDisk src).files (scanDisk dest).files,
            f.path ≠ q := by
          intro f hf hc
          obtain ⟨c, _, hcf, _, _, _⟩ := hmemX f hf
          rw [hc, hsq] at hcf
          exact absurd hcf (by simp)
        rw [foldl_compare_frame h hs sec hfr, hchar q,
          stage3fNode_of_not_file (by intro c; rw [hsq]; simp),
          stage4Node_of_not_file h hs sec (by intro c; rw [hsq]; simp)]
    | symlink t =>
        have hfr : ∀ f ∈ inter (scanDisk src).files (scanDisk dest).files,
            f.path ≠ q := by
          intro f hf hc
          obtain ⟨c, _, hcf, _, _, _⟩ := hmemX f hf
          rw [hc, hsq] at hcf
          exact absurd hcf (by simp)
        rw [foldl_compare_frame h hs sec hfr, hchar q,
          stage3fNode_of_not_file (by intro c; rw [hsq]; simp),
          stage4Node_of_not_file h hs sec (by intro c; rw [hsq]; simp)]
    | file c =>
        rcases hdq : dest.find? q with _ | m
        · have hfr : ∀ f ∈ inter (scanDisk src).files
              (scanDisk dest).files, f.path ≠ q := by
            intro f hf hc
            obtain ⟨_, cc, _, _, hccf, _⟩ := hmemX f hf
            rw [hc, hdq] at hccf
            exact absurd hccf (by simp)
          rw [foldl_compare_frame h hs sec hfr, hchar q,
            stage3fNode_file_not_file hsq (by intro cc; rw [hdq]; simp),
            stage4Node_file_not_file h hs sec hsq
              (by intro cc; rw [hdq]; simp)]
        · cases m with
          | dir =>
              have hfr : ∀ f ∈ inter (scanDisk src).files
                  (scanDisk dest).files, f.path ≠ q := by
                intro f hf hc
                obtain ⟨_, cc, _, _, hccf, _⟩ := hmemX f hf
                rw [hc, hdq] at hccf
                exact absurd hccf (by simp)
              rw [foldl_compare_frame h hs sec hfr, hchar q,
                stage3fNode_file_not_file hsq (by intro cc; rw [hdq]; simp),
                stage4Node_file_not_file h hs sec hsq
                  (by intro cc; rw [hdq]; simp)]
          | symlink t =>
              have hfr : ∀ f ∈ inter (scanDisk src).files
                  (scanDisk dest).files, f.path ≠ q := by
                intro f hf hc
                obtain ⟨_, cc, _, _, hccf, _⟩ := hmemX f hf
                rw [hc, hdq] at hccf
                exact absurd hccf (by simp)
              rw [foldl_compare_frame h hs sec hfr, hchar q,
                stage3fNode_file_not_file hsq (by intro cc; rw [hdq]; simp),
                stage4Node_file_not_file h hs sec hsq
                  (by intro cc; rw [hdq]; simp)]
          | file cc =>
              by_cases hlen : cc.length = c.length
              · have hmem : (⟨q, c.length⟩ : File) ∈
                    inter (scanDisk src).files (scanDisk dest).files :=
                  mem_inter_iff.mpr
                    ⟨(scan_files_find? hsn).mpr ⟨c, hsq, rfl⟩,
                     (scan_files_find? hdn).mpr ⟨cc, hdq, hlen⟩⟩
                have h3f : (sync3f src dest).find? q =
                    some (Node.file cc) := by
                  rw [hchar, stage3fNode_file_file hsq hdq, if_pos hlen]
                have hcmp := foldl_compare_compared h hs sec hnodup hread
                  hdest hpar ⟨q, c.length⟩ hmem c cc
                  (readFile_eq_some_iff.mpr hsq) h3f
                rw [stage4Node_file_file h hs sec hsq hdq, if_pos hlen]
                refine hcmp.trans ?_
                by_cases hm : modeEqB h hs sec c cc = true
                · rw [if_pos hm, if_pos hm]
                · rw [if_neg hm, if_neg hm]
              · have hfr : ∀ f ∈ inter (scanDisk src).files
                    (scanDisk dest).files, f.path ≠ q := by
                  intro f hf hc
                  obtain ⟨c2, cc2, hc2, hl2, hcc2, hlcc2⟩ := hmemX f hf
                  rw [hc, hsq] at hc2
                  rw [hc, hdq] at hcc2
                  have he1 : c2 = c := by simpa using hc2.symm
                  have he2 : cc2 = cc := by simpa using hcc2.symm
                  refine hlen ?_
                  rw [← he1, ← he2, hl2, hlcc2]
                rw [foldl_compare_frame h hs sec hfr, hchar q,
                  stage3fNode_file_file hsq hdq, if_neg hlen,
                  stage4Node_file_file h hs sec hsq hdq, if_neg hlen]

/-- Master characterization of a deletion-enabled `synchronize` run over
well-formed, kind-compatible roots: the destination ends at `postNode`
everywhere. -/
theorem runSync_find? (h : Content → Nat) (hs : Content → List Nat)
    (src dest : Disk) (flags : Flags) (hnd : flags.noDelete = false)
    (hsw : src.wf) (hdw : dest.wf) (hkc : kindCompat src dest) :
    ∀ q, (runSync h hs src dest flags).find? q =
      postNode h hs flags.secure src dest q := by
  obtain ⟨hsn, hsc⟩ := hsw
  obtain ⟨hdn, hdc⟩ := hdw
  have hchar := sync4_find? h hs flags.secure src dest ⟨hsn, hsc⟩ hdn hkc
  have hperm : ((sort_files (diff (scanDisk dest).dirs
      (scanDisk src).dirs)).map Dir.path).Perm
      ((diff (scanDisk dest).dirs (scanDisk src).dirs).map Dir.path) :=
    (sort_files_perm _).map _
  have hnodup : ((sort_files (diff (scanDisk dest).dirs
      (scanDisk src).dirs)).map Dir.path).Nodup :=
    hperm.nodup_iff.mpr
      (diff_paths_nodup Dir.path _ (scan_dirs_paths_nodup hdn))
  have hmem_ps : ∀ r, r ∈ (sort_files (diff (scanDisk dest).dirs
      (scanDisk src).dirs)).map Dir.path ↔
      (dest.find? r = some Node.dir ∧
        ¬ src.find? r = some Node.dir) := by
    intro r
    constructor
    · intro hr
      obtain ⟨dd, hdd, rfl⟩ := List.mem_map.mp hr
      have hdd2 : dd ∈ diff (scanDisk dest).dirs (scanDisk src).dirs :=
        (sort_files_perm _).mem_iff.mp hdd
      obtain ⟨h1, h2⟩ := mem_diff_iff.mp hdd2
      rcases dd with ⟨rp⟩
      exact ⟨(scan_dirs_find? hdn).mp h1,
        fun hc => h2 ((scan_dirs_find? hsn).mpr hc)⟩
    · rintro ⟨h1, h2⟩
      refine List.mem_map.mpr ⟨⟨r⟩, ?_, rfl⟩
      refine (sort_files_perm _).mem_iff.mpr ?_
      exact mem_diff_iff.mpr ⟨(scan_dirs_find? hdn).mpr h1,
        fun hc => h2 ((scan_dirs_find? hsn).mp hc)⟩
  have hsorted : ((sort_files (diff (scanDisk dest).dirs
      (scanDisk src).dirs)).map Dir.path).Pairwise
      (fun a b => b.length ≤ a.length) :=
    List.pairwise_map.mpr (sort_files_pairwise _)
  have hdirs : ∀ r ∈ (sort_files (diff (scanDisk dest).dirs
      (scanDisk src).dirs)).map Dir.path,
      (sync4 h hs flags.secure src dest).find? r = some Node.dir := by
    intro r hr
    obtain ⟨hdddir, hnsrc⟩ := (hmem_ps r).mp hr
    rw [hchar r]
    rcases hsq : src.find? r with _ | n
    · rw [stage4Node_of_not_file h hs flags.secure
          (by intro c; rw [hsq]; simp),
        stage3sNode_of_not_symlink (by intro t; rw [hsq]; simp),
        stage3dNode_of_not_dir (by rw [hsq]; simp),
        stage2Node_dest_dir hdddir]
    · cases n with
      | dir => exact absurd hsq hnsrc
      | symlink t =>
          exact absurd (kindCompat_find? hkc hsq hdddir)
            (by simp [Node.kind])
      | file c =>
          exact absurd (kindCompat_find? hkc hsq hdddir)
            (by simp [Node.kind])
  have hdesc : ∀ p ∈ (sort_files (diff (scanDisk dest).dirs
      (scanDisk src).dirs)).map Dir.path, ∀ r, strictlyUnder r p →
      (sync4 h hs flags.secure src dest).find? r ≠ none →
      r ∈ (sort_files (diff (scanDisk dest).dirs
        (scanDisk src).dirs)).map Dir.path := by
    intro p hp r hunder hne
    obtain ⟨hpd, hpns⟩ := (hmem_ps p).mp hp
    have hplen : 0 < p.length :=
      List.length_pos.mpr (closed_find?_ne_nil hdc hpd)
    have hrlen : p.length < r.length := strictlyUnder_length hunder
    rcases hsq : src.find? r with _ | n
    · rw [hchar r, stage4Node_of_not_file h hs flags.secure
          (by intro c; rw [hsq]; simp),
        stage3sNode_of_not_symlink (by intro t; rw [hsq]; simp),
        stage3dNode_of_not_dir (by rw [hsq]; simp)] at hne
      rcases hdq : dest.find? r with _ | m
      · rw [stage2Node_dest_none hdq] at hne
        exact absurd rfl hne
      · cases m with
        | dir => exact (hmem_ps r).mpr ⟨hdq, by rw [hsq]; simp⟩
        | symlink t =>
            rw [stage2Node_sym_not_sym hdq
              (by intro t2; rw [hsq]; simp)] at hne
            exact absurd rfl hne
        | file cc =>
            rw [stage2Node_file_not_file hdq
              (by intro c; rw [hsq]; simp)] at hne
            exact absurd rfl hne
    · exfalso
      have hpre : src.find? (r.take p.length) = some Node.dir :=
        closed_find?_prefix hsc hsq p.length hplen hrlen
      rw [hunder.2] at hpre
      exact hpns hpre
  intro q
  rw [runSync_eq_sync5 h hs src dest flags hnd]
  unfold syncPhase5
  rw [foldl_remove_dir_spec hnodup hsorted hdirs hdesc q]
  by_cases hq : q ∈ (sort_files (diff (scanDisk dest).dirs
      (scanDisk src).dirs)).map Dir.path
  · rw [if_pos hq]
    obtain ⟨hdq, hns⟩ := (hmem_ps q).mp hq
    rcases hsq : src.find? q with _ | n
    · rw [postNode_of_none h hs flags.secure dest hsq]
    · cases n with
      | dir => exact absurd hsq hns
      | symlink t =>
          exact absurd (kindCompat_find? hkc hsq hdq) (by simp [Node.kind])
      | file c =>
          exact absurd (kindCompat_find? hkc hsq hdq) (by simp [Node.kind])
  · rw [if_neg hq, hchar q]
    rcases hsq : src.find? q with _ | n
    · rw [stage4Node_of_not_file h hs flags.secure
          (by intro c; rw [hsq]; simp),
        stage3sNode_of_not_symlink (by intro t; rw [hsq]; simp),
        stage3dNode_of_not_dir (by rw [hsq]; simp),
        postNode_of_none h hs flags.secure dest hsq]
      rcases hdq : dest.find? q with _ | m
      · rw [stage2Node_dest_none hdq]
      · cases m with
        | dir =>
            exact absurd ((hmem_ps q).mpr ⟨hdq, by rw [hsq]; simp⟩) hq
        | symlink t =>
            rw [stage2Node_sym_not_sym hdq (by intro t2; rw [hsq]; simp)]
        | file cc =>
            rw [stage2Node_file_not_file hdq (by intro c; rw [hsq]; simp)]
    · cases n with
      | dir =>
          rw [stage4Node_of_not_file h hs flags.secure
              (by intro c; rw [hsq]; simp),
            stage3sNode_of_not_symlink (by intro t; rw [hsq]; simp),
            stage3dNode_of_dir hsq,
            postNode_of_dir h hs flags.secure dest hsq]
      | symlink t =>
          rw [stage4Node_of_not_file h hs flags.secure
              (by intro c; rw [hsq]; simp),
            stage3sNode_of_symlink hsq,
            postNode_of_symlink h hs flags.secure dest hsq]
      | file c =>
          rcases hdq : dest.find? q with _ | m
          · rw [stage4Node_file_not_file h hs flags.secure hsq
                (by intro cc; rw [hdq]; simp),
              postNode_file_not_file h hs flags.secure hsq
                (by intro cc; rw [hdq]; simp)]
          · cases m with
            | dir =>
                rw [stage4Node_file_not_file h hs flags.secure hsq
                    (by intro cc; rw [hdq]; simp),
                  postNode_file_not_file h hs flags.secure hsq
                    (by intro cc; rw [hdq]; simp)]
            | symlink t =>
                rw [stage4Node_file_not_file h hs flags.secure hsq
                    (by intro cc; rw [hdq]; simp),
                  postNode_file_not_file h hs flags.secure hsq
                    (by intro cc; rw [hdq]; simp)]
            | file cc =>
                rw [stage4Node_file_file h hs flags.secure hsq hdq,
                  postNode_file_file h hs flags.secure hsq hdq]
                by_cases hlen : cc.length = c.length
                · by_cases hm : modeEqB h hs flags.secure c cc = true
                  · rw [if_pos hlen, if_pos hm, if_pos ⟨hlen, hm⟩]
                  · rw [if_pos hlen, if_neg hm,
                      if_neg (fun hcon => hm hcon.2)]
                · rw [if_neg hlen, if_neg (fun hcon => hlen hcon.1)]

/-- After phase 3a of a `NoDelete` run, every source directory path holds
a directory and every other path is untouched. -/
theorem sync3dND_find? (src dest : Disk) (hsw : src.wf)
    (hdn : dest.keysNodup) (hkc : kindCompat src dest) :
    ∀ q, (sync3dND src dest).find? q = stage3dNodeND src dest q := by
  obtain ⟨hsn, hsc⟩ := hsw
  have hXsrc : ∀ dd ∈ diff (scanDisk src).dirs (scanDisk dest).dirs,
      src.find? dd.path = some Node.dir := by
    intro dd hdd
    rcases dd with ⟨pp⟩
    exact (scan_dirs_find? hsn).mp (mem_diff_iff.mp hdd).1
  have hXpre : ∀ p ∈ (diff (scanDisk src).dirs (scanDisk dest).dirs).map
      Dir.path, ∀ i, 0 < i → i ≤ p.length →
      src.find? (p.take i) = some Node.dir := by
    intro p hp i hi hik
    obtain ⟨dd, hdd, rfl⟩ := List.mem_map.mp hp
    have hsd := hXsrc dd hdd
    rcases Nat.lt_or_ge i dd.path.length with hlt | hge
    · exact closed_find?_prefix hsc hsd i hi hlt
    · have hieq : i = dd.path.length := Nat.le_antisymm hik hge
      rw [hieq, List.take_length]
      exact hsd
  have hcomp : ∀ p ∈ (diff (scanDisk src).dirs (scanDisk dest).dirs).map
      Dir.path, ∀ i, 0 < i → i ≤ p.length →
      dirComp (dest.find? (p.take i)) := by
    intro p hp i hi hik
    have hsd := hXpre p hp i hi hik
    rcases hdq : dest.find? (p.take i) with _ | n
    · exact Or.inl rfl
    · cases n with
      | dir => exact Or.inr rfl
      | symlink t =>
          exact absurd (kindCompat_find? hkc hsd hdq) (by simp [Node.kind])
      | file cc =>
          exact absurd (kindCompat_find? hkc hsd hdq) (by simp [Node.kind])
  intro q
  unfold sync3dND syncPhase3d stage3dNodeND
  by_cases hq : src.find? q = some Node.dir
  · rw [if_pos hq]
    by_cases hmem : (⟨q⟩ : Dir) ∈
        diff (scanDisk src).dirs (scanDisk dest).dirs
    · have hq0 : q ≠ [] := closed_find?_ne_nil hsc hq
      have := foldl_create_dir_all_created hcomp q
        (List.mem_map.mpr ⟨⟨q⟩, hmem, rfl⟩) q.length
        (List.length_pos.mpr hq0) (Nat.le_refl _)
      rw [List.take_length] at this
      exact this
    · have hdd : (⟨q⟩ : Dir) ∈ (scanDisk dest).dirs := by
        by_contra hc
        exact hmem (mem_diff_iff.mpr ⟨(scan_dirs_find? hsn).mpr hq, hc⟩)
      have hdq : dest.find? q = some Node.dir := (scan_dirs_find? hdn).mp hdd
      rcases foldl_create_dir_all_mono
          ((diff (scanDisk src).dirs (scanDisk dest).dirs).map Dir.path)
          dest q with heq | ⟨h1, h2⟩
      · rw [heq]
        exact hdq
      · exact h2
  · rw [if_neg hq]
    have hfr : ∀ p ∈ (diff (scanDisk src).dirs (scanDisk dest).dirs).map
        Dir.path, ∀ i, 0 < i → i ≤ p.length → q ≠ p.take i := by
      intro p hp i hi hik hqc
      exact hq (hqc ▸ hXpre p hp i hi hik)
    rw [foldl_create_dir_all_frame hfr]

/-- After phase 3b of a `NoDelete` run, a source symlink is created only
where the destination was vacant; occupied paths are untouched. -/
theorem sync3sND_find? (src dest : Disk) (hsw : src.wf)
    (hdn : dest.keysNodup) (hkc : kindCompat src dest) :
    ∀ q, (sync3sND src dest).find? q = stage3sNodeND src dest q := by
  obtain ⟨hsn, hsc⟩ := hsw
  have hchar := sync3dND_find? src dest ⟨hsn, hsc⟩ hdn hkc
  have hnodup : ((diff (scanDisk src).symlinks
      (scanDisk dest).symlinks).map Symlink.path).Nodup :=
    diff_paths_nodup Symlink.path _ (scan_symlinks_paths_nodup hsn)
  have hsrcX : ∀ s ∈ diff (scanDisk src).symlinks (scanDisk dest).symlinks,
      src.find? s.path = some (Node.symlink s.target) := by
    intro s hsX
    rcases s with ⟨sp, st⟩
    exact (scan_symlinks_find? hsn).mp (mem_diff_iff.mp hsX).1
  have hnotdir : ∀ s ∈ diff (scanDisk src).symlinks
      (scanDisk dest).symlinks,
      (sync3dND src dest).find? s.path ≠ some Node.dir := by
    intro s hsX
    have hss := hsrcX s hsX
    rw [hchar, stage3dNodeND_of_not_dir (by rw [hss]; simp)]
    rcases hdq : dest.find? s.path with _ | n
    · simp
    · cases n with
      | dir =>
          exact absurd (kindCompat_find? hkc hss hdq) (by simp [Node.kind])
      | file cc => simp
      | symlink t => simp
  intro q
  unfold sync3sND syncPhase3s
  rcases hsq : src.find? q with _ | n
  · have hfr : ∀ s ∈ diff (scanDisk src).symlinks
        (scanDisk dest).symlinks, s.path ≠ q := by
      intro s hsX hc
      have hss := hsrcX s hsX
      rw [hc, hsq] at hss
      exact absurd hss (by simp)
    rw [foldl_create_symlink_frame hfr, hchar q,
      stage3sNodeND_of_not_symlink (by intro t; rw [hsq]; simp)]
  · cases n with
    | dir =>
        have hfr : ∀ s ∈ diff (scanDisk src).symlinks
            (scanDisk dest).symlinks, s.path ≠ q := by
          intro s hsX hc
          have hss := hsrcX s hsX
          rw [hc, hsq] at hss
          exact absurd hss (by simp)
        rw [foldl_create_symlink_frame hfr, hchar q,
          stage3sNodeND_of_not_symlink (by intro t; rw [hsq]; simp)]
    | file c =>
        have hfr : ∀ s ∈ diff (scanDisk src).symlinks
            (scanDisk dest).symlinks, s.path ≠ q := by
          intro s hsX hc
          have hss := hsrcX s hsX
          rw [hc, hsq] at hss
          exact absurd hss (by simp)
        rw [foldl_create_symlink_frame hfr, hchar q,
          stage3sNodeND_of_not_symlink (by intro t; rw [hsq]; simp)]
    | symlink tt =>
        by_cases hmem : (⟨q, tt⟩ : Symlink) ∈
            diff (scanDisk src).symlinks (scanDisk dest).symlinks
        · have hmix2 : ((diff (scanDisk src).symlinks
              (scanDisk dest).symlinks).foldl
              (fun d2 s => create_symlink d2 s.path s.target)
              (sync3dND src dest)).find? q =
              if parentIsDir (sync3dND src dest) q = true ∧
                  (sync3dND src dest).find? q = none then
                some (Node.symlink tt)
              else (sync3dND src dest).find? q :=
            foldl_create_symlink_mixed hnodup hnotdir ⟨q, tt⟩ hmem
          rcases hdq : dest.find? q with _ | m
          · have hd3 : (sync3dND src dest).find? q = none := by
              rw [hchar, stage3dNodeND_of_not_dir (by rw [hsq]; simp), hdq]
            have hpar : parentIsDir (sync3dND src dest) q = true := by
              refine parentIsDir_intro (fun hlen => ?_)
              have hsd : src.find? (q.take (q.length - 1)) =
                  some Node.dir :=
                closed_find?_prefix hsc hsq _ (by omega) (by omega)
              rw [hchar, stage3dNodeND_of_dir hsd]
            rw [hmix2, if_pos ⟨hpar, hd3⟩, stage3sNodeND_sym_none hsq hdq]
          · have hd3 : (sync3dND src dest).find? q = some m := by
              rw [hchar, stage3dNodeND_of_not_dir (by rw [hsq]; simp), hdq]
            rw [hmix2, if_neg (fun hcon => by
                rw [hd3] at hcon
                exact absurd hcon.2 (by simp)), hd3,
              stage3sNodeND_sym_some hsq hdq]
        · have hdd : (⟨q, tt⟩ : Symlink) ∈ (scanDisk dest).symlinks := by
            by_contra hc
            exact hmem (mem_diff_iff.mpr
              ⟨(scan_symlinks_find? hsn).mpr hsq, hc⟩)
          have hdq : dest.find? q = some (Node.symlink tt) :=
            (scan_symlinks_find? hdn).mp hdd
          have hfr : ∀ s ∈ diff (scanDisk src).symlinks
              (scanDisk dest).symlinks, s.path ≠ q := by
            intro s hsX hc
            have hss := hsrcX s hsX
            rw [hc, hsq] at hss
            have h1 : tt = s.target := by simpa using hss
            refine (mem_diff_iff.mp hsX).2 ?_
            rcases s with ⟨sp, st⟩
            simp only at hc h1
            rw [← hc, h1] at hdd
            exact hdd
          rw [foldl_create_symlink_frame hfr, hchar q,
            stage3dNodeND_of_not_dir (by rw [hsq]; simp), hdq,
            stage3sNodeND_sym_some hsq hdq]

/-- After phase 3c of a `NoDelete` run, every source-only file carries
the source bytes (`fs::copy` overwrites same-path different-size
destination files) and every other path holds its phase-3b value. -/
theorem sync3fND_find? (src dest : Disk) (hsw : src.wf)
    (hdn : dest.keysNodup) (hkc : kindCompat src dest) :
    ∀ q, (sync3fND src dest).find? q = stage3fNodeND src dest q := by
  obtain ⟨hsn, hsc⟩ := hsw
  have hchar := sync3sND_find? src dest ⟨hsn, hsc⟩ hdn hkc
  have hnodup : ((diff (scanDisk src).files (scanDisk dest).files).map
      File.path).Nodup :=
    diff_paths_nodup File.path _ (scan_files_paths_nodup hsn)
  have hsrcX : ∀ f ∈ diff (scanDisk src).files (scanDisk dest).files,
      ∃ c, src.find? f.path = some (Node.file c) ∧ c.length = f.size := by
    intro f hf
    rcases f with ⟨fp, fs⟩
    exact (scan_files_find? hsn).mp (mem_diff_iff.mp hf).1
  have hread : ∀ f ∈ diff (scanDisk src).files (scanDisk dest).files,
      ∃ c, readFile src f.path = some c := by
    intro f hf
    obtain ⟨c, hc, _⟩ := hsrcX f hf
    exact ⟨c, readFile_eq_some_iff.mpr hc⟩
  have hok : ∀ f ∈ diff (scanDisk src).files (scanDisk dest).files,
      (sync3sND src dest).find? f.path = none ∨
        ∃ c0, (sync3sND src dest).find? f.path = some (Node.file c0) := by
    intro f hf
    obtain ⟨c, hc, hlen⟩ := hsrcX f hf
    rw [hchar f.path,
      stage3sNodeND_of_not_symlink (by intro t; rw [hc]; simp),
      stage3dNodeND_of_not_dir (by rw [hc]; simp)]
    rcases hdq : dest.find? f.path with _ | m
    · exact Or.inl rfl
    · cases m with
      | dir =>
          exact absurd (kindCompat_find? hkc hc hdq) (by simp [Node.kind])
      | symlink t =>
          exact absurd (kindCompat_find? hkc hc hdq) (by simp [Node.kind])
      | file cc => exact Or.inr ⟨cc, rfl⟩
  have hpar : ∀ f ∈ diff (scanDisk src).files (scanDisk dest).files,
      parentIsDir (sync3sND src dest) f.path = true := by
    intro f hf
    obtain ⟨c, hc, _⟩ := hsrcX f hf
    refine parentIsDir_intro (fun hlen => ?_)
    have hsd : src.find? (f.path.take (f.path.length - 1)) =
        some Node.dir :=
      closed_find?_prefix hsc hc _ (by omega) (by omega)
    rw [hchar,
      stage3sNodeND_of_not_symlink (by intro t; rw [hsd]; simp),
      stage3dNodeND_of_dir hsd]
  intro q
  unfold sync3fND syncPhase3f
  rcases hsq : src.find? q with _ | n
  · have hfr : ∀ f ∈ diff (scanDisk src).files (scanDisk dest).files,
        f.path ≠ q := by
      intro f hf hc
      obtain ⟨c, hcf, _⟩ := hsrcX f hf
      rw [hc, hsq] at hcf
      exact absurd hcf (by simp)
    rw [foldl_copy_file_frame hfr, hchar q,
      stage3fNodeND_of_not_file (by intro c; rw [hsq]; simp)]
  · cases n with
    | dir =>
        have hfr : ∀ f ∈ diff (scanDisk src).files (scanDisk dest).files,
            f.path ≠ q := by
          intro f hf hc
          obtain ⟨c, hcf, _⟩ := hsrcX f hf
          rw [hc, hsq] at hcf
          exact absurd hcf (by simp)
        rw [foldl_copy_file_frame hfr, hchar q,
          stage3fNodeND_of_not_file (by intro c; rw [hsq]; simp)]
    | symlink t =>
        have hfr : ∀ f ∈ diff (scanDisk src).files (scanDisk dest).files,
            f.path ≠ q := by
          intro f hf hc
          obtain ⟨c, hcf, _⟩ := hsrcX f hf
          rw [hc, hsq] at hcf
          exact absurd hcf (by simp)
        rw [foldl_copy_file_frame hfr, hchar q,
          stage3fNodeND_of_not_file (by intro c; rw [hsq]; simp)]
    | file c =>
        rcases hdq : dest.find? q with _ | m
        · rw [stage3fNodeND_file_not_file hsq
              (by intro cc; rw [hdq]; simp)]
          have hmem : (⟨q, c.length⟩ : File) ∈
              diff (scanDisk src).files (scanDisk dest).files := by
            refine mem_diff_iff.mpr
              ⟨(scan_files_find? hsn).mpr ⟨c, hsq, rfl⟩, ?_⟩
            intro hcon
            obtain ⟨cc, hcc, _⟩ := (scan_files_find? hdn).mp hcon
            rw [hdq] at hcc
            exact absurd hcc (by simp)
          exact foldl_copy_file_copied hnodup hread hok hpar
            ⟨q, c.length⟩ hmem c (readFile_eq_some_iff.mpr hsq)
        · cases m with
          | dir =>
              exact absurd (kindCompat_find? hkc hsq hdq)
                (by simp [Node.kind])
          | symlink t =>
              exact absurd (kindCompat_find? hkc hsq hdq)
                (by simp [Node.kind])
          | file cc =>
              rw [stage3fNodeND_file_file hsq hdq]
              by_cases hlen : cc.length = c.length
              · rw [if_pos hlen]
                have hfr : ∀ f ∈ diff (scanDisk src).files
                    (scanDisk dest).files, f.path ≠ q := by
                  intro f hf hc
                  obtain ⟨c2, hcf, hlen2⟩ := hsrcX f hf
                  rw [hc] at hcf
                  rw [hsq] at hcf
                  have hc2 : c2 = c := by simpa using hcf.symm
                  refine (mem_diff_iff.mp hf).2 ?_
                  rcases f with ⟨fp, fs⟩
                  simp only at hc hlen2
                  rw [hc]
                  refine (scan_files_find? hdn).mpr ⟨cc, hdq, ?_⟩
                  rw [hlen, ← hlen2, hc2]
                rw [foldl_copy_file_frame hfr, hchar q,
                  stage3sNodeND_of_not_symlink
                    (by intro t; rw [hsq]; simp),
                  stage3dNodeND_of_not_dir (by rw [hsq]; simp), hdq]
              · rw [if_neg hlen]
                have hmem : (⟨q, c.length⟩ : File) ∈
                    diff (scanDisk src).files (scanDisk dest).files := by
                  refine mem_diff_iff.mpr
                    ⟨(scan_files_find? hsn).mpr ⟨c, hsq, rfl⟩, ?_⟩
                  intro hcon
                  obtain ⟨cc2, hcc2, hlen2⟩ :=
                    (scan_files_find? hdn).mp hcon
                  rw [hdq] at hcc2
                  have : cc2 = cc := by simpa using hcc2.symm
                  subst this
                  exact hlen hlen2
                exact foldl_copy_file_copied hnodup hread hok hpar
                  ⟨q, c.length⟩ hmem c (readFile_eq_some_iff.mpr hsq)

/-- After phase 4 of a `NoDelete` run — the run's final state — every
path holds its `stage4NodeND` value. -/
theorem sync4ND_find? (h : Content → Nat) (hs : Content → List Nat)
    (sec : Bool) (src dest : Disk) (hsw : src.wf) (hdn : dest.keysNodup)
    (hkc : kindCompat src dest) :
    ∀ q, (sync4ND h hs sec src dest).find? q =
      stage4NodeND h hs sec src dest q := by
  obtain ⟨hsn, hsc⟩ := hsw
  have hchar := sync3fND_find? src dest ⟨hsn, hsc⟩ hdn hkc
  have hnodup : ((inter (scanDisk src).files (scanDisk dest).files).map
      File.path).Nodup :=
    inter_paths_nodup File.path _ (scan_files_paths_nodup hsn)
  have hmemX : ∀ f ∈ inter (scanDisk src).files (scanDisk dest).files,
      ∃ c cc, src.find? f.path = some (Node.file c) ∧ c.length = f.size ∧
        dest.find? f.path = some (Node.file cc) ∧ cc.length = f.size := by
    intro f hf
    obtain ⟨h1, h2⟩ := mem_inter_iff.mp hf
    rcases f with ⟨fp, fs⟩
    obtain ⟨c, hc, hlc⟩ := (scan_files_find? hsn).mp h1
    obtain ⟨cc, hcc, hlcc⟩ := (scan_files_find? hdn).mp h2
    exact ⟨c, cc, hc, hlc, hcc, hlcc⟩
  have hread : ∀ f ∈ inter (scanDisk src).files (scanDisk dest).files,
      ∃ c, readFile src f.path = some c := by
    intro f hf
    obtain ⟨c, _, hc, _, _, _⟩ := hmemX f hf
    exact ⟨c, readFile_eq_some_iff.mpr hc⟩
  have hdest : ∀ f ∈ inter (scanDisk src).files (scanDisk dest).files,
      ∃ c0, (sync3fND src dest).find? f.path = some (Node.file c0) := by
    intro f hf
    obtain ⟨c, cc, hc, hlc, hcc, hlcc⟩ := hmemX f hf
    have hlen : cc.length = c.length := by rw [hlcc, hlc]
    exact ⟨cc, by rw [hchar, stage3fNodeND_file_file hc hcc, if_pos hlen]⟩
  have hpar : ∀ f ∈ inter (scanDisk src).files (scanDisk dest).files,
      parentIsDir (sync3fND src dest) f.path = true := by
    intro f hf
    obtain ⟨c, _, hc, _, _, _⟩ := hmemX f hf
    refine parentIsDir_intro (fun hlen => ?_)
    have hsd : src.find? (f.path.take (f.path.length - 1)) =
        some Node.dir :=
      closed_find?_prefix hsc hc _ (by omega) (by omega)
    rw [hchar, stage3fNodeND_of_not_file (by intro c2; rw [hsd]; simp),
      stage3sNodeND_of_not_symlink (by intro t; rw [hsd]; simp),
      stage3dNodeND_of_dir hsd]
  intro q
  unfold sync4ND syncPhase4
  rcases hsq : src.find? q with _ | n
  · have hfr : ∀ f ∈ inter (scanDisk src).files (scanDisk dest).files,
        f.path ≠ q := by
      intro f hf hc
      obtain ⟨c, _, hcf, _, _, _⟩ := hmemX f hf
      rw [hc, hsq] at hcf
      exact absurd hcf (by simp)
    rw [foldl_compare_frame h hs sec hfr, hchar q,
      stage3fNodeND_of_not_file (by intro c; rw [hsq]; simp),
      stage4NodeND_of_not_file h hs sec (by intro c; rw [hsq]; simp)]
  · cases n with
    | dir =>
        have hfr : ∀ f ∈ inter (scanDisk src).files (scanDisk dest).files,
            f.path ≠ q := by
          intro f hf hc
          obtain ⟨c, _, hcf, _, _, _⟩ := hmemX f hf
          rw [hc, hsq] at hcf
          exact absurd hcf (by simp)
        rw [foldl_compare_frame h hs sec hfr, hchar q,
          stage3fNodeND_of_not_file (by intro c; rw [hsq]; simp),
          stage4NodeND_of_not_file h hs sec (by intro c; rw [hsq]; simp)]
    | symlink t =>
        have hfr : ∀ f ∈ inter (scanDisk src).files (scanDisk dest).files,
            f.path ≠ q := by
          intro f hf hc
          obtain ⟨c, _, hcf, _, _, _⟩ := hmemX f hf
          rw [hc, hsq] at hcf
          exact absurd hcf (by simp)
        rw [foldl_compare_frame h hs sec hfr, hchar q,
          stage3fNodeND_of_not_file (by intro c; rw [hsq]; simp),
          stage4NodeND_of_not_file h hs sec (by intro c; rw [hsq]; simp)]
    | file c =>
        rcases hdq : dest.find? q with _ | m
        · have hfr : ∀ f ∈ inter (scanDisk src).files
              (scanDisk dest).files, f.path ≠ q := by
            intro f hf hc
            obtain ⟨_, cc, _, _, hccf, _⟩ := hmemX f hf
            rw [hc, hdq] at hccf
            exact absurd hccf (by simp)
          rw [foldl_compare_frame h hs sec hfr, hchar q,
            stage3fNodeND_file_not_file hsq (by intro cc; rw [hdq]; simp),
            stage4NodeND_file_not_file h hs sec hsq
              (by intro cc; rw [hdq]; simp)]
        · cases m with
          | dir =>
              have hfr : ∀ f ∈ inter (scanDisk src).files
                  (scanDisk dest).files, f.path ≠ q := by
                intro f hf hc
                obtain ⟨_, cc, _, _, hccf, _⟩ := hmemX f hf
                rw [hc, hdq] at hccf
                exact absurd hccf (by simp)
              rw [foldl_compare_frame h hs sec hfr, hchar q,
                stage3fNodeND_file_not_file hsq
                  (by intro cc; rw [hdq]; simp),
                stage4NodeND_file_not_file h hs sec hsq
                  (by intro cc; rw [hdq]; simp)]
          | symlink t =>
              have hfr : ∀ f ∈ inter (scanDisk src).files
                  (scanDisk dest).files, f.path ≠ q := by
                intro f hf hc
                obtain ⟨_, cc, _, _, hccf, _⟩ := hmemX f hf
                rw [hc, hdq] at hccf
                exact absurd hccf (by simp)
              rw [foldl_compare_frame h hs sec hfr, hchar q,
                stage3fNodeND_file_not_file hsq
                  (by intro cc; rw [hdq]; simp),
                stage4NodeND_file_not_file h hs sec hsq
                  (by intro cc; rw [hdq]; simp)]
          | file cc =>
              by_cases hlen : cc.length = c.length
              · have hmem : (⟨q, c.length⟩ : File) ∈
                    inter (scanDisk src).files (scanDisk dest).files :=
                  mem_inter_iff.mpr
                    ⟨(scan_files_find? hsn).mpr ⟨c, hsq, rfl⟩,
                     (scan_files_find? hdn).mpr ⟨cc, hdq, hlen⟩⟩
                have h3f : (sync3fND src dest).find? q =
                    some (Node.file cc) := by
                  rw [hchar, stage3fNodeND_file_file hsq hdq, if_pos hlen]
                have hcmp := foldl_compare_compared h hs sec hnodup hread
                  hdest hpar ⟨q, c.length⟩ hmem c cc
                  (readFile_eq_some_iff.mpr hsq) h3f
                rw [stage4NodeND_file_file h hs sec hsq hdq, if_pos hlen]
                refine hcmp.trans ?_
                by_cases hm : modeEqB h hs sec c cc = true
                · rw [if_pos hm, if_pos hm]
                · rw [if_neg hm, if_neg hm]
              · have hfr : ∀ f ∈ inter (scanDisk src).files
                    (scanDisk dest).files, f.path ≠ q := by
                  intro f hf hc
                  obtain ⟨c2, cc2, hc2, hl2, hcc2, hlcc2⟩ := hmemX f hf
                  rw [hc, hsq] at hc2
                  rw [hc, hdq] at hcc2
                  have he1 : c2 = c := by simpa using hc2.symm
                  have he2 : cc2 = cc := by simpa using hcc2.symm
                  refine hlen ?_
                  rw [← he1, ← he2, hl2, hlcc2]
                rw [foldl_compare_frame h hs sec hfr, hchar q,
                  stage3fNodeND_file_file hsq hdq, if_neg hlen,
                  stage4NodeND_file_file h hs sec hsq hdq, if_neg hlen]

theorem modeEqB_refl (h : Content → Nat) (hs : Content → List Nat)
    (sec : Bool) (c : Content) : modeEqB h hs sec c c = true := by
  unfold modeEqB
  cases sec <;> simp

theorem postNode_file_shape (h : Content → Nat) (hs : Content → List Nat)
    (sec : Bool) {src dest : Disk} {q : Path} {c : Content}
    (hsq : src.find? q = some (Node.file c)) :
    ∃ v, postNode h hs sec src dest q = some (Node.file v) ∧
      v.length = c.length := by
  rcases hdq : dest.find? q with _ | m
  · exact ⟨c, postNode_file_not_file h hs sec hsq
      (by intro cc; rw [hdq]; simp), rfl⟩
  · cases m with
    | dir =>
        exact ⟨c, postNode_file_not_file h hs sec hsq
          (by intro cc; rw [hdq]; simp), rfl⟩
    | symlink t =>
        exact ⟨c, postNode_file_not_file h hs sec hsq
          (by intro cc; rw [hdq]; simp), rfl⟩
    | file cc =>
        rw [postNode_file_file h hs sec hsq hdq]
        by_cases hg : cc.length = c.length ∧ modeEqB h hs sec c cc = true
        · rw [if_pos hg]
          exact ⟨cc, rfl, hg.1⟩
        · rw [if_neg hg]
          exact ⟨c, rfl, rfl⟩

theorem postNode_symlink_inv (h : Content → Nat) (hs : Content → List Nat)
    (sec : Bool) {src dest : Disk} {q t : Path}
    (hp : postNode h hs sec src dest q = some (Node.symlink t)) :
    src.find? q = some (Node.symlink t) := by
  rcases hsq : src.find? q with _ | n
  · rw [postNode_of_none h hs sec dest hsq] at hp
    exact absurd hp (by simp)
  · cases n with
    | dir =>
        rw [postNode_of_dir h hs sec dest hsq] at hp
        exact absurd hp (by simp)
    | symlink t2 =>
        rw [postNode_of_symlink h hs sec dest hsq] at hp
        have ht : t2 = t := by simpa using hp
        rw [ht]
    | file c =>
        obtain ⟨v, hv, _⟩ := postNode_file_shape h hs sec hsq
        rw [hv] at hp
        exact absurd hp (by simp)

theorem postNode_dir_inv (h : Content → Nat) (hs : Content → List Nat)
    (sec : Bool) {src dest : Disk} {q : Path}
    (hp : postNode h hs sec src dest q = some Node.dir) :
    src.find? q = some Node.dir := by
  rcases hsq : src.find? q with _ | n
  · rw [postNode_of_none h hs sec dest hsq] at hp
    exact absurd hp (by simp)
  · cases n with
    | dir => rfl
    | symlink t2 =>
        rw [postNode_of_symlink h hs sec dest hsq] at hp
        exact absurd hp (by simp)
    | file c =>
        obtain ⟨v, hv, _⟩ := postNode_file_shape h hs sec hsq
        rw [hv] at hp
        exact absurd hp (by simp)

theorem postNode_file_inv (h : Content → Nat) (hs : Content → List Nat)
    (sec : Bool) {src dest : Disk} {q : Path} {c0 : Content}
    (hp : postNode h hs sec src dest q = some (Node.file c0)) :
    ∃ c, src.find? q = some (Node.file c) ∧ c.length = c0.length ∧
      modeEqB h hs sec c c0 = true := by
  rcases hsq : src.find? q with _ | n
  · rw [postNode_of_none h hs sec dest hsq] at hp
    exact absurd hp (by simp)
  · cases n with
    | dir =>
        rw [postNode_of_dir h hs sec dest hsq] at hp
        exact absurd hp (by simp)
    | symlink t2 =>
        rw [postNode_of_symlink h hs sec dest hsq] at hp
        exact absurd hp (by simp)
    | file c =>
        rcases hdq : dest.find? q with _ | m
        · rw [postNode_file_not_file h hs sec hsq
            (by intro cc; rw [hdq]; simp)] at hp
          have hcc : c = c0 := by simpa using hp
          exact ⟨c, rfl, by rw [hcc],
            by rw [← hcc]; exact modeEqB_refl h hs sec c⟩
        · cases m with
          | dir =>
              rw [postNode_file_not_file h hs sec hsq
                (by intro cc; rw [hdq]; simp)] at hp
              have hcc : c = c0 := by simpa using hp
              exact ⟨c, rfl, by rw [hcc],
                by rw [← hcc]; exact modeEqB_refl h hs sec c⟩
          | symlink t =>
              rw [postNode_file_not_file h hs sec hsq
                (by intro cc; rw [hdq]; simp)] at hp
              have hcc : c = c0 := by simpa using hp
              exact ⟨c, rfl, by rw [hcc],
                by rw [← hcc]; exact modeEqB_refl h hs sec c⟩
          | file cc =>
              rw [postNode_file_file h hs sec hsq hdq] at hp
              by_cases hg : cc.length = c.length ∧
                  modeEqB h hs sec c cc = true
              · rw [if_pos hg] at hp
                have hcc : cc = c0 := by simpa using hp
                exact ⟨c, rfl, by rw [← hcc]; exact hg.1.symm,
                  by rw [← hcc]; exact hg.2⟩
              · rw [if_neg hg] at hp
                have hcc : c = c0 := by simpa using hp
                exact ⟨c, rfl, by rw [hcc],
                  by rw [← hcc]; exact modeEqB_refl h hs sec c⟩

/-- C9 counterexample: `synchronize` is not idempotent on arbitrary
states.  With a source file `a` and a destination directory `a`, the
first run fails to copy the file (`fs::copy` cannot overwrite a
directory) but still deletes the empty directory in phase 5, so the
second run copies the file and changes the destination again. -/
theorem claim_C9_counterexample :
    runSync (fun c => c.length) (fun c => c) ⟨[(["a"], Node.file [1])]⟩
        (runSync (fun c => c.length) (fun c => c)
          ⟨[(["a"], Node.file [1])]⟩ ⟨[(["a"], Node.dir)]⟩
          ⟨false, false, false, false⟩)
        ⟨false, false, false, false⟩ ≠
      runSync (fun c => c.length) (fun c => c) ⟨[(["a"], Node.file [1])]⟩
        ⟨[(["a"], Node.dir)]⟩ ⟨false, false, false, false⟩ := by
  decide

/-- C9 (amended): for well-formed scans with no path changing kind
between the roots, a deletion-enabled `synchronize` is idempotent —
the second run's plan hands an empty entry list to every copy and delete
invocation, and executing the second run returns the destination of the
first run unchanged. -/
theorem claim_C9_amended_idempotent (h : Content → Nat)
    (hs : Content → List Nat) (src dest : Disk) (flags : Flags)
    (hnd : flags.noDelete = false) (hsw : src.wf) (hdw : dest.wf)
    (hkc : kindCompat src dest) :
    (∀ call ∈ synchronize (scanDisk src)
        (scanDisk (runSync h hs src dest flags)) flags,
      call.kind ≠ CallKind.compareCopy → call.items = []) ∧
    runSync h hs src (runSync h hs src dest flags) flags =
      runSync h hs src dest flags := by
  obtain ⟨hsn, hsc⟩ := hsw
  have hd1 := runSync_find? h hs src dest flags hnd ⟨hsn, hsc⟩ hdw hkc
  have hd1n : (runSync h hs src dest flags).keysNodup :=
    runSync_keysNodup h hs src dest flags hdw.1
  have hA : diff (scanDisk (runSync h hs src dest flags)).symlinks
      (scanDisk src).symlinks = [] := by
    refine diff_eq_nil ?_
    intro x hx
    rcases x with ⟨p, tt⟩
    have hf := (scan_symlinks_find? hd1n).mp hx
    rw [hd1 p] at hf
    exact (scan_symlinks_find? hsn).mpr
      (postNode_symlink_inv h hs flags.secure hf)
  have hB : diff (scanDisk (runSync h hs src dest flags)).files
      (scanDisk src).files = [] := by
    refine diff_eq_nil ?_
    intro x hx
    rcases x with ⟨p, s⟩
    obtain ⟨c0, hc0, hl0⟩ := (scan_files_find? hd1n).mp hx
    rw [hd1 p] at hc0
    obtain ⟨c, hcs, hlen, _⟩ := postNode_file_inv h hs flags.secure hc0
    exact (scan_files_find? hsn).mpr ⟨c, hcs, by rw [hlen, hl0]⟩
  have hC : diff (scanDisk src).dirs
      (scanDisk (runSync h hs src dest flags)).dirs = [] := by
    refine diff_eq_nil ?_
    intro x hx
    rcases x with ⟨p⟩
    have hf := (scan_dirs_find? hsn).mp hx
    refine (scan_dirs_find? hd1n).mpr ?_
    rw [hd1 p]
    exact postNode_of_dir h hs flags.secure dest hf
  have hD : diff (scanDisk src).symlinks
      (scanDisk (runSync h hs src dest flags)).symlinks = [] := by
    refine diff_eq_nil ?_
    intro x hx
    rcases x with ⟨p, tt⟩
    have hf := (scan_symlinks_find? hsn).mp hx
    refine (scan_symlinks_find? hd1n).mpr ?_
    rw [hd1 p]
    exact postNode_of_symlink h hs flags.secure dest hf
  have hE : diff (scanDisk src).files
      (scanDisk (runSync h hs src dest flags)).files = [] := by
    refine diff_eq_nil ?_
    intro x hx
    rcases x with ⟨p, s⟩
    obtain ⟨c, hc, hl⟩ := (scan_files_find? hsn).mp hx
    obtain ⟨v, hv, hlv⟩ :=
      @postNode_file_shape h hs flags.secure src dest p c hc
    refine (scan_files_find? hd1n).mpr ⟨v, ?_, by rw [hlv, hl]⟩
    rw [hd1 p]
    exact hv
  have hF : diff (scanDisk (runSync h hs src dest flags)).dirs
      (scanDisk src).dirs = [] := by
    refine diff_eq_nil ?_
    intro x hx
    rcases x with ⟨p⟩
    have hf := (scan_dirs_find? hd1n).mp hx
    rw [hd1 p] at hf
    exact (scan_dirs_find? hsn).mpr (postNode_dir_inv h hs flags.secure hf)
  have h4 : syncPhase4 h hs flags.secure (scanDisk src)
      (scanDisk (runSync h hs src dest flags)) src
      (runSync h hs src dest flags) = runSync h hs src dest flags := by
    unfold syncPhase4
    refine foldl_fix ?_
    intro f hf
    obtain ⟨h1, h2⟩ := mem_inter_iff.mp hf
    rcases f with ⟨fp, fs⟩
    obtain ⟨c, hc, hlc⟩ := (scan_files_find? hsn).mp h1
    obtain ⟨c0, hc0, hlc0⟩ := (scan_files_find? hd1n).mp h2
    have hpost : postNode h hs flags.secure src dest fp =
        some (Node.file c0) := by
      rw [← hd1 fp]
      exact hc0
    obtain ⟨c2, hc2, hlen2, hm2⟩ := postNode_file_inv h hs flags.secure hpost
    have hcc : c2 = c := by
      rw [hc] at hc2
      simpa using hc2.symm
    refine compare_and_copy_file_noop h hs flags.secure src _ fp c c0
      (readFile_eq_some_iff.mpr hc) (readFile_eq_some_iff.mpr hc0) ?_
    rw [← hcc]
    exact hm2
  constructor
  · intro call hcall hkind
    rcases mem_synchronize_cases hcall with
      ⟨_, rfl | rfl | rfl⟩ | rfl | rfl | rfl | rfl
    · simp [hA]
    · simp [hB]
    · simp [hF, sort_files]
    · simp [hC]
    · simp [hD]
    · simp [hE]
    · exact absurd rfl hkind
  · rw [runSync_eq_phases h hs src (runSync h hs src dest flags) flags hnd]
    have h2 : syncPhase2 (scanDisk src)
        (scanDisk (runSync h hs src dest flags))
        (runSync h hs src dest flags) = runSync h hs src dest flags := by
      unfold syncPhase2
      rw [hA, hB]
      rfl
    have h3d : syncPhase3d (scanDisk src)
        (scanDisk (runSync h hs src dest flags))
        (runSync h hs src dest flags) = runSync h hs src dest flags := by
      unfold syncPhase3d
      rw [hC]
      rfl
    have h3s : syncPhase3s (scanDisk src)
        (scanDisk (runSync h hs src dest flags))
        (runSync h hs src dest flags) = runSync h hs src dest flags := by
      unfold syncPhase3s
      rw [hD]
      rfl
    have h3f : syncPhase3f (scanDisk src)
        (scanDisk (runSync h hs src dest flags)) src
        (runSync h hs src dest flags) = runSync h hs src dest flags := by
      unfold syncPhase3f
      rw [hE]
      rfl
    have h5 : syncPhase5 (scanDisk src)
        (scanDisk (runSync h hs src dest flags))
        (runSync h hs src dest flags) = runSync h hs src dest flags := by
      unfold syncPhase5
      rw [hF]
      rfl
    rw [h2, h3d, h3s, h3f, h4, h5]

/-- Witness for the amended C9 theorem at a concrete pair of well-formed,
kind-compatible roots. -/
theorem claim_C9_amended_idempotent_witness :
    (⟨false, false, false, false⟩ : Flags).noDelete = false ∧
    Disk.wf ⟨[(["x"], Node.file [1])]⟩ ∧
    Disk.wf ⟨[(["y"], Node.file [2])]⟩ ∧
    kindCompat ⟨[(["x"], Node.file [1])]⟩ ⟨[(["y"], Node.file [2])]⟩ ∧
    runSync (fun c => c.length) (fun c => c) ⟨[(["x"], Node.file [1])]⟩
        (runSync (fun c => c.length) (fun c => c)
          ⟨[(["x"], Node.file [1])]⟩ ⟨[(["y"], Node.file [2])]⟩
          ⟨false, false, false, false⟩)
        ⟨false, false, false, false⟩ =
      runSync (fun c => c.length) (fun c => c) ⟨[(["x"], Node.file [1])]⟩
        ⟨[(["y"], Node.file [2])]⟩ ⟨false, false, false, false⟩ :=
  ⟨rfl, by decide, by decide, by decide,
    (claim_C9_amended_idempotent (fun c => c.length) (fun c => c)
      ⟨[(["x"], Node.file [1])]⟩ ⟨[(["y"], Node.file [2])]⟩
      ⟨false, false, false, false⟩ rfl (by decide) (by decide)
      (by decide)).2⟩

/-- C7 counterexample: with `NoDelete` set, a file present only in the
source need not be copied in.  Here the source holds directory `a` and
file `a/f`, the destination holds a regular file `a`: `create_dir_all`
fails on the existing file, the parent of `a/f` never becomes a
directory, and `fs::copy` of `a/f` fails, leaving the source-only file
absent from the destination. -/
theorem claim_C7_counterexample :
    (⟨["a", "f"], 1⟩ : File) ∈
      diff (scanDisk ⟨[(["a"], Node.dir),
          (["a", "f"], Node.file [1])]⟩).files
        (scanDisk ⟨[(["a"], Node.file [])]⟩).files ∧
    (runSync (fun c => c.length) (fun c => c)
        ⟨[(["a"], Node.dir), (["a", "f"], Node.file [1])]⟩
        ⟨[(["a"], Node.file [])]⟩ ⟨true, false, false, false⟩).find?
      ["a", "f"] = none := by
  decide

/-- C7 (amended): with `NoDelete` set the plan contains no delete
invocation at all; and when both scans are well-formed and no path
changes kind between the roots, destination-only nodes survive
untouched, source-only files are copied in, and common-path files whose
contents differ under the mode-selected hash are overwritten with the
source bytes. -/
theorem claim_C7_amended_no_delete_frame (h : Content → Nat)
    (hs : Content → List Nat) (src dest : Disk) (flags : Flags)
    (hnd : flags.noDelete = true) (hsw : src.wf) (hdw : dest.wf)
    (hkc : kindCompat src dest) :
    (∀ call ∈ synchronize (scanDisk src) (scanDisk dest) flags,
      call.kind ≠ CallKind.delete) ∧
    (∀ q n, src.find? q = none → dest.find? q = some n →
      (runSync h hs src dest flags).find? q = some n) ∧
    (∀ q c, src.find? q = some (Node.file c) → dest.find? q = none →
      (runSync h hs src dest flags).find? q = some (Node.file c)) ∧
    (∀ q c cc, src.find? q = some (Node.file c) →
      dest.find? q = some (Node.file cc) →
      modeEqB h hs flags.secure c cc = false →
      (runSync h hs src dest flags).find? q = some (Node.file c)) := by
  have hrw := runSyncND_eq_phases h hs src dest flags hnd
  have hchar := sync4ND_find? h hs flags.secure src dest hsw hdw.1 hkc
  refine ⟨?_, ?_, ?_, ?_⟩
  · intro call hcall
    rcases mem_synchronize_cases hcall with
      ⟨hfalse, _⟩ | rfl | rfl | rfl | rfl
    · rw [hnd] at hfalse
      exact absurd hfalse (by simp)
    · simp
    · simp
    · simp
    · simp
  · intro q n hsq hdq
    rw [hrw, hchar q,
      stage4NodeND_of_not_file h hs flags.secure
        (by intro c; rw [hsq]; simp),
      stage3sNodeND_of_not_symlink (by intro tt; rw [hsq]; simp),
      stage3dNodeND_of_not_dir (by rw [hsq]; simp), hdq]
  · intro q c hsq hdq
    rw [hrw, hchar q,
      stage4NodeND_file_not_file h hs flags.secure hsq
        (by intro cc; rw [hdq]; simp)]
  · intro q c cc hsq hdq hm
    rw [hrw, hchar q, stage4NodeND_file_file h hs flags.secure hsq hdq]
    by_cases hlen : cc.length = c.length
    · rw [if_pos hlen, if_neg (by simp [hm])]
    · rw [if_neg hlen]

/-- Witness for the amended C7 theorem at a concrete pair of well-formed,
kind-compatible roots. -/
theorem claim_C7_amended_no_delete_frame_witness :
    (⟨true, false, false, false⟩ : Flags).noDelete = true ∧
    Disk.wf ⟨[(["s"], Node.file [5])]⟩ ∧
    Disk.wf ⟨[(["d"], Node.file [7])]⟩ ∧
    kindCompat ⟨[(["s"], Node.file [5])]⟩ ⟨[(["d"], Node.file [7])]⟩ ∧
    (runSync (fun c => c.length) (fun c => c) ⟨[(["s"], Node.file [5])]⟩
        ⟨[(["d"], Node.file [7])]⟩ ⟨true, false, false, false⟩).find?
      ["d"] = some (Node.file [7]) :=
  ⟨rfl, by decide, by decide, by decide,
    (claim_C7_amended_no_delete_frame (fun c => c.length) (fun c => c)
      ⟨[(["s"], Node.file [5])]⟩ ⟨[(["d"], Node.file [7])]⟩
      ⟨true, false, false, false⟩ rfl (by decide) (by decide)
      (by decide)).2.1 ["d"] (Node.file [7]) (by decide) (by decide)⟩

end Lumins